import Mathlib

/-! # Sharded map/reduce materialiser: a verification development

A shallow embedding of `src/mapreduce/mapreduce.go` (package `mapreduce`) and of the
shard test it is routed by.  Go strings are Lean strings, `uint64` values are
naturals reduced modulo `2 ^ 64`, calls into other packages (`btrfs`, `container`,
`route`, `s3utils`, `net/http`) go through one explicit `Sys` interface that threads a
world state and records every call in a trace, and goroutines are threads of small
step machines driven by a schedule.
-/

namespace MapReduce

/-! ## Constants (`mapreduce.go`, lines 22-26) -/

/-- Number of attempts given to `retry` by `mapFile` and `Reduce`. -/
def retries : Nat := 5

/-- Width of the worker semaphore when the job does not set `parallel`. -/
def defaultParallel : Nat := 100

/-- Number of files dispatched to one mapper container before it is replaced. -/
def usesPerMapper : Nat := 2000

/-- Values of Go's `uint64` are naturals below `2 ^ 64`. -/
def u64 (n : Nat) : Nat := n % 2 ^ 64

/-! ## `path.Clean`, `path.Join`, `path.Base` of the Go standard library -/

/-- Split a path at every `/`; the result always has at least one component. -/
def splitSlash : List Char → List (List Char)
  | [] => [[]]
  | c :: cs =>
    if c = '/' then [] :: splitSlash cs
    else
      match splitSlash cs with
      | [] => [[c]]
      | h :: t => (c :: h) :: t

/-- One step of `path.Clean` on the reversed stack of kept components: `.` and empty
components are dropped, `..` removes the preceding component, is dropped at the root of a
rooted path, and is kept otherwise. -/
def cleanPush (rooted : Bool) (stack : List (List Char)) (comp : List Char) :
    List (List Char) :=
  if comp = [] ∨ comp = ['.'] then stack
  else if comp = ['.', '.'] then
    match stack with
    | [] => if rooted then [] else [comp]
    | top :: rest => if top = ['.', '.'] then comp :: stack else rest
  else comp :: stack

/-- Join components with single slashes. -/
def joinSlash : List (List Char) → List Char
  | [] => []
  | [c] => c
  | c :: cs => c ++ '/' :: joinSlash cs

/-- Go's `path.Clean` on the characters of a path. -/
def cleanChars (p : List Char) : List Char :=
  let rooted := p.head? = some '/'
  let comps := ((splitSlash p).foldl (cleanPush rooted) []).reverse
  let body := joinSlash comps
  if rooted then '/' :: body else if body = [] then ['.'] else body

/-- Go's `path.Join`: empty elements are ignored, the others are joined with `/` and the
result is cleaned; the join of no non-empty element is the empty string. -/
def pathJoin (elems : List String) : String :=
  let parts := (elems.filter (fun e => e ≠ "")).map String.data
  if parts = [] then "" else String.mk (cleanChars (joinSlash parts))

/-- Go's `path.Base`: the last element of the path, trailing slashes removed. -/
def pathBase (p : String) : String :=
  if p = "" then "."
  else
    match ((splitSlash p.data).filter (fun c => c ≠ [])).getLast? with
    | none => "/"
    | some c => String.mk c

/-! ## Data (`mapreduce.go`, lines 35-63) -/

/-- The `Job` struct decoded from a job file; Go's `int` fields are integers. -/
structure Job where
  Typ : String := ""
  Input : String := ""
  Image : String := ""
  Cmd : List String := []
  Limit : Int := 0
  Parallel : Int := 0
  TimeOut : Int := 0
  CpuShares : Int := 0
  Memory : Int := 0
  deriving DecidableEq, Repr

/-- The `materializeInfo` struct. -/
structure materializeInfo where
  In : String
  Out : String
  Branch : String
  Commit : String
  deriving DecidableEq, Repr

/-- The `Proto` type is an `int` in the source. -/
abbrev Proto := Nat

/-- First constant of the `iota` block. -/
def ProtoPfs : Proto := 0

/-- Second constant of the `iota` block. -/
def ProtoS3 : Proto := 1

/-- Go's `strings.TrimPrefix`: `s` without the leading `pre`, or `s` itself. -/
def trimLeading (s pre : String) : String :=
  if pre.data.isPrefixOf s.data then String.mk (s.data.drop pre.data.length) else s

/-- The function `getProtocol` (lines 66-72). -/
def getProtocol (input : String) : Proto :=
  if trimLeading input "s3://" ≠ input then ProtoS3 else ProtoPfs

/-! ## The outside world

Every call that leaves the package is a `Call`; the world answers with a `Reply` and a
new world state.  A run records the calls it made, in order, in its trace.  Entries that
do not reach the world (channel sends, wait-group operations, returns of goroutines) are
recorded in the same trace.  Of the calls of `log`, those that print an error or a
complaint are recorded; the lines that only report progress (such as line 165) are not. -/

/-- Calls made by the package, with their arguments, and the synchronisation events. -/
inductive Call where
  /-- Call `btrfs.FileExists(path)` -/
  | FileExists (path : String)
  /-- Call `btrfs.Branch(repo, from, name)` -/
  | Branch (repo src name : String)
  /-- Call `btrfs.MkdirAll(path)` -/
  | MkdirAll (path : String)
  /-- Call `btrfs.Commit(repo, commit, branch)` -/
  | Commit (repo commit branch : String)
  /-- Call `btrfs.ReadDir(path)` -/
  | ReadDir (path : String)
  /-- Call `btrfs.Open(path)` -/
  | Open (path : String)
  /-- Call `btrfs.Create(path)` -/
  | Create (path : String)
  /-- Call `btrfs.CreateAll(path)` -/
  | CreateAll (path : String)
  /-- Call `io.Copy(outFile, resp.Body)` into the file created at `path` -/
  | Copy (path body : String)
  /-- Call `btrfs.LazyWalk(path, visit)` -/
  | LazyWalk (path : String)
  /-- Call `btrfs.WaitFile(path, nil)` -/
  | WaitFile (path : String)
  /-- Call `container.PullImage(image)` -/
  | PullImage (image : String)
  /-- Call `container.StartContainer(image, cmd)` -/
  | StartContainer (image : String) (cmd : List String)
  /-- Call `container.IpAddr(id)` -/
  | IpAddr (id : String)
  /-- Call `container.StopContainer(id)` -/
  | StopContainer (id : String)
  /-- Call `s3utils.NewBucket(input)` -/
  | NewBucket (input : String)
  /-- Call `s3utils.GetPath(input)` -/
  | GetPath (input : String)
  /-- Call `bucket.List(inPath, "", marker, 0)` on the bucket of `input` -/
  | List (input inPath marker : String)
  /-- Call `bucket.GetReader(name)` on the bucket of `input` -/
  | GetReader (input name : String)
  /-- Call `http.Post(url, "application/text", body)` -/
  | Post (url body : String)
  /-- Call `http.Get(url)` -/
  | Get (url : String)
  /-- Call `http.NewRequest("GET", url, nil)` -/
  | NewRequest (url : String)
  /-- Call `route.Multicast(req, key)` -/
  | Multicast (url key : String)
  /-- Call `json.NewDecoder(jobFile).Decode(&job)` on the file opened at `path` -/
  | Decode (path : String)
  /-- Call `log.Print` of an error or of a complaint -/
  | Log (msg : String)
  /-- Call `time.Sleep(pause)`, the pause in milliseconds -/
  | Sleep (ms : Nat)
  /-- Statement `files <- name` -/
  | Send (name : String)
  /-- Statement `close(files)` -/
  | CloseChan
  /-- Statement `go func(name)` in `Map`: the file `name` is handed to the container `id` -/
  | Dispatch (name id : String)
  /-- The call of `mapFile` for `name` in its goroutine has returned -/
  | MapFileDone (name id : String)
  /-- Statement `wg.Add(1)` -/
  | WgAdd
  /-- Statement `wg.Done()` of the task of the job `name` -/
  | WgDone (name : String)
  /-- Statement `wg.Wait()` has returned -/
  | WgWait
  /-- The job task of `name` is back from `Map`, from `Reduce` or from the last
  statement of its body -/
  | BodyReturned (name : String)
  deriving DecidableEq, Repr

/-- What a call returns: the error (`none` is Go's `nil`) and the values the callers
read; a call uses the fields it has a use for. -/
structure Reply where
  /-- The `error` result. -/
  err : Option String := none
  /-- The result of `FileExists`; `IsTruncated` of a listing. -/
  flag : Bool := false
  /-- Entry names of `ReadDir`; names visited by `LazyWalk`; keys of a listing page. -/
  names : List String := []
  /-- Container id, IP address, bucket path, file content, response body. -/
  text : String := ""
  /-- The `StatusCode` of an HTTP response. -/
  status : Nat := 200
  /-- The reader returned by `GetReader` is `nil`. -/
  nilReader : Bool := false
  /-- The `Job` that `Decode` filled in. -/
  job : Job := {}
  deriving DecidableEq, Repr

/-- The collaborators of the package: the stable hash `route.HashResource` and the
effectful calls. -/
structure Sys (σ : Type) where
  /-- The hash `route.HashResource`; its `uint64` value is `u64 (hash key)`. -/
  hash : String → Nat
  /-- The answer of the world to a call and the world after it. -/
  exec : Call → σ → Reply × σ

/-- A run in progress: the world and the calls made so far, oldest first. -/
structure St (σ : Type) where
  world : σ
  trace : List Call

variable {σ : Type}

/-- Record an entry that does not reach the world. -/
def emit (c : Call) (s : St σ) : St σ :=
  { s with trace := s.trace ++ [c] }

/-- Make a call: the world answers and moves on, the call is recorded. -/
def Sys.call (sys : Sys σ) (c : Call) (s : St σ) : Reply × St σ :=
  ((sys.exec c s.world).1, { world := (sys.exec c s.world).2, trace := s.trace ++ [c] })

/-- The shard test `route.HashResource(key) % modulos == shard` (lines 172 and 278);
the remainder by zero is a run-time panic, `none`. -/
def ownedBy (sys : Sys σ) (key : String) (shard modulos : Nat) : Option Bool :=
  if modulos = 0 then none else some (u64 (sys.hash key) % modulos == shard)

/-- The files of a listing that pass the shard test of shard `shard` of `modulos`. -/
def shardFiles (sys : Sys σ) (files : List String) (shard modulos : Nat) : List String :=
  files.filter (fun f => ownedBy sys f shard modulos = some true)

/-! ## `retry` (lines 464-476) -/

/-- The loop of `retry` with `n` iterations left; `err` is the variable `err` of the
source, `k` holds the variables the closure `f` captures and assigns. -/
def retryLoop {κ : Type} (f : κ → St σ → Option String × κ × St σ) (pause : Nat) :
    Nat → Option String → κ → St σ → Option String × κ × St σ
  | 0, err, k, s => (err, k, s)
  | n + 1, _, k, s =>
    match f k s with
    | (none, k1, s1) => (none, k1, s1)
    | (some e, k1, s1) =>
      retryLoop f pause n (some e) k1
        (emit (.Sleep pause) (emit (.Log ("Retrying due to error: " ++ e)) s1))

/-- The function `retry`: `retries` is a Go `int`, the loop runs `i = 0 .. retries - 1`. -/
def retry {κ : Type} (f : κ → St σ → Option String × κ × St σ) (retries : Int) (pause : Nat)
    (k : κ) (s : St σ) : Option String × κ × St σ :=
  retryLoop f pause retries.toNat none k s

/-! ## `PrepJob` and `mapFile` (lines 51-56 and 74-131) -/

/-- The function `PrepJob`: the error of `btrfs.MkdirAll`. -/
def PrepJob (sys : Sys σ) (jobName : String) (m : materializeInfo) (s : St σ) :
    Option String × St σ :=
  let r := sys.call (.MkdirAll (pathJoin [m.Out, m.Branch, jobName])) s
  (r.1.err, r.2)

/-- The statements of the closure of `mapFile` after the input is open (lines 102-124):
post the input to the mapper and copy the response to the output file. -/
def mapFilePost (sys : Sys σ) (filename jobName host : String) (m : materializeInfo)
    (inFile : String) (s : St σ) : Option String × St σ :=
  let post := sys.call (.Post ("http://" ++ pathJoin [host, filename]) inFile) s
  if post.1.err ≠ none then (post.1.err, post.2)
  else
    let out := sys.call (.CreateAll (pathJoin [m.Out, m.Branch, jobName, filename])) post.2
    if out.1.err ≠ none then (out.1.err, out.2)
    else
      let cp := sys.call
        (.Copy (pathJoin [m.Out, m.Branch, jobName, filename]) post.1.text) out.2
      if cp.1.err ≠ none then (cp.1.err, cp.2) else (none, cp.2)

/-- One run of the closure that `mapFile` hands to `retry` (lines 78-125).  In the S3
case the `err` that `GetReader` assigns is the one declared inside the case, so the test
after the `switch` reads the outer `err`, which is still `nil`. -/
def mapFileAttempt (sys : Sys σ) (filename jobName host : String) (job : Job)
    (m : materializeInfo) (s : St σ) : Option String × St σ :=
  if getProtocol job.Input = ProtoPfs then
    let inFile := sys.call (.Open (pathJoin [m.In, m.Commit, job.Input, filename])) s
    if inFile.1.err ≠ none then (inFile.1.err, inFile.2)
    else mapFilePost sys filename jobName host m inFile.1.text inFile.2
  else if getProtocol job.Input = ProtoS3 then
    let bucket := sys.call (.NewBucket job.Input) s
    if bucket.1.err ≠ none then (bucket.1.err, bucket.2)
    else
      let inFile := sys.call (.GetReader job.Input filename) bucket.2
      if inFile.1.nilReader then (some "Nil file returned.", inFile.2)
      else mapFilePost sys filename jobName host m inFile.1.text inFile.2
  else (some "Invalid protocol.", s)

/-- The function `mapFile`: the closure under `retry(_, retries, 500ms)`; a final error
is logged and returned. -/
def mapFile (sys : Sys σ) (filename jobName host : String) (job : Job)
    (m : materializeInfo) (s : St σ) : Option String × St σ :=
  let r := retry (fun (_ : Unit) s1 =>
      ((mapFileAttempt sys filename jobName host job m s1).1, (),
        (mapFileAttempt sys filename jobName host job m s1).2)) retries 500 () s
  match r.1 with
  | some e => (some e, emit (.Log e) r.2.2)
  | none => (none, r.2.2)

/-! ## `Reduce` (lines 277-370) -/

/-- The closure of the inner `retry` of `Reduce` (lines 323-340): build the request and
multicast it; `reader` becomes the concatenation of the bodies. -/
def multicastAttempt (sys : Sys σ) (job : Job) (m : materializeInfo) (reader : String)
    (s : St σ) : Option String × String × St σ :=
  let url := "http://host/" ++ pathJoin [job.Input, "file", "*"] ++ "?commit=" ++ m.Commit
  let req := sys.call (.NewRequest url) s
  if req.1.err ≠ none then (req.1.err, reader, req.2)
  else
    let resps := sys.call (.Multicast url "/pfs/master") req.2
    if resps.1.err ≠ none then (resps.1.err, reader, resps.2)
    else (none, resps.1.text, resps.2)

/-- The closure of the outer `retry` of `Reduce` (lines 313-349): assemble the input,
then post it to the reducer; `resp` is the captured response variable. -/
def reduceAttempt (sys : Sys σ) (job : Job) (m : materializeInfo) (host : String)
    (modulos : Nat) (resp : Reply) (s : St σ) : Option String × Reply × St σ :=
  if modulos = 1 then
    let get := sys.call
      (.Get ("http://localhost/" ++ pathJoin [job.Input, "file", "*"] ++ "?commit=" ++
        m.Commit)) s
    if get.1.err ≠ none then (get.1.err, resp, get.2)
    else
      let post := sys.call (.Post ("http://" ++ pathJoin [host, job.Input]) get.1.text) get.2
      (post.1.err, post.1, post.2)
  else
    let mc := retry (multicastAttempt sys job m) retries 60000 "" s
    if mc.1 ≠ none then (mc.1, resp, mc.2.2)
    else
      let post := sys.call (.Post ("http://" ++ pathJoin [host, job.Input]) mc.2.1) mc.2.2
      (post.1.err, post.1, post.2)

/-- The deferred function of `Reduce` (lines 301-305): stop the container, log a
failure. -/
def reduceStop (sys : Sys σ) (containerId : String) (s : St σ) : St σ :=
  let stop := sys.call (.StopContainer containerId) s
  match stop.1.err with
  | some e => emit (.Log e) stop.2
  | none => stop.2

/-- The statements of `Reduce` after the container is started (lines 306-369), without
the deferred stop. -/
def reduceBody (sys : Sys σ) (job : Job) (jobName : String) (m : materializeInfo)
    (modulos : Nat) (containerId : String) (s : St σ) : St σ :=
  let host := sys.call (.IpAddr containerId) s
  match host.1.err with
  | some e => emit (.Log e) host.2
  | none =>
    let r := retry (reduceAttempt sys job m host.1.text modulos) retries 200 {} host.2
    match r.1 with
    | some e => emit (.Log e) r.2.2
    | none =>
      if r.2.1.status ≠ 200 then emit (.Log "Received error") r.2.2
      else
        let out := sys.call (.CreateAll (pathJoin [m.Out, m.Branch, jobName])) r.2.2
        match out.1.err with
        | some e => emit (.Log e) out.2
        | none =>
          let cp := sys.call (.Copy (pathJoin [m.Out, m.Branch, jobName]) r.2.1.text) out.2
          match cp.1.err with
          | some e => emit (.Log e) cp.2
          | none => cp.2

/-- The statements of `Reduce` after the shard guard (lines 283-369). -/
def reduceGuarded (sys : Sys σ) (job : Job) (jobName : String) (m : materializeInfo)
    (modulos : Nat) (s : St σ) : St σ :=
  if job.Typ ≠ "reduce" then
    emit (.Log "Reduce called on a job of the wrong type. Should be \"reduce\".") s
  else
    let pull := sys.call (.PullImage job.Image) s
    match pull.1.err with
    | some e => emit (.Log e) pull.2
    | none =>
      let start := sys.call (.StartContainer job.Image job.Cmd) pull.2
      match start.1.err with
      | some e => emit (.Log e) start.2
      | none =>
        reduceStop sys start.1.text
          (reduceBody sys job jobName m modulos start.1.text start.2)

/-- The function `Reduce`.  The first statement is the shard guard (lines 278-282): on a
shard that does not own `/job/<jobName>` the function returns at once.  `none` is the
panic of the remainder by zero. -/
def Reduce (sys : Sys σ) (job : Job) (jobName : String) (m : materializeInfo)
    (shard modulos : Nat) (s : St σ) : Option (St σ) :=
  match ownedBy sys (pathJoin ["/job", jobName]) shard modulos with
  | none => none
  | some false => some s
  | some true => some (reduceGuarded sys job jobName m modulos s)

/-- The names a directory listing yields: not empty, without a slash, and neither `.`
nor `..`.  These are the values of `jobInfo.Name()`. -/
def entryName (name : String) : Prop :=
  name.data ≠ [] ∧ '/' ∉ name.data ∧ name.data ≠ ['.'] ∧ name.data ≠ ['.', '.']

/-- A world without state in which every call succeeds with the default reply, and whose
hash is the length of the key. -/
def lengthSys : Sys Unit where
  hash := String.length
  exec := fun _ w => ({}, w)

/-! ## `pumpFiles` (lines 133-196) -/

/-- The traversal of a walk: `visit` is called on the names in order until it returns an
error; `k` holds the variables that `visit` captures and assigns. -/
def walkNames {κ : Type} (visit : String → κ → St σ → Option String × κ × St σ) :
    List String → κ → St σ → Option String × κ × St σ
  | [], k, s => (none, k, s)
  | name :: rest, k, s =>
    match visit name k s with
    | (some e, k1, s1) => (some e, k1, s1)
    | (none, k1, s1) => walkNames visit rest k1 s1

/-- Modelled from the spec: `btrfs.LazyWalk` is not part of the sources at hand.  It
enumerates the files under `path` in the store's order (the names of the reply), calls
`visit` on each, ends the traversal at the first error `visit` returns and returns that
error; when `visit` never fails it returns the error of the walk itself, if any. -/
def LazyWalk {κ : Type} (sys : Sys σ) (path : String)
    (visit : String → κ → St σ → Option String × κ × St σ) (k : κ) (s : St σ) :
    Option String × κ × St σ :=
  let w := sys.call (.LazyWalk path) s
  let v := walkNames visit w.1.names k w.2
  match v.1 with
  | some e => (some e, v.2)
  | none => (w.1.err, v.2)

/-- The closure that `pumpFiles` hands to `LazyWalk` (lines 140-147); the captured
variable is `fileCount`.  The counter is an `int`: it starts at zero and grows by one, so
with a limit in force it reaches the limit before it can overflow, and without a limit
its value is never read. -/
def pumpVisit (job : Job) (name : String) (fileCount : Int) (s : St σ) :
    Option String × Int × St σ :=
  if job.Limit ≠ 0 ∧ fileCount + 1 ≥ job.Limit then
    (some "STOP", fileCount + 1, emit (.Send name) s)
  else (none, fileCount + 1, emit (.Send name) s)

/-- The inner loop of the S3 case (lines 171-181) over the keys of one page; the result
is `fileCount`, `nextMarker` and the run.  At the limit the loop is left before
`nextMarker` is assigned.  `none` is the panic of the remainder by zero. -/
def pumpPage (sys : Sys σ) (job : Job) (shard modulos : Nat) :
    List String → Int → String → St σ → Option (Int × String × St σ)
  | [], fileCount, nextMarker, s => some (fileCount, nextMarker, s)
  | key :: rest, fileCount, nextMarker, s =>
    match ownedBy sys key shard modulos with
    | none => none
    | some true =>
      if job.Limit ≠ 0 ∧ fileCount + 1 ≥ job.Limit then
        some (fileCount + 1, nextMarker, emit (.Send key) s)
      else pumpPage sys job shard modulos rest (fileCount + 1) key (emit (.Send key) s)
    | some false => pumpPage sys job shard modulos rest fileCount key s

/-- The outer loop of the S3 case (lines 164-190), `fuel` bounding the number of pages
requested; `none` when the fuel runs out or the shard test panics. -/
def pumpS3 (sys : Sys σ) (job : Job) (shard modulos : Nat) (inPath : String) :
    Nat → String → Int → St σ → Option (St σ)
  | 0, _, _, _ => none
  | fuel + 1, nextMarker, fileCount, s =>
    let lr := sys.call (.List job.Input inPath nextMarker) s
    match lr.1.err with
    | some e => some (emit (.Log e) lr.2)
    | none =>
      match pumpPage sys job shard modulos lr.1.names fileCount nextMarker lr.2 with
      | none => none
      | some (fileCount1, nextMarker1, s1) =>
        if !lr.1.flag then some s1
        else if job.Limit ≠ 0 ∧ fileCount1 ≥ job.Limit then some s1
        else pumpS3 sys job shard modulos inPath fuel nextMarker1 fileCount1 s1

/-- The body of `pumpFiles` before the deferred `close(files)`. -/
def pumpBody (sys : Sys σ) (fuel : Nat) (job : Job) (m : materializeInfo)
    (shard modulos : Nat) (s : St σ) : Option (St σ) :=
  if getProtocol job.Input = ProtoPfs then
    let w := LazyWalk sys (pathJoin [m.In, m.Commit, job.Input]) (pumpVisit job) 0 s
    match w.1 with
    | some e => if e ≠ "STOP" then some (emit (.Log e) w.2.2) else some w.2.2
    | none => some w.2.2
  else if getProtocol job.Input = ProtoS3 then
    let bucket := sys.call (.NewBucket job.Input) s
    match bucket.1.err with
    | some e => some (emit (.Log e) bucket.2)
    | none =>
      let inPath := sys.call (.GetPath job.Input) bucket.2
      match inPath.1.err with
      | some e => some (emit (.Log e) inPath.2)
      | none => pumpS3 sys job shard modulos inPath.1.text fuel "" 0 inPath.2
  else some (emit (.Log "Unrecognized protocol.") s)

/-- The function `pumpFiles`: the body, then the deferred `close(files)`.  The sends on
the channel are the `Send` entries of the trace. -/
def pumpFiles (sys : Sys σ) (fuel : Nat) (job : Job) (m : materializeInfo)
    (shard modulos : Nat) (s : St σ) : Option (St σ) :=
  (pumpBody sys fuel job m shard modulos s).map (emit .CloseChan)

/-- The names sent on the channel `files`, in order. -/
def sentNames (trace : List Call) : List String :=
  trace.filterMap (fun c => match c with | .Send name => some name | _ => none)

/-! ## `Map` (lines 198-275)

`Map` runs next to the goroutines it starts.  The goroutine `pumpFiles` is run when it
is started and the channel `files` is the queue of the names it sent; the goroutines of
`mapFile` are the workers of a machine that a schedule drives: entry `0` of a schedule
lets `Map` itself take a step, entry `k + 1` lets worker `k`.  A thread that is blocked
does not move when it is scheduled. -/

/-- A goroutine started at lines 247-253: it runs `mapFile` and then takes one value out
of the semaphore it was started under. -/
structure Worker where
  /-- The file name received from the channel. -/
  name : String
  /-- The container of the batch. -/
  id : String
  /-- The address of that container. -/
  host : String
  /-- The semaphore of the batch, by the number of the batch. -/
  chan : Nat
  /-- Progress: `0` before `mapFile`, `1` before `<-semaphore`, `2` finished. -/
  pc : Nat
  deriving DecidableEq, Repr

/-- Where `Map` stands. -/
inductive MapPc where
  /-- Before the first statement. -/
  | start
  /-- At the head of the outer loop (line 226). -/
  | top
  /-- At the head of the inner loop (line 243) with `uses` names dispatched. -/
  | loop (id host : String) (uses : Nat)
  /-- In the loop that drains the semaphore (line 261) with `i` values sent. -/
  | drain (id : String) (uses i : Nat)
  /-- After a `return` or after the last `break`. -/
  | returned
  deriving DecidableEq, Repr

/-- The state of a run of `Map`. -/
structure MapCfg (σ : Type) where
  st : St σ
  pc : MapPc
  /-- Names sent on `files` and not yet received. -/
  queue : List String
  /-- Number of the batch whose semaphore is the current one. -/
  cur : Nat
  /-- Number of values in the current semaphore. -/
  sem : Nat
  workers : List Worker

/-- The width of the semaphore (lines 215-218). -/
def parallelOf (job : Job) : Nat :=
  if job.Parallel > 0 then job.Parallel.toNat else defaultParallel

/-- Log an error and return. -/
def MapCfg.fail (cfg : MapCfg σ) (e : String) (s : St σ) : MapCfg σ :=
  { cfg with st := emit (.Log e) s, pc := .returned }

/-- One step of `Map` itself; `upm` is `usesPerMapper`. -/
def mapMain (sys : Sys σ) (fuel upm : Nat) (job : Job) (jobName : String)
    (m : materializeInfo) (shard modulos : Nat) (cfg : MapCfg σ) : MapCfg σ :=
  match cfg.pc with
  | .start =>
    let prep := PrepJob sys (pathBase jobName) m cfg.st
    match prep.1 with
    | some e => cfg.fail e prep.2
    | none =>
      if job.Typ ≠ "map" then
        cfg.fail "runMap called on a job of the wrong type. Should be \"map\"." prep.2
      else
        match pumpFiles sys fuel job m shard modulos prep.2 with
        | none => cfg
        | some pumped =>
          let pull := sys.call (.PullImage job.Image) pumped
          match pull.1.err with
          | some e => cfg.fail e pull.2
          | none =>
            { cfg with
              st := pull.2, pc := .top,
              queue := sentNames (pumped.trace.drop prep.2.trace.length) }
  | .top =>
    let start := sys.call (.StartContainer job.Image job.Cmd) cfg.st
    match start.1.err with
    | some e => cfg.fail e start.2
    | none =>
      let host := sys.call (.IpAddr start.1.text) start.2
      match host.1.err with
      | some e => cfg.fail e host.2
      | none =>
        { cfg with
          st := host.2, pc := .loop start.1.text host.1.text 0,
          cur := cfg.cur + 1, sem := 0 }
  | .loop id host uses =>
    match cfg.queue with
    | [] => { cfg with pc := .drain id uses 0 }
    | name :: rest =>
      if cfg.sem < parallelOf job then
        { cfg with
          st := emit (.Dispatch name id) cfg.st,
          queue := rest, sem := cfg.sem + 1,
          workers := cfg.workers ++ [⟨name, id, host, cfg.cur, 0⟩],
          pc := if uses + 1 = upm then .drain id (uses + 1) 0 else .loop id host (uses + 1) }
      else cfg
  | .drain id uses i =>
    if i < parallelOf job then
      if cfg.sem < parallelOf job then
        { cfg with sem := cfg.sem + 1, pc := .drain id uses (i + 1) }
      else cfg
    else
      let stop := sys.call (.StopContainer id) cfg.st
      match stop.1.err with
      | some e => cfg.fail e stop.2
      | none => { cfg with st := stop.2, pc := if uses < upm then .returned else .top }
  | .returned => cfg

/-- The run of `mapFile` in a worker (lines 248-250): an error is logged once more. -/
def workerRun (sys : Sys σ) (job : Job) (jobName : String) (m : materializeInfo)
    (w : Worker) (s : St σ) : St σ :=
  let r := mapFile sys w.name jobName w.host job m s
  match r.1 with
  | some e => emit (.MapFileDone w.name w.id) (emit (.Log e) r.2)
  | none => emit (.MapFileDone w.name w.id) r.2

/-- One step of worker `k`.  A worker of an earlier batch takes its value out of a
semaphore that is full and closed, which never blocks. -/
def mapWorker (sys : Sys σ) (job : Job) (jobName : String) (m : materializeInfo)
    (cfg : MapCfg σ) (k : Nat) : MapCfg σ :=
  match cfg.workers[k]? with
  | none => cfg
  | some w =>
    if w.pc = 0 then
      { cfg with
        st := workerRun sys job jobName m w cfg.st,
        workers := cfg.workers.set k { w with pc := 1 } }
    else if w.pc = 1 then
      if w.chan = cfg.cur then
        if 0 < cfg.sem then
          { cfg with sem := cfg.sem - 1, workers := cfg.workers.set k { w with pc := 2 } }
        else cfg
      else { cfg with workers := cfg.workers.set k { w with pc := 2 } }
    else cfg

/-- One step of the thread `tid`. -/
def mapStep (sys : Sys σ) (fuel upm : Nat) (job : Job) (jobName : String)
    (m : materializeInfo) (shard modulos : Nat) (cfg : MapCfg σ) (tid : Nat) : MapCfg σ :=
  match tid with
  | 0 => mapMain sys fuel upm job jobName m shard modulos cfg
  | k + 1 => mapWorker sys job jobName m cfg k

/-- The state in which `Map` is called. -/
def mapInit (s : St σ) : MapCfg σ :=
  { st := s, pc := .start, queue := [], cur := 0, sem := 0, workers := [] }

/-- The run of `Map` under a schedule. -/
def mapRun (sys : Sys σ) (fuel upm : Nat) (job : Job) (jobName : String)
    (m : materializeInfo) (shard modulos : Nat) (sched : List Nat) (s : St σ) : MapCfg σ :=
  sched.foldl (mapStep sys fuel upm job jobName m shard modulos) (mapInit s)

/-- The function `Map` under a schedule: the run it leaves behind when it has returned by
the end of the schedule, `none` otherwise. -/
def Map (sys : Sys σ) (fuel : Nat) (sched : List Nat) (job : Job) (jobName : String)
    (m : materializeInfo) (shard modulos : Nat) (s : St σ) : Option (St σ) :=
  let cfg := mapRun sys fuel usesPerMapper job jobName m shard modulos sched s
  if cfg.pc = .returned then some cfg.st else none

/-! ## `Materialize` and `WaitJob` (lines 375-462)

`Materialize` runs next to the job goroutines it starts.  Entry `0` of a schedule lets
`Materialize` take a step, entry `k + 1` lets the task of the `k`-th job.  The deferred
calls run in reverse order of their `defer` statements: in `Materialize` first
`wg.Wait`, then the commit; in a task first `jobFile.Close`, then `wg.Done`, then the
creation of the progress marker. -/

/-- The statements of a job task between its `defer`s and its return (lines 432-453).
`inner` schedules the goroutines of `Map`; `none` when `Map` or `Reduce` does not
return. -/
def jobBody (sys : Sys σ) (fuel : Nat) (inner : List Nat) (jobsPath name : String)
    (m : materializeInfo) (shard modulos : Nat) (s : St σ) : Option (St σ) :=
  let jobFile := sys.call (.Open (pathJoin [jobsPath, name])) s
  match jobFile.1.err with
  | some e => some (emit (.Log e) jobFile.2)
  | none =>
    let dec := sys.call (.Decode (pathJoin [jobsPath, name])) jobFile.2
    match dec.1.err with
    | some e => some (emit (.Log e) dec.2)
    | none =>
      if dec.1.job.Typ = "map" then Map sys fuel inner dec.1.job name m shard modulos dec.2
      else if dec.1.job.Typ = "reduce" then Reduce sys dec.1.job name m shard modulos dec.2
      else some (emit (.Log ("Job " ++ name ++ " has unrecognized type.")) dec.2)

/-- The deferred function of a job task (lines 421-428): create the progress marker, log
a failure. -/
def createMarker (sys : Sys σ) (outRepo branch commit name : String) (s : St σ) : St σ :=
  let f := sys.call (.Create (pathJoin [outRepo, branch, ".progress", commit, name])) s
  match f.1.err with
  | some e => emit (.Log e) f.2
  | none => f.2

/-- The function `WaitJob`. -/
def WaitJob (sys : Sys σ) (outRepo branch commit job : String) (s : St σ) :
    Option String × St σ :=
  let r := sys.call (.WaitFile (pathJoin [outRepo, branch, ".progress", commit, job])) s
  (r.1.err, r.2)

/-- Where a job task stands. -/
inductive TaskPc where
  /-- Before the body. -/
  | body
  /-- The body has returned; the deferred `wg.Done` is next. -/
  | done
  /-- The deferred creation of the progress marker is next. -/
  | marker
  /-- The task has returned. -/
  | returned
  deriving DecidableEq, Repr

/-- A job task: the name of its job file and its progress. -/
structure Task where
  name : String
  pc : TaskPc
  deriving DecidableEq, Repr

/-- Where `Materialize` stands. -/
inductive MatPc where
  /-- Before the first statement. -/
  | start
  /-- In the loop over the jobs (line 418), `rest` still to be started. -/
  | spawn (rest : List String)
  /-- At `return nil` of line 456, in the deferred `wg.Wait`. -/
  | wait
  /-- The deferred commit is next; `ret` is the value being returned. -/
  | commit (ret : Option String)
  /-- Returned to the caller with `ret`. -/
  | returned (ret : Option String)
  deriving DecidableEq, Repr

/-- The state of a run of `Materialize`. -/
structure MatCfg (σ : Type) where
  st : St σ
  pc : MatPc
  /-- The counter of the wait group. -/
  wg : Nat
  tasks : List Task
  /-- The entries `ReadDir` returned. -/
  jobs : List String

/-- Lines 377-390: make sure the output branch and the progress directory exist.  The
result is the error these lines return with, if any. -/
def matSetup (sys : Sys σ) (branch commit outRepo : String) (s : St σ) :
    Option String × St σ :=
  let ex := sys.call (.FileExists (pathJoin [outRepo, branch])) s
  match ex.1.err with
  | some e => (some e, ex.2)
  | none =>
    let br := if !ex.1.flag then sys.call (.Branch outRepo "" branch) ex.2 else ({}, ex.2)
    match br.1.err with
    | some e => (some e, br.2)
    | none =>
      let mk := sys.call (.MkdirAll (pathJoin [outRepo, branch, ".progress", commit])) br.2
      (mk.1.err, mk.2)

/-- One step of `Materialize` itself. -/
def matMain (sys : Sys σ) (in_repo branch commit outRepo jobDir : String) (cfg : MatCfg σ) :
    MatCfg σ :=
  match cfg.pc with
  | .start =>
    let setup := matSetup sys branch commit outRepo cfg.st
    match setup.1 with
    | some e => { cfg with st := setup.2, pc := .returned (some e) }
    | none =>
      -- from here on the commit is deferred
      let ex := sys.call (.FileExists (pathJoin [in_repo, commit, jobDir])) setup.2
      match ex.1.err with
      | some e => { cfg with st := ex.2, pc := .commit (some e) }
      | none =>
        if !ex.1.flag then { cfg with st := ex.2, pc := .commit none }
        else
          let jobs := sys.call (.ReadDir (pathJoin [in_repo, commit, jobDir])) ex.2
          match jobs.1.err with
          | some e => { cfg with st := jobs.2, pc := .commit (some e) }
          | none => { cfg with st := jobs.2, pc := .spawn jobs.1.names, jobs := jobs.1.names }
  | .spawn [] => { cfg with pc := .wait }
  | .spawn (name :: rest) =>
    { cfg with
      st := emit .WgAdd cfg.st, wg := cfg.wg + 1,
      tasks := cfg.tasks ++ [⟨name, .body⟩], pc := .spawn rest }
  | .wait => if cfg.wg = 0 then { cfg with st := emit .WgWait cfg.st, pc := .commit none } else cfg
  | .commit ret =>
    let c := sys.call (.Commit outRepo commit branch) cfg.st
    match c.1.err with
    | some e =>
      { cfg with
        st := emit (.Log ("DEFERRED: btrfs.Commit error in Materialize: " ++ e)) c.2,
        pc := .returned ret }
    | none => { cfg with st := c.2, pc := .returned ret }
  | .returned _ => cfg

/-- One step of the task of the `k`-th job; `inner k` schedules the goroutines of its
`Map`. -/
def matTask (sys : Sys σ) (fuel : Nat) (inner : Nat → List Nat)
    (in_repo branch commit outRepo jobDir : String) (shard modulos : Nat) (cfg : MatCfg σ)
    (k : Nat) : MatCfg σ :=
  match cfg.tasks[k]? with
  | none => cfg
  | some t =>
    match t.pc with
    | .body =>
      match jobBody sys fuel (inner k) (pathJoin [in_repo, commit, jobDir]) t.name
          ⟨in_repo, outRepo, branch, commit⟩ shard modulos cfg.st with
      | none => cfg
      | some s =>
        { cfg with
          st := emit (.BodyReturned t.name) s,
          tasks := cfg.tasks.set k { t with pc := .done } }
    | .done =>
      { cfg with
        st := emit (.WgDone t.name) cfg.st, wg := cfg.wg - 1,
        tasks := cfg.tasks.set k { t with pc := .marker } }
    | .marker =>
      { cfg with
        st := createMarker sys outRepo branch commit t.name cfg.st,
        tasks := cfg.tasks.set k { t with pc := .returned } }
    | .returned => cfg

/-- One step of the thread `tid`. -/
def matStep (sys : Sys σ) (fuel : Nat) (inner : Nat → List Nat)
    (in_repo branch commit outRepo jobDir : String) (shard modulos : Nat) (cfg : MatCfg σ)
    (tid : Nat) : MatCfg σ :=
  match tid with
  | 0 => matMain sys in_repo branch commit outRepo jobDir cfg
  | k + 1 => matTask sys fuel inner in_repo branch commit outRepo jobDir shard modulos cfg k

/-- The state in which `Materialize` is called on the world `w`. -/
def matInit (w : σ) : MatCfg σ :=
  { st := ⟨w, []⟩, pc := .start, wg := 0, tasks := [], jobs := [] }

/-- The function `Materialize` under a schedule, from the world `w`. -/
def Materialize (sys : Sys σ) (fuel : Nat) (inner : Nat → List Nat)
    (in_repo branch commit outRepo jobDir : String) (shard modulos : Nat)
    (sched : List Nat) (w : σ) : MatCfg σ :=
  sched.foldl (matStep sys fuel inner in_repo branch commit outRepo jobDir shard modulos)
    (matInit w)

/-- A job task run on its own: the body, then the deferred calls; `none` when the body
does not return. -/
def jobTask (sys : Sys σ) (fuel : Nat) (inner : List Nat)
    (in_repo branch commit outRepo jobDir name : String) (shard modulos : Nat) (s : St σ) :
    Option (St σ) :=
  (jobBody sys fuel inner (pathJoin [in_repo, commit, jobDir]) name
    ⟨in_repo, outRepo, branch, commit⟩ shard modulos s).map
    (fun s1 => createMarker sys outRepo branch commit name
      (emit (.WgDone name) (emit (.BodyReturned name) s1)))

/-! ## A reference store for concrete runs -/

/-- The state of the reference store: the paths that exist and the commits made, as
pairs of a repository and a commit id. -/
structure Store where
  files : List String
  commits : List (String × String)
  deriving DecidableEq, Repr

/-- Modelled from the spec: the store and the container runtime are outside the sources
at hand; this is the in-memory reference of the store contract.  `FileExists` looks the
path up, `Branch`, `MkdirAll`, `Create` and `CreateAll` make their path exist, `Commit`
fails when the id is already a commit of the repository, `ReadDir` and `Decode` serve
the job files `jobs` of the directory `jobsPath`, `LazyWalk` visits `inputs`, and a call
picked out by `failing` returns an error.  Containers and HTTP calls succeed. -/
def memSys (jobsPath : String) (jobs : List (String × Job)) (inputs : List String)
    (failing : Call → Bool) : Sys Store where
  hash := String.length
  exec := fun c w =>
    if failing c then ({ err := some "failed" }, w)
    else
      match c with
      | .FileExists p => ({ flag := decide (p ∈ w.files) }, w)
      | .Branch repo _ name => ({}, { w with files := w.files.insert (pathJoin [repo, name]) })
      | .MkdirAll p => ({}, { w with files := w.files.insert p })
      | .Create p => ({}, { w with files := w.files.insert p })
      | .CreateAll p => ({}, { w with files := w.files.insert p })
      | .Commit repo id _ =>
        if (repo, id) ∈ w.commits then ({ err := some "commit exists" }, w)
        else ({}, { w with commits := (repo, id) :: w.commits })
      | .ReadDir p =>
        if p = jobsPath then ({ names := jobs.map Prod.fst }, w)
        else ({ err := some "not a directory" }, w)
      | .Decode p =>
        match jobs.find? (fun j => pathJoin [jobsPath, j.1] = p) with
        | some j => ({ job := j.2 }, w)
        | none => ({ err := some "no job" }, w)
      | .LazyWalk _ => ({ names := inputs }, w)
      | .StartContainer _ _ => ({ text := "mapper" }, w)
      | .IpAddr _ => ({ text := "10.0.0.2" }, w)
      | _ => ({}, w)

/-- A data repository whose commit `c1` holds the jobs directory with one reduce job. -/
def demoStore : Store :=
  { files := ["data/c1/jobs", "data/c1/jobs/wc", "data/c1/in"], commits := [("data", "c1")] }

/-- The reduce job of the demonstration. -/
def demoReduce : Job :=
  { Typ := "reduce", Input := "in", Image := "ubuntu", Cmd := ["wc", "-l"] }

/-- The world of the demonstration: every call succeeds. -/
def demoSys : Sys Store :=
  memSys "data/c1/jobs" [("wc", demoReduce)] ["a", "b"] (fun _ => false)

/-- The calls a job makes while it runs, in `Map`, `Reduce` or the body of its task.  The
others belong to `Materialize` and to the deferred calls of the tasks: the checks and the
commit of the store, the creation of a progress marker, the wait group. -/
def jobLevel : Call → Bool
  | .FileExists _ => false
  | .Branch _ _ _ => false
  | .Commit _ _ _ => false
  | .ReadDir _ => false
  | .Create _ => false
  | .WaitFile _ => false
  | .WgAdd => false
  | .WgDone _ => false
  | .WgWait => false
  | .BodyReturned _ => false
  | _ => true

/-- The calls of `mapFile` and of `pumpFiles`: they start and stop no container and
dispatch no file. -/
def quietLevel : Call → Bool
  | .Open _ => true
  | .CreateAll _ => true
  | .Copy _ _ => true
  | .LazyWalk _ => true
  | .NewBucket _ => true
  | .GetPath _ => true
  | .List _ _ _ => true
  | .GetReader _ _ => true
  | .Post _ _ => true
  | .Log _ => true
  | .Sleep _ => true
  | .Send _ => true
  | .CloseChan => true
  | _ => false

/-- The run `t` continues the run `s` with calls of the kind `P`. -/
def GrowsBy (P : Call → Bool) (s t : St σ) : Prop :=
  ∃ l, t.trace = s.trace ++ l ∧ ∀ c ∈ l, P c = true

/-- The run the body of the task of `wc` leaves behind on the demonstration store: the
reducer was started, fed and stopped. -/
def demoReduced : St Store :=
  { world :=
      { files := ["comp/master/wc", "data/c1/jobs", "data/c1/jobs/wc", "data/c1/in"],
        commits := [("data", "c1")] },
    trace :=
      [.Open "data/c1/jobs/wc", .Decode "data/c1/jobs/wc", .PullImage "ubuntu",
        .StartContainer "ubuntu" ["wc", "-l"], .IpAddr "mapper",
        .Get "http://localhost/in/file/*?commit=c1", .Post "http://10.0.0.2/in" "",
        .CreateAll "comp/master/wc", .Copy "comp/master/wc" "", .StopContainer "mapper"] }

/-! ## Invariants of the runs of `Materialize` -/

/-- The calls `Materialize` makes itself, outside the job tasks. -/
def mainLevel : Call → Bool
  | .FileExists _ => true
  | .Branch _ _ _ => true
  | .MkdirAll _ => true
  | .ReadDir _ => true
  | .Commit _ _ _ => true
  | .WgWait => true
  | .Log _ => true
  | _ => false

/-- The call is a `btrfs.Commit`. -/
def isCommit : Call → Bool
  | .Commit _ _ _ => true
  | _ => false

/-- A task that has not yet called `wg.Done` weighs one in the wait group. -/
def taskWeight (t : Task) : Nat :=
  if t.pc = .body ∨ t.pc = .done then 1 else 0

/-- The number of tasks that have not yet called `wg.Done`. -/
def pending (tasks : List Task) : Nat := (tasks.map taskWeight).sum

/-- In the trace every commit comes after the wait on the wait group and, for every job,
after the opening of its file, the return of its body and its `wg.Done`. -/
def CommitAfterJobs (jobsPath : String) (jobs : List String) (trace : List Call) : Prop :=
  ∀ l1 l2 c, trace = l1 ++ c :: l2 → isCommit c = true →
    ∀ name ∈ jobs,
      .Open (pathJoin [jobsPath, name]) ∈ l1 ∧ .BodyReturned name ∈ l1 ∧
      .WgDone name ∈ l1 ∧ .WgWait ∈ l1

/-- What holds of a run of `Materialize` at each place of the main thread. -/
def phaseOk (cfg : MatCfg σ) : Prop :=
  match cfg.pc with
  | .start => cfg.tasks = [] ∧ cfg.st.trace = [] ∧ cfg.jobs = [] ∧ cfg.wg = 0
  | .spawn rest =>
    cfg.jobs = cfg.tasks.map Task.name ++ rest ∧ ∀ c ∈ cfg.st.trace, isCommit c = false
  | .wait => cfg.jobs = cfg.tasks.map Task.name ∧ ∀ c ∈ cfg.st.trace, isCommit c = false
  | .commit _ =>
    cfg.jobs = cfg.tasks.map Task.name ∧ (∀ c ∈ cfg.st.trace, isCommit c = false) ∧
    pending cfg.tasks = 0 ∧ (cfg.tasks ≠ [] → .WgWait ∈ cfg.st.trace)
  | .returned _ => cfg.jobs = cfg.tasks.map Task.name ∧ pending cfg.tasks = 0

/-- The invariant of the runs of `Materialize`. -/
structure MatInv (jobsPath : String) (cfg : MatCfg σ) : Prop where
  /-- The counter of the wait group counts the tasks that have not called `wg.Done`. -/
  wg_eq : cfg.wg = pending cfg.tasks
  /-- A task past its body has opened its job file and recorded its return. -/
  started : ∀ t ∈ cfg.tasks, t.pc ≠ .body →
    .Open (pathJoin [jobsPath, t.name]) ∈ cfg.st.trace ∧ .BodyReturned t.name ∈ cfg.st.trace
  /-- A task past `wg.Done` has recorded it. -/
  finished : ∀ t ∈ cfg.tasks, t.pc ≠ .body → t.pc ≠ .done → .WgDone t.name ∈ cfg.st.trace
  /-- Without tasks only the main thread has made calls. -/
  alone : cfg.tasks = [] → ∀ c ∈ cfg.st.trace, mainLevel c = true
  /-- The place of the main thread. -/
  phase : phaseOk cfg
  /-- Commits come last. -/
  ordered : CommitAfterJobs jobsPath cfg.jobs cfg.st.trace

/-! ## Invariants of the runs of `Map` -/

/-- What `Map` itself does to a container or a file: start a container, hand a file to
the current container, stop a container. -/
inductive Tag where
  | start
  | dispatch (name : String)
  | stop
  deriving DecidableEq, Repr

/-- The tag of a call of `Map` itself; the calls of the workers and of `pumpFiles` have
none. -/
def batchTag : Call → Option Tag
  | .StartContainer _ _ => some .start
  | .Dispatch name _ => some (.dispatch name)
  | .StopContainer _ => some .stop
  | _ => none

/-- The tags of a trace, in order. -/
def batchTags (l : List Call) : List Tag := l.filterMap batchTag

/-- What the inner loop of `Map` (lines 243-273) does from a queue of names with `uses`
names already dispatched to the current container: dispatch until the queue is empty or
the container is used up, stop the container, and in the second case start a fresh one
and go on. -/
def loopFuture (upm : Nat) : List String → Nat → List Tag
  | [], _ => [.stop]
  | name :: rest, uses =>
    .dispatch name ::
      (if uses + 1 = upm then .stop :: .start :: loopFuture upm rest 0
        else loopFuture upm rest (uses + 1))

/-- The batches in the words of the specification: `n / upm + 1` containers, container
`b` receiving the names `b * upm .. (b + 1) * upm - 1` of the delivery: `upm` names each,
except the last container, which receives the `n % upm` names that are left. -/
def specBatches (upm : Nat) (names : List String) : List (List String) :=
  (List.range (names.length / upm + 1)).map (fun b => (names.drop (b * upm)).take upm)

/-- The life of one container: started, handed its batch in order, stopped. -/
def batchLife (batch : List String) : List Tag :=
  .start :: batch.map .dispatch ++ [.stop]

/-- The call hands a file to a worker. -/
def isDispatch : Call → Bool
  | .Dispatch _ _ => true
  | _ => false

/-- The call records that a worker is back from `mapFile`. -/
def isDone : Call → Bool
  | .MapFileDone _ _ => true
  | _ => false

/-- The call stops a container. -/
def isStop : Call → Bool
  | .StopContainer _ => true
  | _ => false

/-- Whenever a container is stopped, every file dispatched so far is back from
`mapFile`. -/
def StopsBalanced (l : List Call) : Prop :=
  ∀ l1 l2 c, l = l1 ++ c :: l2 → isStop c = true → l1.countP isDispatch = l1.countP isDone

/-- A worker that is back from `mapFile` counts one. -/
def workDone (w : Worker) : Nat := if w.pc = 0 then 0 else 1

/-- A worker of the batch `cur` that still holds its place in the semaphore counts
one. -/
def workHolds (cur : Nat) (w : Worker) : Nat := if w.chan = cur ∧ w.pc ≠ 2 then 1 else 0

/-- What holds of the semaphore at each place of `Map`: in the inner loop it holds one
value per unfinished worker of the batch, while it is drained it holds the `i` drain
values besides, and elsewhere every worker has finished. -/
def semOk (parallel : Nat) (cfg : MapCfg σ) : Prop :=
  match cfg.pc with
  | .loop _ _ _ => cfg.sem = (cfg.workers.map (workHolds cfg.cur)).sum
  | .drain _ _ i => cfg.sem = (cfg.workers.map (workHolds cfg.cur)).sum + i ∧ i ≤ parallel
  | _ => ∀ w ∈ cfg.workers, w.pc = 2

/-- The invariant of the runs of `Map`; `l` is the part of the trace the run has added. -/
structure MapInv (parallel : Nat) (l : List Call) (cfg : MapCfg σ) : Prop where
  /-- One worker per dispatch. -/
  dispatched : l.countP isDispatch = cfg.workers.length
  /-- One record per worker that is back from `mapFile`. -/
  finished : l.countP isDone = (cfg.workers.map workDone).sum
  /-- The workers of earlier batches have finished. -/
  earlier : ∀ w ∈ cfg.workers, w.chan ≠ cfg.cur → w.pc = 2
  /-- The semaphore is never over its width. -/
  capacity : cfg.sem ≤ parallel
  /-- The semaphore counts the unfinished workers. -/
  sem : semOk parallel cfg
  /-- Containers are stopped when no worker is running. -/
  balanced : StopsBalanced l

/-- The calls on the container runtime. -/
def containerOp : Call → Bool
  | .PullImage _ => true
  | .StartContainer _ _ => true
  | .IpAddr _ => true
  | .StopContainer _ => true
  | _ => false

/-- What `Map` has yet to do to containers and files, by the place it stands at, when
the container runtime does not fail. -/
def mapFuture (upm : Nat) (cfg : MapCfg σ) : List Tag :=
  match cfg.pc with
  | .start => []
  | .top => .start :: loopFuture upm cfg.queue 0
  | .loop _ _ uses => loopFuture upm cfg.queue uses
  | .drain _ uses _ => .stop :: (if uses < upm then [] else .start :: loopFuture upm cfg.queue 0)
  | .returned => []

/-- The calls that start, stop and feed no container and record no return of `mapFile`. -/
def calm (c : Call) : Bool := (batchTag c).isNone && !isDone c

/-- The tags of the trace so far followed by what `Map` has yet to do make up what a run
over the delivery `names` does from its first container on; before the first statement
nothing has happened. -/
def shapeOk (upm : Nat) (names : List String) (s : St σ) (l : List Call) (cfg : MapCfg σ) :
    Prop :=
  match cfg.pc with
  | .start => cfg.st = s ∧ l = [] ∧ cfg.workers = []
  | .loop _ _ uses =>
    uses < upm ∧ batchTags l ++ mapFuture upm cfg = .start :: loopFuture upm names 0
  | .drain _ uses _ =>
    uses ≤ upm ∧ (uses < upm → cfg.queue = []) ∧
      batchTags l ++ mapFuture upm cfg = .start :: loopFuture upm names 0
  | _ => batchTags l ++ mapFuture upm cfg = .start :: loopFuture upm names 0

/-- A map job over the directory `in`, one file at a time. -/
def demoMap : Job :=
  { Typ := "map", Input := "in", Image := "ubuntu", Cmd := ["grep", "x"], Parallel := 1 }

/-- The world of the demonstration with the map job `grep` in the jobs directory and the
input files `a` and `b`. -/
def demoMapSys : Sys Store :=
  memSys "data/c1/jobs" [("grep", demoMap)] ["a", "b"] (fun _ => false)

/-- A world in which the store cannot make a directory. -/
def noMkdirSys : Sys Store :=
  memSys "data/c1/jobs" [("wc", demoReduce)] ["a", "b"]
    (fun c => match c with | .MkdirAll _ => true | _ => false)

/-- The run `pumpFiles` leaves behind for the map job of the demonstration. -/
def demoPumped : St Store :=
  { world :=
      { files := ["comp/master/grep", "data/c1/jobs", "data/c1/jobs/wc", "data/c1/in"],
        commits := [("data", "c1")] },
    trace :=
      [.MkdirAll "comp/master/grep", .LazyWalk "data/c1/in", .Send "a", .Send "b",
        .CloseChan] }

/-- A schedule that runs the map job of the demonstration to its end: each file is
mapped and its worker finished before the next one is dispatched. -/
def demoMapSched : List Nat := [0, 0, 0, 1, 1, 0, 2, 2, 0, 0, 0]

/-- The run `Map` leaves behind for the map job of the demonstration under
`demoMapSched`. -/
def demoMapped : St Store :=
  { world :=
      { files := ["comp/master/grep/b", "comp/master/grep/a", "comp/master/grep",
          "data/c1/jobs", "data/c1/jobs/wc", "data/c1/in"],
        commits := [("data", "c1")] },
    trace :=
      [.MkdirAll "comp/master/grep", .LazyWalk "data/c1/in", .Send "a", .Send "b",
        .CloseChan, .PullImage "ubuntu", .StartContainer "ubuntu" ["grep", "x"],
        .IpAddr "mapper", .Dispatch "a" "mapper", .Open "data/c1/in/a",
        .Post "http://10.0.0.2/a" "", .CreateAll "comp/master/grep/a",
        .Copy "comp/master/grep/a" "", .MapFileDone "a" "mapper", .Dispatch "b" "mapper",
        .Open "data/c1/in/b", .Post "http://10.0.0.2/b" "", .CreateAll "comp/master/grep/b",
        .Copy "comp/master/grep/b" "", .MapFileDone "b" "mapper", .StopContainer "mapper"] }

/-- A schedule that runs the reduce job of the demonstration to its end, the marker of
the job written before `Materialize` waits and commits. -/
def demoSched : List Nat := [0, 0, 0, 1, 1, 1, 0, 0]

/-- A schedule of the same run in which the task is paused between its deferred
`wg.Done` and its deferred creation of the marker while `Materialize` waits and
commits. -/
def raceSched : List Nat := [0, 0, 0, 1, 1, 0, 0, 1]

/-- The map job of the demonstration with a limit of one file. -/
def demoLimited : Job :=
  { demoMap with Limit := 1 }

/-! ## The contract of a paged bucket listing -/

/-- Modelled from the spec: the keys of the listing `keys` that come after `marker`; the
empty marker asks for the listing from its start. -/
def keysAfter (keys : List String) (marker : String) : List String :=
  if marker = "" then keys else (keys.dropWhile (fun k => k != marker)).drop 1

/-- Modelled from the spec: the answer of `bucket.List` to a request with `marker` when
the bucket lists `keys` and hands out `size` keys at a time: the first `size` keys after
the marker, and `IsTruncated` set when more keys follow them. -/
def s3Page (keys : List String) (size : Nat) (marker : String) : Reply :=
  { names := (keysAfter keys marker).take size,
    flag := decide (size < (keysAfter keys marker).length) }

/-- Modelled from the spec: what a run that has sent `fileCount` names still sends out of
`names` when it honours `job.limit`: all of them without a limit, otherwise as many as
the limit leaves. -/
def honoured (job : Job) (fileCount : Int) (names : List String) : List String :=
  if job.Limit = 0 then names else names.take (job.Limit - fileCount).toNat

/-- The keys of the demonstration bucket. -/
def demoKeys : List String := ["in/a", "in/bb", "in/cc", "in/d", "in/e"]

/-- A map job over the keys of a bucket, at most two files. -/
def demoS3Job : Job :=
  { Typ := "map", Input := "s3://bucket/in", Image := "ubuntu", Cmd := ["grep", "x"],
    Limit := 2 }

/-- A world whose bucket lists `demoKeys` two keys at a time; the hash is the length of
the key. -/
def demoS3Sys : Sys Unit where
  hash := String.length
  exec := fun c w =>
    match c with
    | .List _ _ marker => (s3Page demoKeys 2 marker, w)
    | .GetPath _ => ({ text := "in" }, w)
    | _ => ({}, w)

/-! ## `contains` (lines 28-33) and `sort.SearchStrings` of the Go standard library -/

/-- Go's `<` on strings is the lexicographic order of their bytes; on Lean strings it is
the lexicographic order of their characters. -/
def strLess (a b : String) : Bool := decide (a.data < b.data)

/-- The loop `for i < j` of Go's `sort.Search` with `fuel` iterations left: the midpoint
is `int(uint(i+j) >> 1)`, and `i = h + 1` when `f(h)` is false, `j = h` otherwise.
`none` when the fuel runs out or `f` panics. -/
def searchLoop (f : Nat → Option Bool) : Nat → Nat → Nat → Option Nat
  | 0, i, j => if i < j then none else some i
  | fuel + 1, i, j =>
    if i < j then
      match f (u64 (i + j) / 2) with
      | none => none
      | some false => searchLoop f fuel (u64 (i + j) / 2 + 1) j
      | some true => searchLoop f fuel i (u64 (i + j) / 2)
    else some i

/-- Go's `sort.Search(n, f)`; every iteration narrows `[i, j)`, so `n` iterations are
enough. -/
def Search (n : Nat) (f : Nat → Option Bool) : Option Nat :=
  searchLoop f n 0 n

/-- Go's `sort.SearchStrings(a, x)`, the search for `a[i] >= x`; an index out of range is
a run-time panic, `none`. -/
def SearchStrings (a : List String) (x : String) : Option Nat :=
  Search a.length (fun i => (a[i]?).map (fun s => !strLess s x))

/-- The function `contains`; `&&` evaluates `set[index]` only when `index < len(set)`. -/
def contains (set : List String) (val : String) : Option Bool :=
  match SearchStrings set val with
  | none => none
  | some index =>
    if index < set.length then (set[index]?).map (fun s => s == val) else some false

/-! ## The invocations of a closure under `retry` -/

/-- One invocation of a closure: the trace when it was entered, the error it returned and
the trace when it returned. -/
structure Invocation where
  before : List Call
  err : Option String
  after : List Call
  deriving DecidableEq, Repr

/-- The closure `f` with a ghost variable next to the variables it captures: the list of
its invocations so far.  The closure itself runs as it does without the ghost. -/
def observed {κ : Type} (f : κ → St σ → Option String × κ × St σ) :
    κ × List Invocation → St σ → Option String × (κ × List Invocation) × St σ :=
  fun kl s =>
    ((f kl.1 s).1,
      ((f kl.1 s).2.1, kl.2 ++ [⟨s.trace, (f kl.1 s).1, (f kl.1 s).2.2.trace⟩]),
      (f kl.1 s).2.2)

/-- Modelled from the spec: the invocations `obs` make up a run of `retry` that starts
at the trace `tr` with the error variable `err` and ends with `out`.  Each invocation is
entered where the run stands; one that returns no error is the last, and the run returns
`nil` where it returned; one that fails is followed by the log line and the pause, and
after the last of them the run returns its error. -/
def retryChain (pause : Nat) :
    List Call → Option String → List Invocation → Option String × List Call → Bool
  | tr, err, [], out => out == (err, tr)
  | tr, _, o :: rest, out =>
    o.before == tr &&
      match o.err with
      | none => rest == [] && out == (none, o.after)
      | some e =>
        retryChain pause
          (o.after ++ [.Log ("Retrying due to error: " ++ e), .Sleep pause]) (some e) rest out

/-- A closure that fails twice and then succeeds; it counts its invocations. -/
def flaky (n : Nat) (s : St Unit) : Option String × Nat × St Unit :=
  if n < 2 then (some "busy", n + 1, emit (.Get "http://mapper/") s)
  else (none, n + 1, emit (.Get "http://mapper/") s)

/-- The world of the demonstration with a mapper that refuses every `POST`. -/
def postFailSys : Sys Store :=
  memSys "data/c1/jobs" [("grep", demoMap)] ["a", "b"]
    (fun c => match c with | .Post _ _ => true | _ => false)

/-- The world of the demonstration with a store on which every `io.Copy` fails. -/
def copyFailSys : Sys Store :=
  memSys "data/c1/jobs" [("grep", demoMap)] ["a", "b"]
    (fun c => match c with | .Copy _ _ => true | _ => false)

/-- The world of the demonstration with a bucket whose `GetReader` returns a reader
together with an error. -/
def readerFailSys : Sys Store :=
  memSys "data/c1/jobs" [("grep", demoS3Job)] ["a", "b"]
    (fun c => match c with | .GetReader _ _ => true | _ => false)

/-- The world of the demonstration with a router on which every multicast fails. -/
def multicastFailSys : Sys Store :=
  memSys "data/c1/jobs" [("wc", demoReduce)] ["a", "b"]
    (fun c => match c with | .Multicast _ _ => true | _ => false)

/-- The closure of `mapFile` for the file `a` of the map job of the demonstration, on the
mapper that refuses every `POST`. -/
def refusedAttempt (_ : Unit) (s : St Store) : Option String × Unit × St Store :=
  ((mapFileAttempt postFailSys "a" "grep" "10.0.0.2" demoMap
      ⟨"data", "comp", "master", "c1"⟩ s).1, (),
    (mapFileAttempt postFailSys "a" "grep" "10.0.0.2" demoMap
      ⟨"data", "comp", "master", "c1"⟩ s).2)

/-! ## Counting the calls of `Reduce` -/

/-- The call is an `http.Post`. -/
def isPost : Call → Bool
  | .Post _ _ => true
  | _ => false

/-- The call is a `route.Multicast`. -/
def isMulticast : Call → Bool
  | .Multicast _ _ => true
  | _ => false

/-- The run `t` continues the run `s` with at most `posts` calls of `http.Post` and at
most `casts` calls of `route.Multicast`. -/
def Spends (posts casts : Nat) (s t : St σ) : Prop :=
  ∃ l, t.trace = s.trace ++ l ∧ l.countP isPost ≤ posts ∧ l.countP isMulticast ≤ casts

/-! ## The output file of `mapFile` in the store -/

/-- The calls of an attempt of `mapFile` other than the creation of the output file. -/
def attemptCall : Call → Bool
  | .Open _ => true
  | .NewBucket _ => true
  | .GetReader _ _ => true
  | .Post _ _ => true
  | .Copy _ _ => true
  | _ => false

/-- Modelled from the spec: what the store, which is outside the sources at hand, does
to the file at the path `p`, whose existence `ex` reads off the world: the calls of an
attempt other than `CreateAll` leave its existence as it is, a `CreateAll(p)` that
returns an error does so too, and after a `CreateAll(p)` that returns no error the file
exists. -/
structure KeepsFile (sys : Sys σ) (ex : σ → Bool) (p : String) : Prop where
  other : ∀ c w, attemptCall c = true → ex (sys.exec c w).2 = ex w
  failed : ∀ w, (sys.exec (.CreateAll p) w).1.err ≠ none →
    ex (sys.exec (.CreateAll p) w).2 = ex w
  created : ∀ w, (sys.exec (.CreateAll p) w).1.err = none →
    ex (sys.exec (.CreateAll p) w).2 = true

/-- The run `t` continues the run `s`, and the file at `p` exists after it exactly when
it existed before it or the run has come to an `io.Copy` into it. -/
def FileKept (ex : σ → Bool) (p : String) (s t : St σ) : Prop :=
  ∃ l, t.trace = s.trace ++ l ∧
    (ex t.world = true ↔ (ex s.world = true ∨ ∃ body, Call.Copy p body ∈ l))

/-! ## The world as the replay of the trace -/

/-- The entries of a trace that are calls into the world; the others (log lines, pauses,
channel and wait-group operations, returns of goroutines) leave the world alone. -/
def reaches : Call → Bool
  | .Log _ => false
  | .Sleep _ => false
  | .Send _ => false
  | .CloseChan => false
  | .Dispatch _ _ => false
  | .MapFileDone _ _ => false
  | .WgAdd => false
  | .WgDone _ => false
  | .WgWait => false
  | .BodyReturned _ => false
  | _ => true

/-- The world after the calls of `l` have been made in order, from the world `w`. -/
def replay (sys : Sys σ) : List Call → σ → σ
  | [], w => w
  | c :: l, w => replay sys l (if reaches c then (sys.exec c w).2 else w)

/-- The run `t` continues the run `s` with calls of the kind `P`, and its world is the
world of `s` after these calls. -/
def Runs (sys : Sys σ) (P : Call → Bool) (s t : St σ) : Prop :=
  ∃ l, t.trace = s.trace ++ l ∧ (∀ c ∈ l, P c = true) ∧ t.world = replay sys l s.world

/-- The calls a run of `Materialize` may make on the output branch, on the commit and on
the progress markers: it branches `outRepo` at `branch` only, commits `commit` of
`outRepo` only, and creates with `btrfs.Create` the marker of a listed job only. -/
def allowed (outRepo branch commit : String) (listing : List String) : Call → Prop
  | .Branch repo _ name => repo = outRepo ∧ name = branch
  | .Commit repo id _ => repo = outRepo ∧ id = commit
  | .Create p => ∃ name ∈ listing, p = pathJoin [outRepo, branch, ".progress", commit, name]
  | _ => True

/-- The run `t` continues the run `s` with calls that satisfy `A`, and its world is the
world of `s` after these calls. -/
def Tracks (sys : Sys σ) (A : Call → Prop) (s t : St σ) : Prop :=
  ∃ l, t.trace = s.trace ++ l ∧ (∀ c ∈ l, A c) ∧ t.world = replay sys l s.world

/-- The paths that the calls of a trace create as output: the arguments of
`btrfs.MkdirAll` and `btrfs.CreateAll`. -/
def outputs (trace : List Call) : List String :=
  trace.filterMap (fun c =>
    match c with
    | .MkdirAll p => some p
    | .CreateAll p => some p
    | _ => none)

/-- The path `q` is the directory `dir` or lies below it. -/
def inDir (dir q : String) : Bool :=
  q == dir || (dir.data ++ ['/']).isPrefixOf q.data

/-- What a run of `Materialize` keeps true at every step, for a world whose `ReadDir`
lists names of `listing` only: the run so far is made of allowed calls and its world is
the replay of its trace from the world `w0` it started in, and the jobs with a task or
still to be started are listed. -/
structure Recorded (sys : Sys σ) (outRepo branch commit : String) (listing : List String)
    (w0 : σ) (cfg : MatCfg σ) : Prop where
  run : Tracks sys (allowed outRepo branch commit listing) ⟨w0, []⟩ cfg.st
  listed : ∀ t ∈ cfg.tasks, t.name ∈ listing
  waiting : ∀ rest, cfg.pc = .spawn rest → ∀ n ∈ rest, n ∈ listing

/-- The store of the demonstration after a complete run of `Materialize`: the output
branch, the progress directory with the marker of `wc`, the output of `wc`, and the
commit `c1` of `comp`. -/
def demoMaterialised : Store :=
  { files := ["comp/master/.progress/c1/wc", "comp/master/wc", "comp/master/.progress/c1",
      "comp/master", "data/c1/jobs", "data/c1/jobs/wc", "data/c1/in"],
    commits := [("comp", "c1"), ("data", "c1")] }

/-- A world whose jobs directory holds one map job in a file named `.progress`, over the
input file `c1/x`. -/
def progressJobSys : Sys Store :=
  memSys "data/c1/jobs" [(".progress", demoMap)] ["c1/x"] (fun _ => false)

/-- A store in which the commit `c1` is materialised for the job file `.progress`: the
output branch, the progress directory, the marker of the job and the commit are there;
the output of the job is not. -/
def progressJobStore : Store :=
  { files := ["comp/master/.progress/c1/.progress", "comp/master/.progress/c1",
      "comp/master", "data/c1/jobs", "data/c1/jobs/.progress", "data/c1/in"],
    commits := [("comp", "c1"), ("data", "c1")] }

/-- A schedule that runs `Map` over one file to its end. -/
def oneFileSched : List Nat := [0, 0, 0, 1, 1, 0, 0, 0, 0, 0]

/-! # Theorems -/

/-! ## Traces only grow -/

theorem emit_trace (c : Call) (s : St σ) : (emit c s).trace = s.trace ++ [c] := rfl

theorem call_trace (sys : Sys σ) (c : Call) (s : St σ) :
    (sys.call c s).2.trace = s.trace ++ [c] := rfl

/-! ## Paths -/

theorem splitSlash_of_no_slash (l : List Char) (h : '/' ∉ l) : splitSlash l = [l] := by
  induction l with
  | nil => rfl
  | cons c cs ih =>
    have hc : c ≠ '/' := fun e => h (by simp [e])
    have hcs : '/' ∉ cs := fun e => h (by simp [e])
    simp [splitSlash, hc, ih hcs]

/-- For a directory entry name `path.Join("/job", name)` is the plain concatenation. -/
theorem pathJoin_job (name : String) (h : entryName name) :
    pathJoin ["/job", name] = "/job/" ++ name := by
  obtain ⟨h1, h2, h3, h4⟩ := h
  have hne : name ≠ "" := by
    intro e; apply h1; rw [e]
  have hsplit := splitSlash_of_no_slash name.data h2
  apply String.ext
  simp [pathJoin, hne, joinSlash, cleanChars, splitSlash, hsplit, cleanPush, h1, h3, h4]

/-! ## C1: shard ownership is a partition -/

/-- C1. For every path and every modulus `m ≥ 1` exactly one index below `m` passes the
shard test `HashResource(p) % m == i`; hence, whatever the listing, the files accepted
under the filter `0-2` and those accepted under `1-2` cover the listing and share no
file. -/
theorem shard_ownership_partition (sys : Sys σ) (p : String) (m : Nat) (hm : 1 ≤ m) :
    (∃! i, i < m ∧ ownedBy sys p i m = some true) ∧
    (∀ files : List String,
      (∀ f ∈ files, f ∈ shardFiles sys files 0 2 ∨ f ∈ shardFiles sys files 1 2) ∧
      (∀ f, ¬ (f ∈ shardFiles sys files 0 2 ∧ f ∈ shardFiles sys files 1 2))) := by
  have hm0 : m ≠ 0 := by omega
  refine ⟨⟨u64 (sys.hash p) % m, ⟨Nat.mod_lt _ (by omega), by simp [ownedBy, hm0]⟩, ?_⟩, ?_⟩
  · rintro i ⟨_, hi⟩
    simp [ownedBy, hm0] at hi
    exact hi.symm
  · intro files
    constructor
    · intro f hf
      simp only [shardFiles, List.mem_filter, ownedBy]
      have : u64 (sys.hash f) % 2 = 0 ∨ u64 (sys.hash f) % 2 = 1 := by omega
      rcases this with h | h
      · left; exact ⟨hf, by simp [h]⟩
      · right; exact ⟨hf, by simp [h]⟩
    · rintro f ⟨h0, h1⟩
      simp [shardFiles, ownedBy] at h0 h1
      omega

/-- C1 at the path `foo`, the modulus 2 and the length hash. -/
theorem shard_ownership_partition_witness :
    1 ≤ 2 ∧
    ((∃! i, i < 2 ∧ ownedBy lengthSys "foo" i 2 = some true) ∧
    (∀ files : List String,
      (∀ f ∈ files, f ∈ shardFiles lengthSys files 0 2 ∨ f ∈ shardFiles lengthSys files 1 2) ∧
      (∀ f, ¬ (f ∈ shardFiles lengthSys files 0 2 ∧ f ∈ shardFiles lengthSys files 1 2)))) :=
  ⟨by decide, shard_ownership_partition lengthSys "foo" 2 (by decide)⟩

/-! ## Runs continue the trace they start from -/

theorem GrowsBy.refl {P : Call → Bool} (s : St σ) : GrowsBy P s s := ⟨[], by simp, by simp⟩

theorem GrowsBy.trans {P : Call → Bool} {s t u : St σ} (h1 : GrowsBy P s t)
    (h2 : GrowsBy P t u) : GrowsBy P s u := by
  obtain ⟨l1, e1, p1⟩ := h1
  obtain ⟨l2, e2, p2⟩ := h2
  refine ⟨l1 ++ l2, by rw [e2, e1, List.append_assoc], ?_⟩
  intro c hc
  rcases List.mem_append.mp hc with h | h
  · exact p1 c h
  · exact p2 c h

theorem GrowsBy.mono {P Q : Call → Bool} {s t : St σ} (h : GrowsBy P s t)
    (hPQ : ∀ c, P c = true → Q c = true) : GrowsBy Q s t := by
  obtain ⟨l, e, p⟩ := h
  exact ⟨l, e, fun c hc => hPQ c (p c hc)⟩

theorem GrowsBy.le {P : Call → Bool} {s t : St σ} (h : GrowsBy P s t) :
    s.trace <+: t.trace := by
  obtain ⟨l, e, _⟩ := h
  exact ⟨l, e.symm⟩

theorem quiet_job (c : Call) (h : quietLevel c = true) : jobLevel c = true := by
  cases c <;> simp_all [quietLevel, jobLevel]

theorem emit_grows (P : Call → Bool) (c : Call) (s : St σ) (h : P c = true) :
    GrowsBy P s (emit c s) :=
  ⟨[c], rfl, by simpa using h⟩

theorem call_grows (P : Call → Bool) (sys : Sys σ) (c : Call) (s : St σ) (h : P c = true) :
    GrowsBy P s (sys.call c s).2 :=
  ⟨[c], rfl, by simpa using h⟩

theorem retryLoop_grows {P : Call → Bool} {κ : Type}
    (f : κ → St σ → Option String × κ × St σ) (pause : Nat)
    (hl : ∀ msg, P (.Log msg) = true) (hs : ∀ ms, P (.Sleep ms) = true)
    (hf : ∀ k s, GrowsBy P s (f k s).2.2) (n : Nat) (err : Option String) (k : κ)
    (s : St σ) : GrowsBy P s (retryLoop f pause n err k s).2.2 := by
  induction n generalizing err k s with
  | zero => exact GrowsBy.refl _
  | succ n ih =>
    have h := hf k s
    rcases hfk : f k s with ⟨e, k1, s1⟩
    rw [hfk] at h
    cases e with
    | none => simpa [retryLoop, hfk] using h
    | some e =>
      simp only [retryLoop, hfk]
      exact h.trans (((emit_grows _ _ _ (hl _)).trans (emit_grows _ _ _ (hs _))).trans (ih _ _ _))

theorem retry_grows (P : Call → Bool) {κ : Type} (f : κ → St σ → Option String × κ × St σ)
    (retries : Int) (pause : Nat)
    (hl : ∀ msg, P (.Log msg) = true) (hs : ∀ ms, P (.Sleep ms) = true)
    (hf : ∀ k s, GrowsBy P s (f k s).2.2) (k : κ) (s : St σ) :
    GrowsBy P s (retry f retries pause k s).2.2 :=
  retryLoop_grows f pause hl hs hf _ _ _ _

theorem multicastAttempt_grows (sys : Sys σ) (job : Job) (m : materializeInfo)
    (reader : String) (s : St σ) : GrowsBy jobLevel s (multicastAttempt sys job m reader s).2.2 := by
  unfold multicastAttempt
  simp only []
  split
  · exact call_grows _ _ _ _ (by rfl)
  · split
    · exact (call_grows _ _ _ _ (by rfl)).trans (call_grows _ _ _ _ (by rfl))
    · exact (call_grows _ _ _ _ (by rfl)).trans (call_grows _ _ _ _ (by rfl))

theorem reduceAttempt_grows (sys : Sys σ) (job : Job) (m : materializeInfo) (host : String)
    (modulos : Nat) (resp : Reply) (s : St σ) :
    GrowsBy jobLevel s (reduceAttempt sys job m host modulos resp s).2.2 := by
  unfold reduceAttempt
  simp only []
  split
  · split
    · exact call_grows _ _ _ _ (by rfl)
    · exact (call_grows _ _ _ _ (by rfl)).trans (call_grows _ _ _ _ (by rfl))
  · have h := retry_grows jobLevel (multicastAttempt sys job m) retries 60000
      (fun _ => rfl) (fun _ => rfl) (multicastAttempt_grows sys job m) "" s
    split
    · exact h
    · exact h.trans (call_grows _ _ _ _ (by rfl))

theorem reduceStop_grows (sys : Sys σ) (containerId : String) (s : St σ) :
    GrowsBy jobLevel s (reduceStop sys containerId s) := by
  unfold reduceStop
  simp only []
  split
  · exact (call_grows _ _ _ _ (by rfl)).trans (emit_grows _ _ _ (by rfl))
  · exact call_grows _ _ _ _ (by rfl)

theorem reduceBody_grows (sys : Sys σ) (job : Job) (jobName : String) (m : materializeInfo)
    (modulos : Nat) (containerId : String) (s : St σ) :
    GrowsBy jobLevel s (reduceBody sys job jobName m modulos containerId s) := by
  unfold reduceBody
  simp only []
  have h0 := call_grows jobLevel sys (.IpAddr containerId) s (by rfl)
  split
  · exact h0.trans (emit_grows _ _ _ (by rfl))
  · have h1 := h0.trans (retry_grows jobLevel
      (reduceAttempt sys job m (sys.call (.IpAddr containerId) s).1.text modulos) retries 200
      (fun _ => rfl) (fun _ => rfl) (reduceAttempt_grows sys job m _ modulos) {}
      (sys.call (.IpAddr containerId) s).2)
    split
    · exact h1.trans (emit_grows _ _ _ (by rfl))
    · split
      · exact h1.trans (emit_grows _ _ _ (by rfl))
      · apply h1.trans
        split
        · exact (call_grows _ _ _ _ (by rfl)).trans (emit_grows _ _ _ (by rfl))
        · split
          · exact ((call_grows _ _ _ _ (by rfl)).trans (call_grows _ _ _ _ (by rfl))).trans
              (emit_grows _ _ _ (by rfl))
          · exact (call_grows _ _ _ _ (by rfl)).trans (call_grows _ _ _ _ (by rfl))

theorem reduceGuarded_grows (sys : Sys σ) (job : Job) (jobName : String)
    (m : materializeInfo) (modulos : Nat) (s : St σ) :
    GrowsBy jobLevel s (reduceGuarded sys job jobName m modulos s) := by
  unfold reduceGuarded
  split
  · exact emit_grows _ _ _ (by rfl)
  · simp only []
    have h0 := call_grows jobLevel sys (.PullImage job.Image) s (by rfl)
    split
    · exact h0.trans (emit_grows _ _ _ (by rfl))
    · apply h0.trans
      split
      · exact (call_grows _ _ _ _ (by rfl)).trans (emit_grows _ _ _ (by rfl))
      · exact ((call_grows _ _ _ _ (by rfl)).trans (reduceBody_grows _ _ _ _ _ _ _)).trans
          (reduceStop_grows _ _ _)

theorem Reduce_grows (sys : Sys σ) (job : Job) (jobName : String) (m : materializeInfo)
    (shard modulos : Nat) (s t : St σ) (h : Reduce sys job jobName m shard modulos s = some t) :
    GrowsBy jobLevel s t := by
  unfold Reduce at h
  split at h
  · exact absurd h (by simp)
  · cases h; exact GrowsBy.refl _
  · cases h; exact reduceGuarded_grows _ _ _ _ _ _

/-- Past the guard `Reduce` makes at least one call or writes at least one log line. -/
theorem reduceGuarded_trace (sys : Sys σ) (job : Job) (jobName : String)
    (m : materializeInfo) (modulos : Nat) (s : St σ) :
    ∃ c l, (reduceGuarded sys job jobName m modulos s).trace = s.trace ++ c :: l := by
  unfold reduceGuarded
  split
  · exact ⟨_, [], rfl⟩
  · simp only []
    have key : ∀ t : St σ, GrowsBy jobLevel (sys.call (.PullImage job.Image) s).2 t →
        ∃ c l, t.trace = s.trace ++ c :: l := by
      rintro t ⟨l, hl, _⟩
      exact ⟨.PullImage job.Image, l, by rw [hl, call_trace]; simp⟩
    split
    · exact key _ (emit_grows _ _ _ (by rfl))
    · split
      · exact key _ ((call_grows _ _ _ _ (by rfl)).trans (emit_grows _ _ _ (by rfl)))
      · exact key _ (((call_grows _ _ _ _ (by rfl)).trans (reduceBody_grows _ _ _ _ _ _ _)).trans
          (reduceStop_grows _ _ _))

/-! ## C2: the shard guard of `Reduce` -/

/-- C2. For a job name as a directory listing yields it and a modulus `≥ 1`: on the
shard `index` with `HashResource("/job/" + jobName) % modulos == index` the function
`Reduce` goes past its first check and runs the statements after it, which make at least
one call; on every other shard it returns with the world and the trace untouched (no
image pulled, no container started, no file written); and exactly one shard below
`modulos` is of the first kind. -/
theorem Reduce_shard_guard (sys : Sys σ) (job : Job) (jobName : String) (m : materializeInfo)
    (modulos : Nat) (s : St σ) (hm : 1 ≤ modulos) (hn : entryName jobName) :
    (∀ index,
      (u64 (sys.hash ("/job/" ++ jobName)) % modulos = index →
        Reduce sys job jobName m index modulos s =
          some (reduceGuarded sys job jobName m modulos s)) ∧
      (u64 (sys.hash ("/job/" ++ jobName)) % modulos ≠ index →
        Reduce sys job jobName m index modulos s = some s)) ∧
    (∃ c l, (reduceGuarded sys job jobName m modulos s).trace = s.trace ++ c :: l) ∧
    (∃! index, index < modulos ∧ Reduce sys job jobName m index modulos s ≠ some s) := by
  have hm0 : modulos ≠ 0 := by omega
  have hgrow := reduceGuarded_trace sys job jobName m modulos s
  have hne : reduceGuarded sys job jobName m modulos s ≠ s := by
    intro e
    obtain ⟨c, l, hl⟩ := hgrow
    rw [e] at hl
    have := congrArg List.length hl
    simp at this
  have hyes : ∀ index, u64 (sys.hash ("/job/" ++ jobName)) % modulos = index →
      Reduce sys job jobName m index modulos s =
        some (reduceGuarded sys job jobName m modulos s) := by
    intro index h
    simp [Reduce, ownedBy, hm0, pathJoin_job jobName hn, h]
  have hno : ∀ index, u64 (sys.hash ("/job/" ++ jobName)) % modulos ≠ index →
      Reduce sys job jobName m index modulos s = some s := by
    intro index h
    have hb : (u64 (sys.hash ("/job/" ++ jobName)) % modulos == index) = false := by
      simpa using h
    simp [Reduce, ownedBy, hm0, pathJoin_job jobName hn, hb]
  refine ⟨fun index => ⟨hyes index, hno index⟩, hgrow, ?_⟩
  refine ⟨u64 (sys.hash ("/job/" ++ jobName)) % modulos,
    ⟨Nat.mod_lt _ (by omega), ?_⟩, ?_⟩
  · rw [hyes _ rfl]
    simpa using hne
  · rintro i ⟨_, hi⟩
    by_contra hcon
    exact hi (hno i (fun e => hcon e.symm))

/-- C2 for the job file `wc` on two shards, with the length hash. -/
theorem Reduce_shard_guard_witness :
    1 ≤ 2 ∧ entryName "wc" ∧
    ((∀ index,
      (u64 (lengthSys.hash ("/job/" ++ "wc")) % 2 = index →
        Reduce lengthSys {} "wc" ⟨"data", "comp", "master", "c1"⟩ index 2 ⟨(), []⟩ =
          some (reduceGuarded lengthSys {} "wc" ⟨"data", "comp", "master", "c1"⟩ 2 ⟨(), []⟩)) ∧
      (u64 (lengthSys.hash ("/job/" ++ "wc")) % 2 ≠ index →
        Reduce lengthSys {} "wc" ⟨"data", "comp", "master", "c1"⟩ index 2 ⟨(), []⟩ =
          some ⟨(), []⟩)) ∧
    (∃ c l, (reduceGuarded lengthSys {} "wc" ⟨"data", "comp", "master", "c1"⟩ 2
      ⟨(), []⟩).trace = (⟨(), []⟩ : St Unit).trace ++ c :: l) ∧
    (∃! index, index < 2 ∧
      Reduce lengthSys {} "wc" ⟨"data", "comp", "master", "c1"⟩ index 2 ⟨(), []⟩ ≠
        some ⟨(), []⟩)) :=
  ⟨by decide, by simp [entryName],
    Reduce_shard_guard lengthSys {} "wc" ⟨"data", "comp", "master", "c1"⟩ 2 ⟨(), []⟩
      (by decide) (by simp [entryName])⟩

/-! ## The calls of `mapFile`, `pumpFiles` and `Map` -/

theorem mapFilePost_grows (sys : Sys σ) (filename jobName host : String) (m : materializeInfo)
    (inFile : String) (s : St σ) :
    GrowsBy quietLevel s (mapFilePost sys filename jobName host m inFile s).2 := by
  unfold mapFilePost
  simp only []
  have h0 := call_grows quietLevel sys (.Post ("http://" ++ pathJoin [host, filename]) inFile) s (by rfl)
  split
  · exact h0
  · apply h0.trans
    split
    · exact call_grows _ _ _ _ (by rfl)
    · split
      · exact (call_grows _ _ _ _ (by rfl)).trans (call_grows _ _ _ _ (by rfl))
      · exact (call_grows _ _ _ _ (by rfl)).trans (call_grows _ _ _ _ (by rfl))

theorem mapFileAttempt_grows (sys : Sys σ) (filename jobName host : String) (job : Job)
    (m : materializeInfo) (s : St σ) :
    GrowsBy quietLevel s (mapFileAttempt sys filename jobName host job m s).2 := by
  unfold mapFileAttempt
  simp only []
  split
  · split
    · exact call_grows _ _ _ _ (by rfl)
    · exact (call_grows _ _ _ _ (by rfl)).trans (mapFilePost_grows _ _ _ _ _ _ _)
  · split
    · split
      · exact call_grows _ _ _ _ (by rfl)
      · split
        · exact (call_grows _ _ _ _ (by rfl)).trans (call_grows _ _ _ _ (by rfl))
        · exact ((call_grows _ _ _ _ (by rfl)).trans (call_grows _ _ _ _ (by rfl))).trans
            (mapFilePost_grows _ _ _ _ _ _ _)
    · exact GrowsBy.refl _

theorem mapFile_grows (sys : Sys σ) (filename jobName host : String) (job : Job)
    (m : materializeInfo) (s : St σ) :
    GrowsBy quietLevel s (mapFile sys filename jobName host job m s).2 := by
  unfold mapFile
  simp only []
  have h := retry_grows quietLevel (fun (_ : Unit) s1 =>
      ((mapFileAttempt sys filename jobName host job m s1).1, (),
        (mapFileAttempt sys filename jobName host job m s1).2)) retries 500
      (fun _ => rfl) (fun _ => rfl) (fun _ s1 => mapFileAttempt_grows sys filename jobName host job m s1) () s
  split
  · exact h.trans (emit_grows _ _ _ (by rfl))
  · exact h

theorem workerRun_grows (sys : Sys σ) (job : Job) (jobName : String) (m : materializeInfo)
    (w : Worker) (s : St σ) : GrowsBy jobLevel s (workerRun sys job jobName m w s) := by
  unfold workerRun
  simp only []
  have h := (mapFile_grows sys w.name jobName w.host job m s).mono quiet_job
  split
  · exact (h.trans (emit_grows _ _ _ (by rfl))).trans (emit_grows _ _ _ (by rfl))
  · exact h.trans (emit_grows _ _ _ (by rfl))

theorem walkNames_grows {κ : Type} (visit : String → κ → St σ → Option String × κ × St σ)
    (hv : ∀ name k s, GrowsBy quietLevel s (visit name k s).2.2) (names : List String) (k : κ)
    (s : St σ) : GrowsBy quietLevel s (walkNames visit names k s).2.2 := by
  induction names generalizing k s with
  | nil => exact GrowsBy.refl _
  | cons name rest ih =>
    have h := hv name k s
    rcases hvk : visit name k s with ⟨e, k1, s1⟩
    rw [hvk] at h
    cases e with
    | some e => simpa [walkNames, hvk] using h
    | none =>
      simp only [walkNames, hvk]
      exact h.trans (ih _ _)

theorem pumpVisit_grows (job : Job) (name : String) (fileCount : Int) (s : St σ) :
    GrowsBy quietLevel s (pumpVisit job name fileCount s).2.2 := by
  unfold pumpVisit
  split
  · exact emit_grows _ _ _ (by rfl)
  · exact emit_grows _ _ _ (by rfl)

theorem LazyWalk_grows {κ : Type} (sys : Sys σ) (path : String)
    (visit : String → κ → St σ → Option String × κ × St σ)
    (hv : ∀ name k s, GrowsBy quietLevel s (visit name k s).2.2) (k : κ) (s : St σ) :
    GrowsBy quietLevel s (LazyWalk sys path visit k s).2.2 := by
  unfold LazyWalk
  simp only []
  have h := (call_grows quietLevel sys (.LazyWalk path) s (by rfl)).trans
    (walkNames_grows visit hv (sys.call (.LazyWalk path) s).1.names k
      (sys.call (.LazyWalk path) s).2)
  split
  · exact h
  · exact h

theorem pumpPage_grows (sys : Sys σ) (job : Job) (shard modulos : Nat) (keys : List String)
    (fileCount : Int) (nextMarker : String) (s : St σ) (r : Int × String × St σ)
    (h : pumpPage sys job shard modulos keys fileCount nextMarker s = some r) :
    GrowsBy quietLevel s r.2.2 := by
  induction keys generalizing fileCount nextMarker s with
  | nil =>
    simp only [pumpPage, Option.some.injEq] at h
    subst h
    exact GrowsBy.refl _
  | cons key rest ih =>
    unfold pumpPage at h
    split at h
    · exact absurd h (by simp)
    · split at h
      · simp only [Option.some.injEq] at h
        subst h
        exact emit_grows _ _ _ (by rfl)
      · exact (emit_grows _ _ _ (by rfl)).trans (ih _ _ _ h)
    · exact ih _ _ _ h

theorem pumpS3_grows (sys : Sys σ) (job : Job) (shard modulos : Nat) (inPath : String)
    (fuel : Nat) (nextMarker : String) (fileCount : Int) (s t : St σ)
    (h : pumpS3 sys job shard modulos inPath fuel nextMarker fileCount s = some t) :
    GrowsBy quietLevel s t := by
  induction fuel generalizing nextMarker fileCount s with
  | zero => exact absurd h (by simp [pumpS3])
  | succ fuel ih =>
    unfold pumpS3 at h
    simp only [] at h
    have h0 := call_grows quietLevel sys (.List job.Input inPath nextMarker) s (by rfl)
    split at h
    · simp only [Option.some.injEq] at h
      subst h
      exact h0.trans (emit_grows _ _ _ (by rfl))
    · split at h
      · exact absurd h (by simp)
      · rename_i c mk s1 hp
        have h1 := h0.trans (pumpPage_grows _ _ _ _ _ _ _ _ _ hp)
        split at h
        · simp only [Option.some.injEq] at h
          subst h
          exact h1
        · split at h
          · simp only [Option.some.injEq] at h
            subst h
            exact h1
          · exact h1.trans (ih _ _ _ h)

theorem pumpBody_grows (sys : Sys σ) (fuel : Nat) (job : Job) (m : materializeInfo)
    (shard modulos : Nat) (s t : St σ)
    (h : pumpBody sys fuel job m shard modulos s = some t) : GrowsBy quietLevel s t := by
  unfold pumpBody at h
  simp only [] at h
  split at h
  · have hw := LazyWalk_grows sys (pathJoin [m.In, m.Commit, job.Input]) (pumpVisit job)
      (pumpVisit_grows job) 0 s
    split at h
    · split at h
      · simp only [Option.some.injEq] at h
        subst h
        exact hw.trans (emit_grows _ _ _ (by rfl))
      · simp only [Option.some.injEq] at h
        subst h
        exact hw
    · simp only [Option.some.injEq] at h
      subst h
      exact hw
  · split at h
    · have h0 := call_grows quietLevel sys (.NewBucket job.Input) s (by rfl)
      split at h
      · simp only [Option.some.injEq] at h
        subst h
        exact h0.trans (emit_grows _ _ _ (by rfl))
      · have h1 := h0.trans (call_grows _ sys (.GetPath job.Input)
          (sys.call (.NewBucket job.Input) s).2 (by rfl))
        split at h
        · simp only [Option.some.injEq] at h
          subst h
          exact h1.trans (emit_grows _ _ _ (by rfl))
        · exact h1.trans (pumpS3_grows _ _ _ _ _ _ _ _ _ _ h)
    · simp only [Option.some.injEq] at h
      subst h
      exact emit_grows _ _ _ (by rfl)

theorem pumpFiles_grows (sys : Sys σ) (fuel : Nat) (job : Job) (m : materializeInfo)
    (shard modulos : Nat) (s t : St σ)
    (h : pumpFiles sys fuel job m shard modulos s = some t) : GrowsBy quietLevel s t := by
  unfold pumpFiles at h
  cases hb : pumpBody sys fuel job m shard modulos s with
  | none => simp [hb] at h
  | some b =>
    simp only [hb, Option.map_some', Option.some.injEq] at h
    subst h
    exact (pumpBody_grows _ _ _ _ _ _ _ _ hb).trans (emit_grows _ _ _ (by rfl))

theorem mapMain_grows (sys : Sys σ) (fuel upm : Nat) (job : Job) (jobName : String)
    (m : materializeInfo) (shard modulos : Nat) (cfg : MapCfg σ) :
    GrowsBy jobLevel cfg.st (mapMain sys fuel upm job jobName m shard modulos cfg).st := by
  unfold mapMain
  split
  · simp only [PrepJob, MapCfg.fail]
    have h0 := call_grows jobLevel sys (.MkdirAll (pathJoin [m.Out, m.Branch, pathBase jobName]))
      cfg.st (by rfl)
    split
    · exact h0.trans (emit_grows _ _ _ (by rfl))
    · split
      · exact h0.trans (emit_grows _ _ _ (by rfl))
      · split
        · exact GrowsBy.refl _
        · rename_i pumped hp
          have h1 := h0.trans ((pumpFiles_grows _ _ _ _ _ _ _ _ hp).mono quiet_job)
          split
          · exact (h1.trans (call_grows _ _ _ _ (by rfl))).trans (emit_grows _ _ _ (by rfl))
          · exact h1.trans (call_grows _ _ _ _ (by rfl))
  · simp only [MapCfg.fail]
    have h0 := call_grows jobLevel sys (.StartContainer job.Image job.Cmd) cfg.st (by rfl)
    split
    · exact h0.trans (emit_grows _ _ _ (by rfl))
    · split
      · exact (h0.trans (call_grows _ _ _ _ (by rfl))).trans (emit_grows _ _ _ (by rfl))
      · exact h0.trans (call_grows _ _ _ _ (by rfl))
  · split
    · exact GrowsBy.refl _
    · split
      · exact emit_grows _ _ _ (by rfl)
      · exact GrowsBy.refl _
  · split
    · split
      · exact GrowsBy.refl _
      · exact GrowsBy.refl _
    · simp only [MapCfg.fail]
      split
      · exact (call_grows _ _ _ _ (by rfl)).trans (emit_grows _ _ _ (by rfl))
      · exact call_grows _ _ _ _ (by rfl)
  · exact GrowsBy.refl _

theorem mapWorker_grows (sys : Sys σ) (job : Job) (jobName : String) (m : materializeInfo)
    (cfg : MapCfg σ) (k : Nat) : GrowsBy jobLevel cfg.st (mapWorker sys job jobName m cfg k).st := by
  unfold mapWorker
  split
  · exact GrowsBy.refl _
  · split
    · exact workerRun_grows _ _ _ _ _ _
    · split
      · split
        · split
          · exact GrowsBy.refl _
          · exact GrowsBy.refl _
        · exact GrowsBy.refl _
      · exact GrowsBy.refl _

theorem mapStep_grows (sys : Sys σ) (fuel upm : Nat) (job : Job) (jobName : String)
    (m : materializeInfo) (shard modulos : Nat) (cfg : MapCfg σ) (tid : Nat) :
    GrowsBy jobLevel cfg.st (mapStep sys fuel upm job jobName m shard modulos cfg tid).st := by
  cases tid with
  | zero => exact mapMain_grows _ _ _ _ _ _ _ _ _
  | succ k => exact mapWorker_grows _ _ _ _ _ _

theorem foldl_mapStep_grows (sys : Sys σ) (fuel upm : Nat) (job : Job) (jobName : String)
    (m : materializeInfo) (shard modulos : Nat) (sched : List Nat) (cfg : MapCfg σ) :
    GrowsBy jobLevel cfg.st (sched.foldl (mapStep sys fuel upm job jobName m shard modulos) cfg).st := by
  induction sched generalizing cfg with
  | nil => exact GrowsBy.refl _
  | cons tid rest ih =>
    exact (mapStep_grows _ _ _ _ _ _ _ _ _ _).trans (ih _)

theorem Map_grows (sys : Sys σ) (fuel : Nat) (sched : List Nat) (job : Job)
    (jobName : String) (m : materializeInfo) (shard modulos : Nat) (s t : St σ)
    (h : Map sys fuel sched job jobName m shard modulos s = some t) : GrowsBy jobLevel s t := by
  unfold Map at h
  simp only [] at h
  split at h
  · simp only [Option.some.injEq] at h
    subst h
    exact foldl_mapStep_grows _ _ _ _ _ _ _ _ _ _
  · exact absurd h (by simp)

theorem jobBody_grows (sys : Sys σ) (fuel : Nat) (inner : List Nat) (jobsPath name : String)
    (m : materializeInfo) (shard modulos : Nat) (s t : St σ)
    (h : jobBody sys fuel inner jobsPath name m shard modulos s = some t) : GrowsBy jobLevel s t := by
  unfold jobBody at h
  simp only [] at h
  have h0 := call_grows jobLevel sys (.Open (pathJoin [jobsPath, name])) s (by rfl)
  split at h
  · simp only [Option.some.injEq] at h
    subst h
    exact h0.trans (emit_grows _ _ _ (by rfl))
  · have h1 := h0.trans (call_grows _ sys (.Decode (pathJoin [jobsPath, name]))
      (sys.call (.Open (pathJoin [jobsPath, name])) s).2 (by rfl))
    split at h
    · simp only [Option.some.injEq] at h
      subst h
      exact h1.trans (emit_grows _ _ _ (by rfl))
    · split at h
      · exact h1.trans (Map_grows _ _ _ _ _ _ _ _ _ _ h)
      · split at h
        · exact h1.trans (Reduce_grows _ _ _ _ _ _ _ _ h)
        · simp only [Option.some.injEq] at h
          subst h
          exact h1.trans (emit_grows _ _ _ (by rfl))

/-! ## C4: every path through a job task ends with one attempt to create the marker -/

/-- The body of a job task returns when the job file cannot be opened, when it does not
decode, when the type is not recognised, and for a reduce job on a ring of at least one
shard; for a map job it returns when `Map` does. -/
theorem jobBody_returns (sys : Sys σ) (fuel : Nat) (inner : List Nat) (jobsPath name : String)
    (m : materializeInfo) (shard modulos : Nat) (s : St σ) :
    ((sys.call (.Open (pathJoin [jobsPath, name])) s).1.err ≠ none →
      (jobBody sys fuel inner jobsPath name m shard modulos s).isSome) ∧
    ((sys.call (.Decode (pathJoin [jobsPath, name]))
        (sys.call (.Open (pathJoin [jobsPath, name])) s).2).1.err ≠ none →
      (jobBody sys fuel inner jobsPath name m shard modulos s).isSome) ∧
    ((sys.call (.Decode (pathJoin [jobsPath, name]))
        (sys.call (.Open (pathJoin [jobsPath, name])) s).2).1.job.Typ ≠ "map" →
      1 ≤ modulos → (jobBody sys fuel inner jobsPath name m shard modulos s).isSome) := by
  refine ⟨?_, ?_, ?_⟩
  · intro h
    unfold jobBody
    simp only []
    split
    · rfl
    · rename_i h2; exact absurd h2 h
  · intro h
    unfold jobBody
    simp only []
    split
    · rfl
    · split
      · rfl
      · rename_i h2; exact absurd h2 h
  · intro h hm
    unfold jobBody
    simp only []
    split
    · rfl
    · split
      · rfl
      · rw [if_neg h]
        split
        · have hm0 : modulos ≠ 0 := by omega
          simp only [Reduce, ownedBy, hm0, if_false]
          split
          · rename_i h3; exact absurd h3 (by simp)
          · rfl
          · rfl
        · rfl

/-- C4. Whatever the world answers, when the body of the task of a job returns (the job
file could not be opened, did not decode, was a map job, a reduce job or of an
unrecognised type), the task ends with `wg.Done` and then one call of `btrfs.Create` on
`outRepo/branch/.progress/commit/<name>`: the body makes no call of `Create`, nothing
but the log line of a failed creation follows, so this path is created exactly once; and
`WaitJob` for this job waits on the same path. -/
theorem jobTask_marker_once (sys : Sys σ) (fuel : Nat) (inner : List Nat)
    (in_repo branch commit outRepo jobDir name : String) (shard modulos : Nat)
    (s s1 : St σ)
    (h : jobBody sys fuel inner (pathJoin [in_repo, commit, jobDir]) name
      ⟨in_repo, outRepo, branch, commit⟩ shard modulos s = some s1) :
    ∃ t body rest,
      jobTask sys fuel inner in_repo branch commit outRepo jobDir name shard modulos s =
        some t ∧
      t.trace = s.trace ++ body ++
        [.BodyReturned name, .WgDone name,
          .Create (pathJoin [outRepo, branch, ".progress", commit, name])] ++ rest ∧
      (∀ c ∈ body, ∀ p, c ≠ .Create p) ∧
      (∀ c ∈ rest, ∃ e, c = .Log e) ∧
      (body ++ [.BodyReturned name, .WgDone name,
          .Create (pathJoin [outRepo, branch, ".progress", commit, name])] ++ rest).count
        (.Create (pathJoin [outRepo, branch, ".progress", commit, name])) = 1 ∧
      (WaitJob sys outRepo branch commit name t).2.trace =
        t.trace ++ [.WaitFile (pathJoin [outRepo, branch, ".progress", commit, name])] := by
  obtain ⟨body, hbody, hlevel⟩ := jobBody_grows _ _ _ _ _ _ _ _ _ _ h
  have hnc : ∀ c ∈ body, ∀ p, c ≠ .Create p := by
    intro c hc p e
    have := hlevel c hc
    rw [e] at this
    simp [jobLevel] at this
  have hcount : ∀ rest : List Call, (∀ c ∈ rest, ∃ e, c = Call.Log e) →
      (body ++ [Call.BodyReturned name, Call.WgDone name,
          Call.Create (pathJoin [outRepo, branch, ".progress", commit, name])] ++ rest).count
        (Call.Create (pathJoin [outRepo, branch, ".progress", commit, name])) = 1 := by
    intro rest hrest
    have h1 : body.count
        (Call.Create (pathJoin [outRepo, branch, ".progress", commit, name])) = 0 :=
      List.count_eq_zero.mpr (fun hc => hnc _ hc _ rfl)
    have h2 : rest.count
        (Call.Create (pathJoin [outRepo, branch, ".progress", commit, name])) = 0 :=
      List.count_eq_zero.mpr (fun hc => by
        obtain ⟨e, he⟩ := hrest _ hc
        exact absurd he (by simp))
    simp [List.count_append, h1, h2, List.count_cons]
  unfold jobTask
  rw [h]
  simp only [Option.map_some', createMarker]
  split
  · rename_i e he
    have hlog : ∀ c ∈ [Call.Log e], ∃ e, c = Call.Log e := by
      intro c hc; exact ⟨e, by simpa using hc⟩
    refine ⟨_, body, [.Log e], rfl, ?_, hnc, hlog, hcount _ hlog, rfl⟩
    simp [emit, Sys.call, hbody]
  · have hlog : ∀ c ∈ ([] : List Call), ∃ e, c = Call.Log e := by
      intro c hc; simp at hc
    refine ⟨_, body, [], rfl, ?_, hnc, hlog, hcount _ hlog, rfl⟩
    simp [emit, Sys.call, hbody]

/-- C4 on the demonstration store: the task of the reduce job `wc`. -/
theorem jobTask_marker_once_witness :
    jobBody demoSys 0 [] (pathJoin ["data", "c1", "jobs"]) "wc"
      ⟨"data", "comp", "master", "c1"⟩ 0 1 ⟨demoStore, []⟩ = some demoReduced ∧
    ∃ t body rest,
      jobTask demoSys 0 [] "data" "master" "c1" "comp" "jobs" "wc" 0 1 ⟨demoStore, []⟩ =
        some t ∧
      t.trace = (⟨demoStore, []⟩ : St Store).trace ++ body ++
        [.BodyReturned "wc", .WgDone "wc",
          .Create (pathJoin ["comp", "master", ".progress", "c1", "wc"])] ++ rest ∧
      (∀ c ∈ body, ∀ p, c ≠ .Create p) ∧
      (∀ c ∈ rest, ∃ e, c = .Log e) ∧
      (body ++ [.BodyReturned "wc", .WgDone "wc",
          .Create (pathJoin ["comp", "master", ".progress", "c1", "wc"])] ++ rest).count
        (.Create (pathJoin ["comp", "master", ".progress", "c1", "wc"])) = 1 ∧
      (WaitJob demoSys "comp" "master" "c1" "wc" t).2.trace =
        t.trace ++ [.WaitFile (pathJoin ["comp", "master", ".progress", "c1", "wc"])] :=
  ⟨by rfl, jobTask_marker_once demoSys 0 [] "data" "master" "c1" "comp" "jobs" "wc" 0 1
    ⟨demoStore, []⟩ demoReduced (by rfl)⟩

/-! ## The invariant of `Materialize` -/

theorem pending_append (tasks : List Task) (t : Task) :
    pending (tasks ++ [t]) = pending tasks + taskWeight t := by
  simp [pending]

theorem pending_set (tasks : List Task) (k : Nat) (t u : Task) (h : tasks[k]? = some t) :
    pending (tasks.set k u) + taskWeight t = pending tasks + taskWeight u := by
  induction tasks generalizing k with
  | nil => simp at h
  | cons a rest ih =>
    cases k with
    | zero =>
      simp only [List.getElem?_cons_zero, Option.some.injEq] at h
      subst h
      simp only [pending, List.set_cons_zero, List.map_cons, List.sum_cons]
      omega
    | succ k =>
      simp only [List.getElem?_cons_succ] at h
      have := ih k h
      simp only [pending, List.set_cons_succ, List.map_cons, List.sum_cons] at this ⊢
      omega

theorem pending_zero (tasks : List Task) (h : pending tasks = 0) (t : Task)
    (ht : t ∈ tasks) : t.pc ≠ .body ∧ t.pc ≠ .done := by
  induction tasks with
  | nil => simp at ht
  | cons a rest ih =>
    simp only [pending, List.map_cons, List.sum_cons] at h
    rcases List.mem_cons.mp ht with e | e
    · subst e
      have hw : taskWeight t = 0 := by omega
      unfold taskWeight at hw
      split at hw
      · omega
      · rename_i hn
        exact ⟨fun e => hn (Or.inl e), fun e => hn (Or.inr e)⟩
    · exact ih (by simp only [pending]; omega) e

theorem map_name_set (tasks : List Task) (k : Nat) (t : Task) (pc : TaskPc)
    (h : tasks[k]? = some t) :
    (tasks.set k { t with pc := pc }).map Task.name = tasks.map Task.name := by
  induction tasks generalizing k with
  | nil => simp
  | cons a rest ih =>
    cases k with
    | zero =>
      simp only [List.getElem?_cons_zero, Option.some.injEq] at h
      subst h
      simp
    | succ k =>
      simp only [List.getElem?_cons_succ] at h
      simp [ih k h]

theorem mem_of_getElem? {α : Type} (l : List α) (k : Nat) (a : α) (h : l[k]? = some a) :
    a ∈ l := by
  obtain ⟨hk, e⟩ := List.getElem?_eq_some.mp h
  exact e ▸ List.getElem_mem hk

/-- A commit of a trace extended by calls that are no commits is a commit of the trace. -/
theorem commit_split {tr evs l1 l2 : List Call} {c : Call}
    (h : tr ++ evs = l1 ++ c :: l2) (hc : isCommit c = true)
    (hev : ∀ x ∈ evs, isCommit x = false) : ∃ l3, tr = l1 ++ c :: l3 := by
  have hno : c ∉ evs := by
    intro hmem
    have := hev c hmem
    rw [hc] at this
    exact absurd this (by simp)
  rcases List.append_eq_append_iff.mp h with ⟨a, _, e2⟩ | ⟨a, e1, e2⟩
  · exact absurd (by rw [e2]; simp) hno
  · cases a with
    | nil =>
      simp only [List.nil_append] at e2
      exact absurd (by rw [← e2]; simp) hno
    | cons x a =>
      simp only [List.cons_append, List.cons.injEq] at e2
      exact ⟨a, by rw [e1, e2.1]⟩

theorem CommitAfterJobs.append {jobsPath : String} {jobs : List String} {tr evs : List Call}
    (h : CommitAfterJobs jobsPath jobs tr) (hev : ∀ x ∈ evs, isCommit x = false) :
    CommitAfterJobs jobsPath jobs (tr ++ evs) := by
  intro l1 l2 c e hc
  obtain ⟨l3, e3⟩ := commit_split e hc hev
  exact h l1 l3 c e3 hc

theorem CommitAfterJobs.of_none {jobsPath : String} {jobs : List String} {tr : List Call}
    (h : ∀ x ∈ tr, isCommit x = false) : CommitAfterJobs jobsPath jobs tr := by
  intro l1 l2 c e hc
  have : c ∈ tr := by rw [e]; simp
  have := h c this
  rw [hc] at this
  exact absurd this (by simp)

theorem jobLevel_not_commit (c : Call) (h : jobLevel c = true) : isCommit c = false := by
  cases c <;> simp_all [jobLevel, isCommit]

theorem jobBody_opens (sys : Sys σ) (fuel : Nat) (inner : List Nat) (jobsPath name : String)
    (m : materializeInfo) (shard modulos : Nat) (s t : St σ)
    (h : jobBody sys fuel inner jobsPath name m shard modulos s = some t) :
    GrowsBy jobLevel (sys.call (.Open (pathJoin [jobsPath, name])) s).2 t := by
  unfold jobBody at h
  simp only [] at h
  split at h
  · simp only [Option.some.injEq] at h
    subst h
    exact emit_grows _ _ _ (by rfl)
  · have h1 := call_grows jobLevel sys (.Decode (pathJoin [jobsPath, name]))
      (sys.call (.Open (pathJoin [jobsPath, name])) s).2 (by rfl)
    split at h
    · simp only [Option.some.injEq] at h
      subst h
      exact h1.trans (emit_grows _ _ _ (by rfl))
    · split at h
      · exact h1.trans (Map_grows _ _ _ _ _ _ _ _ _ _ h)
      · split at h
        · exact h1.trans (Reduce_grows _ _ _ _ _ _ _ _ h)
        · simp only [Option.some.injEq] at h
          subst h
          exact h1.trans (emit_grows _ _ _ (by rfl))

/-- The calls of lines 377-390 are checks and creations of the store, no commit. -/
theorem matSetup_trace (sys : Sys σ) (branch commit outRepo : String) (s : St σ) :
    ∃ l, (matSetup sys branch commit outRepo s).2.trace = s.trace ++ l ∧
      ∀ c ∈ l, mainLevel c = true ∧ isCommit c = false := by
  unfold matSetup
  simp only []
  split
  · exact ⟨[.FileExists (pathJoin [outRepo, branch])], rfl, by simp [mainLevel, isCommit]⟩
  · by_cases hf : (sys.call (.FileExists (pathJoin [outRepo, branch])) s).1.flag = true
    · simp only [hf, Bool.not_true, Bool.false_eq_true, if_false]
      exact ⟨[.FileExists (pathJoin [outRepo, branch]),
        .MkdirAll (pathJoin [outRepo, branch, ".progress", commit])],
        by simp [Sys.call], by simp [mainLevel, isCommit]⟩
    · simp only [hf, Bool.not_false, if_true]
      split
      · exact ⟨[.FileExists (pathJoin [outRepo, branch]), .Branch outRepo "" branch],
          by simp [Sys.call], by simp [mainLevel, isCommit]⟩
      · exact ⟨[.FileExists (pathJoin [outRepo, branch]), .Branch outRepo "" branch,
          .MkdirAll (pathJoin [outRepo, branch, ".progress", commit])],
          by simp [Sys.call], by simp [mainLevel, isCommit]⟩

/-- The invariant survives a step of a task: the task at `k` moves to `pc`, its weight in
the wait group does not grow, the counter follows, and the calls added are no commits. -/
theorem MatInv.task_step {jobsPath : String} {cfg : MatCfg σ} (inv : MatInv jobsPath cfg)
    (k : Nat) (t : Task) (hk : cfg.tasks[k]? = some t) (pc : TaskPc) (st : St σ) (wg : Nat)
    (evs : List Call) (htr : st.trace = cfg.st.trace ++ evs)
    (hev : ∀ c ∈ evs, isCommit c = false)
    (hwg : wg + taskWeight t = cfg.wg + taskWeight { t with pc := pc })
    (hle : taskWeight { t with pc := pc } ≤ taskWeight t)
    (hstart : pc ≠ .body →
      Call.Open (pathJoin [jobsPath, t.name]) ∈ st.trace ∧ Call.BodyReturned t.name ∈ st.trace)
    (hfin : pc ≠ .body → pc ≠ .done → Call.WgDone t.name ∈ st.trace) :
    MatInv jobsPath
      { cfg with st := st, wg := wg, tasks := cfg.tasks.set k { t with pc := pc } } := by
  have hset := pending_set cfg.tasks k t { t with pc := pc } hk
  have hmem := mem_of_getElem? _ _ _ hk
  have hsub : ∀ c, c ∈ cfg.st.trace → c ∈ st.trace := by
    intro c hc; rw [htr]; exact List.mem_append_left _ hc
  have hnames := map_name_set cfg.tasks k t pc hk
  have hpend : pending cfg.tasks = 0 →
      pending (cfg.tasks.set k { t with pc := pc }) = 0 := by
    intro h0; omega
  refine ⟨?_, ?_, ?_, ?_, ?_, ?_⟩
  · have := inv.wg_eq
    simp only
    omega
  · intro u hu hne
    rcases List.mem_or_eq_of_mem_set hu with h | h
    · exact ⟨hsub _ (inv.started u h hne).1, hsub _ (inv.started u h hne).2⟩
    · subst h
      exact hstart hne
  · intro u hu hne hnd
    rcases List.mem_or_eq_of_mem_set hu with h | h
    · exact hsub _ (inv.finished u h hne hnd)
    · subst h
      exact hfin hne hnd
  · intro hnil
    have hlen : (cfg.tasks.set k { t with pc := pc }).length = 0 := by
      simp only at hnil
      rw [hnil]; rfl
    rw [List.length_set] at hlen
    have : cfg.tasks = [] := List.length_eq_zero.mp hlen
    rw [this] at hmem
    simp at hmem
  · have hp := inv.phase
    unfold phaseOk at hp ⊢
    simp only
    split at hp
    · rw [hp.1] at hmem; simp at hmem
    · refine ⟨by rw [hnames]; exact hp.1, ?_⟩
      intro c hc
      rw [htr] at hc
      rcases List.mem_append.mp hc with h | h
      · exact hp.2 c h
      · exact hev c h
    · refine ⟨by rw [hnames]; exact hp.1, ?_⟩
      intro c hc
      rw [htr] at hc
      rcases List.mem_append.mp hc with h | h
      · exact hp.2 c h
      · exact hev c h
    · refine ⟨by rw [hnames]; exact hp.1, ?_, hpend hp.2.2.1, ?_⟩
      · intro c hc
        rw [htr] at hc
        rcases List.mem_append.mp hc with h | h
        · exact hp.2.1 c h
        · exact hev c h
      · intro _
        apply hsub
        apply hp.2.2.2
        intro e
        rw [e] at hmem
        simp at hmem
    · exact ⟨by rw [hnames]; exact hp.1, hpend hp.2⟩
  · simp only
    rw [htr]
    exact inv.ordered.append hev

/-- A step of a job task keeps the invariant. -/
theorem matTask_inv (sys : Sys σ) (fuel : Nat) (inner : Nat → List Nat)
    (in_repo branch commit outRepo jobDir : String) (shard modulos : Nat) (cfg : MatCfg σ)
    (k : Nat) (inv : MatInv (pathJoin [in_repo, commit, jobDir]) cfg) :
    MatInv (pathJoin [in_repo, commit, jobDir])
      (matTask sys fuel inner in_repo branch commit outRepo jobDir shard modulos cfg k) := by
  unfold matTask
  split
  · exact inv
  · rename_i t hk
    have hmem := mem_of_getElem? _ _ _ hk
    split
    · rename_i hpc
      split
      · exact inv
      · rename_i s hbody
        obtain ⟨l0, e0, p0⟩ := jobBody_opens _ _ _ _ _ _ _ _ _ _ hbody
        refine inv.task_step k t hk .done (emit (.BodyReturned t.name) s) cfg.wg
          (.Open (pathJoin [pathJoin [in_repo, commit, jobDir], t.name]) :: l0 ++
            [.BodyReturned t.name]) ?_ ?_ ?_ ?_ ?_ ?_
        · simp [emit, e0, Sys.call]
        · intro c hc
          simp only [List.cons_append, List.mem_cons, List.mem_append, List.mem_singleton,
            List.not_mem_nil, or_false] at hc
          rcases hc with h | h | h
          · subst h; rfl
          · exact jobLevel_not_commit c (p0 c h)
          · subst h; rfl
        · simp [taskWeight, hpc]
        · simp [taskWeight, hpc]
        · intro _
          simp [emit, e0, Sys.call]
        · intro _ h; exact absurd rfl h
    · rename_i hpc
      refine inv.task_step k t hk .marker (emit (.WgDone t.name) cfg.st) (cfg.wg - 1)
        [.WgDone t.name] rfl (by simp [isCommit]) ?_ (by simp [taskWeight, hpc]) ?_ ?_
      · have h1 := inv.wg_eq
        have h2 : 1 ≤ pending cfg.tasks := by
          have := pending_set cfg.tasks k t { t with pc := .marker } hk
          simp [taskWeight, hpc] at this
          omega
        simp [taskWeight, hpc]
        omega
      · intro _
        have := inv.started t hmem (by rw [hpc]; simp)
        exact ⟨by simp [emit, this.1], by simp [emit, this.2]⟩
      · intro _ _
        simp [emit]
    · rename_i hpc
      have hst := inv.started t hmem (by rw [hpc]; simp)
      have hfi := inv.finished t hmem (by rw [hpc]; simp) (by rw [hpc]; simp)
      unfold createMarker
      simp only []
      split
      · rename_i e he
        refine inv.task_step k t hk .returned _ cfg.wg
          [.Create (pathJoin [outRepo, branch, ".progress", commit, t.name]), .Log e]
          (by simp [emit, Sys.call]) (by simp [isCommit]) (by simp [taskWeight, hpc])
          (by simp [taskWeight, hpc]) ?_ ?_
        · intro _
          exact ⟨by simp [emit, Sys.call, hst.1], by simp [emit, Sys.call, hst.2]⟩
        · intro _ _
          simp [emit, Sys.call, hfi]
      · refine inv.task_step k t hk .returned _ cfg.wg
          [.Create (pathJoin [outRepo, branch, ".progress", commit, t.name])]
          (by simp [Sys.call]) (by simp [isCommit]) (by simp [taskWeight, hpc])
          (by simp [taskWeight, hpc]) ?_ ?_
        · intro _
          exact ⟨by simp [Sys.call, hst.1], by simp [Sys.call, hst.2]⟩
        · intro _ _
          simp [Sys.call, hfi]
    · exact inv

/-- A run without tasks whose calls were all made by the main thread, none of them a
commit, satisfies the invariant when the main thread is where it may be. -/
theorem MatInv.fresh {jobsPath : String} (cfg : MatCfg σ) (ht : cfg.tasks = [])
    (hw : cfg.wg = 0) (htr : ∀ c ∈ cfg.st.trace, mainLevel c = true ∧ isCommit c = false)
    (hp : phaseOk cfg) : MatInv jobsPath cfg := by
  refine ⟨by rw [hw, ht]; rfl, ?_, ?_, fun _ c hc => (htr c hc).1, hp,
    CommitAfterJobs.of_none (fun c hc => (htr c hc).2)⟩
  · intro t hmem; rw [ht] at hmem; simp at hmem
  · intro t hmem; rw [ht] at hmem; simp at hmem

/-- A step of `Materialize` itself keeps the invariant. -/
theorem matMain_inv (sys : Sys σ) (in_repo branch commit outRepo jobDir : String)
    (cfg : MatCfg σ) (inv : MatInv (pathJoin [in_repo, commit, jobDir]) cfg) :
    MatInv (pathJoin [in_repo, commit, jobDir])
      (matMain sys in_repo branch commit outRepo jobDir cfg) := by
  have hp := inv.phase
  unfold phaseOk at hp
  unfold matMain
  split
  · rename_i hpc
    rw [hpc] at hp
    simp only at hp
    obtain ⟨ht, htr, hj, hw⟩ := hp
    obtain ⟨l, el, pl⟩ := matSetup_trace sys branch commit outRepo cfg.st
    rw [htr, List.nil_append] at el
    simp only []
    split
    · refine MatInv.fresh _ (by exact ht) (by exact hw) ?_ ?_
      · intro c hc; exact pl c (by simpa [el] using hc)
      · simp [phaseOk, ht, hj, pending]
    · split
      · refine MatInv.fresh _ (by exact ht) (by exact hw) ?_ ?_
        · intro c hc
          simp only [Sys.call, el, List.mem_append, List.mem_singleton] at hc
          rcases hc with h | h
          · exact pl c h
          · subst h; simp [mainLevel, isCommit]
        · simp only [phaseOk, ht, hj, pending, Sys.call, el]
          refine ⟨rfl, ?_, rfl, fun h => absurd rfl h⟩
          intro c hc
          simp only [List.mem_append, List.mem_singleton] at hc
          rcases hc with h | h
          · exact (pl c h).2
          · subst h; rfl
      · split
        · refine MatInv.fresh _ (by exact ht) (by exact hw) ?_ ?_
          · intro c hc
            simp only [Sys.call, el, List.mem_append, List.mem_singleton] at hc
            rcases hc with h | h
            · exact pl c h
            · subst h; simp [mainLevel, isCommit]
          · simp only [phaseOk, ht, hj, pending, Sys.call, el]
            refine ⟨rfl, ?_, rfl, fun h => absurd rfl h⟩
            intro c hc
            simp only [List.mem_append, List.mem_singleton] at hc
            rcases hc with h | h
            · exact (pl c h).2
            · subst h; rfl
        · have hq : ∀ c ∈ l ++ [Call.FileExists (pathJoin [in_repo, commit, jobDir])] ++
              [Call.ReadDir (pathJoin [in_repo, commit, jobDir])],
              mainLevel c = true ∧ isCommit c = false := by
            intro c hc
            simp only [List.mem_append, List.mem_singleton] at hc
            rcases hc with (h | h) | h
            · exact pl c h
            · subst h; simp [mainLevel, isCommit]
            · subst h; simp [mainLevel, isCommit]
          split
          · refine MatInv.fresh _ (by exact ht) (by exact hw) ?_ ?_
            · intro c hc; exact hq c (by simpa [Sys.call, el] using hc)
            · simp only [phaseOk, ht, hj, pending, Sys.call, el]
              exact ⟨rfl, fun c hc => (hq c (by simpa using hc)).2, rfl, fun h => absurd rfl h⟩
          · refine MatInv.fresh _ (by exact ht) (by exact hw) ?_ ?_
            · intro c hc; exact hq c (by simpa [Sys.call, el] using hc)
            · simp only [phaseOk, ht, Sys.call, el]
              exact ⟨by simp, fun c hc => (hq c (by simpa using hc)).2⟩
  · rename_i hpc
    rw [hpc] at hp
    simp only at hp
    refine ⟨inv.wg_eq, inv.started, inv.finished, inv.alone, ?_, inv.ordered⟩
    simp only [phaseOk]
    exact ⟨by simpa using hp.1, hp.2⟩
  · rename_i name rest hpc
    rw [hpc] at hp
    simp only at hp
    refine ⟨?_, ?_, ?_, ?_, ?_, ?_⟩
    · simp only [pending_append, taskWeight, true_or, if_true]
      rw [inv.wg_eq]
    · intro t hmem hne
      simp only [List.mem_append, List.mem_singleton] at hmem
      rcases hmem with h | h
      · have := inv.started t h hne
        exact ⟨by simp [emit, this.1], by simp [emit, this.2]⟩
      · subst h; exact absurd rfl hne
    · intro t hmem hne hnd
      simp only [List.mem_append, List.mem_singleton] at hmem
      rcases hmem with h | h
      · simp [emit, inv.finished t h hne hnd]
      · subst h; exact absurd rfl hne
    · intro h; simp at h
    · simp only [phaseOk, emit]
      refine ⟨by simp [hp.1], ?_⟩
      intro c hc
      simp only [List.mem_append, List.mem_singleton] at hc
      rcases hc with h | h
      · exact hp.2 c h
      · subst h; rfl
    · simp only [emit]
      exact inv.ordered.append (by simp [isCommit])
  · rename_i hpc
    rw [hpc] at hp
    simp only at hp
    split
    · rename_i hwg
      have hpend : pending cfg.tasks = 0 := by rw [← inv.wg_eq]; exact hwg
      refine ⟨inv.wg_eq, ?_, ?_, ?_, ?_, ?_⟩
      · intro t hmem hne
        have := inv.started t hmem hne
        exact ⟨by simp [emit, this.1], by simp [emit, this.2]⟩
      · intro t hmem hne hnd
        simp [emit, inv.finished t hmem hne hnd]
      · intro h c hc
        simp only [emit, List.mem_append, List.mem_singleton] at hc
        rcases hc with h1 | h1
        · exact inv.alone h c h1
        · subst h1; rfl
      · simp only [phaseOk, emit]
        refine ⟨hp.1, ?_, hpend, fun _ => by simp⟩
        intro c hc
        simp only [List.mem_append, List.mem_singleton] at hc
        rcases hc with h | h
        · exact hp.2 c h
        · subst h; rfl
      · simp only [emit]
        exact inv.ordered.append (by simp [isCommit])
    · exact inv
  · rename_i ret hpc
    rw [hpc] at hp
    simp only at hp
    obtain ⟨hj, hnc, hpend, hwait⟩ := hp
    have key : ∀ (st : St σ) (rest : List Call),
        st.trace = cfg.st.trace ++ Call.Commit outRepo commit branch :: rest →
        (∀ c ∈ rest, mainLevel c = true ∧ isCommit c = false) →
        MatInv (pathJoin [in_repo, commit, jobDir])
          { cfg with st := st, pc := .returned ret } := by
      intro st rest htr hrest
      have hsub : ∀ c, c ∈ cfg.st.trace → c ∈ st.trace := by
        intro c hc; rw [htr]; exact List.mem_append_left _ hc
      refine ⟨inv.wg_eq, ?_, ?_, ?_, ?_, ?_⟩
      · intro t hmem hne
        exact ⟨hsub _ (inv.started t hmem hne).1, hsub _ (inv.started t hmem hne).2⟩
      · intro t hmem hne hnd
        exact hsub _ (inv.finished t hmem hne hnd)
      · intro h c hc
        simp only [htr, List.mem_append, List.mem_cons] at hc
        rcases hc with h1 | h1 | h1
        · exact inv.alone h c h1
        · subst h1; rfl
        · exact (hrest c h1).1
      · simp only [phaseOk]
        exact ⟨hj, hpend⟩
      · intro l1 l2 c e hc name hname
        simp only [htr] at e
        have hl1 : l1 = cfg.st.trace := by
          rcases List.append_eq_append_iff.mp e with ⟨a, e1, e2⟩ | ⟨a, e1, e2⟩
          · cases a with
            | nil => simpa using e1
            | cons x a =>
              simp only [List.cons_append, List.cons.injEq] at e2
              have : c ∈ rest := by rw [e2.2]; simp
              have := (hrest c this).2
              rw [hc] at this
              exact absurd this (by simp)
          · cases a with
            | nil => simpa using e1.symm
            | cons x a =>
              simp only [List.cons_append, List.cons.injEq] at e2
              have : c ∈ cfg.st.trace := by rw [e1, e2.1]; simp
              have := hnc c this
              rw [hc] at this
              exact absurd this (by simp)
        subst hl1
        rw [hj] at hname
        obtain ⟨t, htm, hte⟩ := List.mem_map.mp hname
        obtain ⟨hb, hd⟩ := pending_zero _ hpend t htm
        have h1 := inv.started t htm hb
        have h2 := inv.finished t htm hb hd
        rw [hte] at h1 h2
        refine ⟨h1.1, h1.2, h2, hwait ?_⟩
        intro h; rw [h] at htm; simp at htm
    simp only []
    split
    · rename_i e he
      exact key _ [.Log ("DEFERRED: btrfs.Commit error in Materialize: " ++ e)]
        (by simp [emit, Sys.call]) (by simp [mainLevel, isCommit])
    · exact key _ [] (by simp [Sys.call]) (by simp)
  · exact inv

/-- Every step keeps the invariant. -/
theorem matStep_inv (sys : Sys σ) (fuel : Nat) (inner : Nat → List Nat)
    (in_repo branch commit outRepo jobDir : String) (shard modulos : Nat) (cfg : MatCfg σ)
    (tid : Nat) (inv : MatInv (pathJoin [in_repo, commit, jobDir]) cfg) :
    MatInv (pathJoin [in_repo, commit, jobDir])
      (matStep sys fuel inner in_repo branch commit outRepo jobDir shard modulos cfg tid) := by
  cases tid with
  | zero => exact matMain_inv _ _ _ _ _ _ _ inv
  | succ k => exact matTask_inv _ _ _ _ _ _ _ _ _ _ _ _ inv

theorem foldl_matStep_inv (sys : Sys σ) (fuel : Nat) (inner : Nat → List Nat)
    (in_repo branch commit outRepo jobDir : String) (shard modulos : Nat) (sched : List Nat)
    (cfg : MatCfg σ) (inv : MatInv (pathJoin [in_repo, commit, jobDir]) cfg) :
    MatInv (pathJoin [in_repo, commit, jobDir])
      (sched.foldl (matStep sys fuel inner in_repo branch commit outRepo jobDir shard modulos)
        cfg) := by
  induction sched generalizing cfg with
  | nil => exact inv
  | cons tid rest ih => exact ih _ (matStep_inv _ _ _ _ _ _ _ _ _ _ _ _ inv)

/-- Every run of `Materialize` satisfies the invariant. -/
theorem Materialize_inv (sys : Sys σ) (fuel : Nat) (inner : Nat → List Nat)
    (in_repo branch commit outRepo jobDir : String) (shard modulos : Nat) (sched : List Nat)
    (w : σ) :
    MatInv (pathJoin [in_repo, commit, jobDir])
      (Materialize sys fuel inner in_repo branch commit outRepo jobDir shard modulos sched
        w) := by
  apply foldl_matStep_inv
  exact MatInv.fresh _ rfl rfl (by simp [matInit]) (by simp [phaseOk, matInit])

/-! ## The invariant of `Map` -/

theorem sum_map_set {α : Type} (f : α → Nat) (l : List α) (k : Nat) (t u : α)
    (h : l[k]? = some t) : ((l.set k u).map f).sum + f t = (l.map f).sum + f u := by
  induction l generalizing k with
  | nil => simp at h
  | cons a rest ih =>
    cases k with
    | zero =>
      simp only [List.getElem?_cons_zero, Option.some.injEq] at h
      subst h
      simp only [List.set_cons_zero, List.map_cons, List.sum_cons]
      omega
    | succ k =>
      simp only [List.getElem?_cons_succ] at h
      have := ih k h
      simp only [List.set_cons_succ, List.map_cons, List.sum_cons] at this ⊢
      omega

theorem sum_map_zero {α : Type} (f : α → Nat) (l : List α) (h : (l.map f).sum = 0) (a : α)
    (ha : a ∈ l) : f a = 0 := by
  induction l with
  | nil => simp at ha
  | cons b rest ih =>
    simp only [List.map_cons, List.sum_cons] at h
    rcases List.mem_cons.mp ha with e | e
    · subst e; omega
    · exact ih (by omega) e

theorem sum_map_const {α : Type} (f : α → Nat) (l : List α) (n : Nat)
    (h : ∀ a ∈ l, f a = n) : (l.map f).sum = l.length * n := by
  induction l with
  | nil => simp
  | cons b rest ih =>
    simp only [List.map_cons, List.sum_cons, List.length_cons]
    rw [ih (fun a ha => h a (List.mem_cons_of_mem _ ha)), h b (List.mem_cons_self _ _)]
    ring

theorem quiet_calm (c : Call) (h : quietLevel c = true) : calm c = true := by
  cases c <;> simp_all [quietLevel, calm, batchTag, isDone]

theorem calm_facts (c : Call) (h : calm c = true) :
    isDispatch c = false ∧ isDone c = false ∧ isStop c = false ∧ batchTag c = none := by
  cases c <;> simp_all [calm, batchTag, isDone, isDispatch, isStop]

theorem calm_counts (evs : List Call) (h : ∀ c ∈ evs, calm c = true) :
    evs.countP isDispatch = 0 ∧ evs.countP isDone = 0 ∧ (∀ c ∈ evs, isStop c = false) ∧
      batchTags evs = [] := by
  refine ⟨?_, ?_, ?_, ?_⟩
  · exact List.countP_eq_zero.mpr (fun c hc => by simp [(calm_facts c (h c hc)).1])
  · exact List.countP_eq_zero.mpr (fun c hc => by simp [(calm_facts c (h c hc)).2.1])
  · exact fun c hc => (calm_facts c (h c hc)).2.2.1
  · unfold batchTags
    exact List.filterMap_eq_nil_iff.mpr (fun c hc => (calm_facts c (h c hc)).2.2.2)

/-- A marked call of a trace extended by unmarked calls is a call of the trace. -/
theorem mark_split (p : Call → Bool) {tr evs l1 l2 : List Call} {c : Call}
    (h : tr ++ evs = l1 ++ c :: l2) (hc : p c = true)
    (hev : ∀ x ∈ evs, p x = false) : ∃ l3, tr = l1 ++ c :: l3 := by
  have hno : c ∉ evs := by
    intro hmem
    have := hev c hmem
    rw [hc] at this
    exact absurd this (by simp)
  rcases List.append_eq_append_iff.mp h with ⟨a, _, e2⟩ | ⟨a, e1, e2⟩
  · exact absurd (by rw [e2]; simp) hno
  · cases a with
    | nil =>
      simp only [List.nil_append] at e2
      exact absurd (by rw [← e2]; simp) hno
    | cons x a =>
      simp only [List.cons_append, List.cons.injEq] at e2
      exact ⟨a, by rw [e1, e2.1]⟩

theorem StopsBalanced.extend {l evs : List Call} (h : StopsBalanced l)
    (hev : ∀ x ∈ evs, isStop x = false) : StopsBalanced (l ++ evs) := by
  intro l1 l2 c e hc
  obtain ⟨l3, e3⟩ := mark_split isStop e hc hev
  exact h l1 l3 c e3 hc

theorem StopsBalanced.stop {l rest : List Call} {c : Call} (h : StopsBalanced l)
    (hbal : l.countP isDispatch = l.countP isDone)
    (hrest : ∀ x ∈ rest, isStop x = false) : StopsBalanced (l ++ c :: rest) := by
  intro l1 l2 d e hd
  rcases List.append_eq_append_iff.mp e with ⟨a, e1, e2⟩ | ⟨a, e1, e2⟩
  · cases a with
    | nil =>
      simp only [List.append_nil] at e1
      rw [e1]; exact hbal
    | cons x a =>
      simp only [List.cons_append, List.cons.injEq] at e2
      have : d ∈ rest := by rw [e2.2]; simp
      have := hrest d this
      rw [hd] at this
      exact absurd this (by simp)
  · cases a with
    | nil =>
      simp only [List.append_nil] at e1
      rw [← e1]; exact hbal
    | cons x a =>
      simp only [List.cons_append, List.cons.injEq] at e2
      exact h l1 a d (by rw [e1, e2.1]) hd

/-- The first step of `Map` (lines 199-225) starts, stops and feeds no container. -/
theorem mapMain_start (sys : Sys σ) (fuel upm : Nat) (job : Job) (jobName : String)
    (m : materializeInfo) (shard modulos : Nat) (cfg : MapCfg σ) (hpc : cfg.pc = .start) :
    ∃ evs, (mapMain sys fuel upm job jobName m shard modulos cfg).st.trace =
        cfg.st.trace ++ evs ∧ (∀ c ∈ evs, calm c = true) ∧
      (mapMain sys fuel upm job jobName m shard modulos cfg).workers = cfg.workers ∧
      (mapMain sys fuel upm job jobName m shard modulos cfg).cur = cfg.cur ∧
      (mapMain sys fuel upm job jobName m shard modulos cfg).sem = cfg.sem ∧
      ((mapMain sys fuel upm job jobName m shard modulos cfg).pc = .start ∨
        (mapMain sys fuel upm job jobName m shard modulos cfg).pc = .top ∨
        (mapMain sys fuel upm job jobName m shard modulos cfg).pc = .returned) := by
  unfold mapMain
  rw [hpc]
  simp only [PrepJob, MapCfg.fail]
  have h0 := call_grows calm sys (.MkdirAll (pathJoin [m.Out, m.Branch, pathBase jobName]))
    cfg.st (by rfl)
  split
  · obtain ⟨l, e, p⟩ := h0.trans (emit_grows calm (.Log _) _ (by rfl))
    exact ⟨l, e, p, rfl, rfl, rfl, Or.inr (Or.inr rfl)⟩
  · split
    · obtain ⟨l, e, p⟩ := h0.trans (emit_grows calm (.Log _) _ (by rfl))
      exact ⟨l, e, p, rfl, rfl, rfl, Or.inr (Or.inr rfl)⟩
    · split
      · exact ⟨[], by simp, by simp, rfl, rfl, rfl, Or.inl hpc⟩
      · rename_i pumped hp
        have h1 := h0.trans ((pumpFiles_grows _ _ _ _ _ _ _ _ hp).mono quiet_calm)
        split
        · obtain ⟨l, e, p⟩ := (h1.trans (call_grows calm sys (.PullImage job.Image) _ (by rfl))).trans
            (emit_grows calm (.Log _) _ (by rfl))
          exact ⟨l, e, p, rfl, rfl, rfl, Or.inr (Or.inr rfl)⟩
        · obtain ⟨l, e, p⟩ := h1.trans (call_grows calm sys (.PullImage job.Image) _ (by rfl))
          exact ⟨l, e, p, rfl, rfl, rfl, Or.inr (Or.inl rfl)⟩

theorem all_finished_sums (workers : List Worker) (cur : Nat)
    (h : ∀ w ∈ workers, w.pc = 2) :
    (workers.map (workHolds cur)).sum = 0 ∧ (workers.map workDone).sum = workers.length := by
  constructor
  · rw [sum_map_const (workHolds cur) workers 0 (fun w hw => by simp [workHolds, h w hw])]
    simp
  · rw [sum_map_const workDone workers 1 (fun w hw => by simp [workDone, h w hw])]
    simp

/-- A step of `Map` itself keeps the invariant. -/
theorem mapMain_inv (sys : Sys σ) (fuel upm : Nat) (job : Job) (jobName : String)
    (m : materializeInfo) (shard modulos : Nat) (base l : List Call) (cfg : MapCfg σ)
    (htr : cfg.st.trace = base ++ l) (inv : MapInv (parallelOf job) l cfg) :
    ∃ l1, (mapMain sys fuel upm job jobName m shard modulos cfg).st.trace = base ++ l1 ∧
      MapInv (parallelOf job) l1 (mapMain sys fuel upm job jobName m shard modulos cfg) := by
  have hsem := inv.sem
  unfold semOk at hsem
  rcases hpc : cfg.pc with _ | _ | ⟨id, host, uses⟩ | ⟨id, uses, i⟩ | _
  · -- the first statements
    rw [hpc] at hsem
    simp only at hsem
    obtain ⟨evs, e, p, hw, hc, hs, hpc1⟩ := mapMain_start sys fuel upm job jobName m shard
      modulos cfg hpc
    obtain ⟨c1, c2, c3, _⟩ := calm_counts evs p
    refine ⟨l ++ evs, by rw [e, htr, List.append_assoc], ?_, ?_, ?_, ?_, ?_, ?_⟩
    · rw [List.countP_append, c1, hw, inv.dispatched]; rfl
    · rw [List.countP_append, c2, hw, inv.finished]; rfl
    · rw [hw, hc]; exact inv.earlier
    · rw [hs]; exact inv.capacity
    · unfold semOk
      rcases hpc1 with h | h | h <;> rw [h] <;> simp only <;> rw [hw] <;> exact hsem
    · exact inv.balanced.extend c3
  · -- a fresh container
    rw [hpc] at hsem
    simp only at hsem
    obtain ⟨z1, z2⟩ := all_finished_sums cfg.workers (cfg.cur + 1) hsem
    have key : ∀ (cfg1 : MapCfg σ) (evs : List Call), cfg1.st.trace = cfg.st.trace ++ evs →
        (∀ c ∈ evs, isDispatch c = false ∧ isDone c = false ∧ isStop c = false) →
        cfg1.workers = cfg.workers → semOk (parallelOf job) cfg1 → cfg1.sem ≤ parallelOf job →
        (∀ w ∈ cfg1.workers, w.chan ≠ cfg1.cur → w.pc = 2) →
        ∃ l1, cfg1.st.trace = base ++ l1 ∧ MapInv (parallelOf job) l1 cfg1 := by
      intro cfg1 evs e p hw hs hcap hear
      have c1 : evs.countP isDispatch = 0 :=
        List.countP_eq_zero.mpr (fun c hc => by simp [(p c hc).1])
      have c2 : evs.countP isDone = 0 :=
        List.countP_eq_zero.mpr (fun c hc => by simp [(p c hc).2.1])
      refine ⟨l ++ evs, by rw [e, htr, List.append_assoc], ?_, ?_, hear, hcap, hs, ?_⟩
      · rw [List.countP_append, c1, hw, inv.dispatched]; rfl
      · rw [List.countP_append, c2, hw, inv.finished]; rfl
      · exact inv.balanced.extend (fun c hc => (p c hc).2.2)
    unfold mapMain
    rw [hpc]
    simp only [MapCfg.fail]
    split
    · rename_i e he
      refine key _ [.StartContainer job.Image job.Cmd, .Log e] (by simp [emit, Sys.call])
        (by simp [isDispatch, isDone, isStop]) rfl ?_ inv.capacity inv.earlier
      simp only [semOk]; exact hsem
    · split
      · rename_i e he
        refine key _ [.StartContainer job.Image job.Cmd,
          .IpAddr (sys.call (.StartContainer job.Image job.Cmd) cfg.st).1.text, .Log e]
          (by simp [emit, Sys.call]) (by simp [isDispatch, isDone, isStop]) rfl ?_
          inv.capacity inv.earlier
        simp only [semOk]; exact hsem
      · refine key _ [.StartContainer job.Image job.Cmd,
          .IpAddr (sys.call (.StartContainer job.Image job.Cmd) cfg.st).1.text]
          (by simp [Sys.call]) (by simp [isDispatch, isDone, isStop]) rfl ?_
          (Nat.zero_le _) (fun w hw _ => hsem w hw)
        simp only [semOk]; exact z1.symm
  · -- the inner loop
    rw [hpc] at hsem
    simp only at hsem
    unfold mapMain
    rw [hpc]
    simp only []
    split
    · refine ⟨l, htr, inv.dispatched, inv.finished, inv.earlier, inv.capacity, ?_, inv.balanced⟩
      simp only [semOk]
      exact ⟨by omega, Nat.zero_le _⟩
    · rename_i name rest hq
      split
      · rename_i hlt
        refine ⟨l ++ [.Dispatch name id], by simp [emit, htr], ?_, ?_, ?_, ?_, ?_, ?_⟩
        · simp [List.countP_append, isDispatch, inv.dispatched]
        · simp [List.countP_append, isDone, inv.finished, workDone]
        · intro w hw hne
          simp only [List.mem_append, List.mem_singleton] at hw
          rcases hw with h | h
          · exact inv.earlier w h hne
          · subst h; exact absurd rfl hne
        · simp only; omega
        · have hsum : ((cfg.workers ++ [(⟨name, id, host, cfg.cur, 0⟩ : Worker)]).map
              (workHolds cfg.cur)).sum = (cfg.workers.map (workHolds cfg.cur)).sum + 1 := by
            simp [workHolds]
          by_cases hu : uses + 1 = upm
          · simp only [semOk, hu, if_true]
            exact ⟨by rw [hsum, hsem], Nat.zero_le _⟩
          · simp only [semOk, hu, if_false]
            rw [hsum, hsem]
        · exact inv.balanced.extend (by simp [isStop])
      · exact ⟨l, htr, inv⟩
  · -- the drain and the stop
    rw [hpc] at hsem
    simp only at hsem
    unfold mapMain
    rw [hpc]
    simp only [MapCfg.fail]
    split
    · split
      · refine ⟨l, htr, inv.dispatched, inv.finished, inv.earlier, ?_, ?_, inv.balanced⟩
        · simp only; omega
        · simp only [semOk]
          exact ⟨by omega, by omega⟩
      · exact ⟨l, htr, inv⟩
    · rename_i hi
      have hzero : (cfg.workers.map (workHolds cfg.cur)).sum = 0 := by
        have := inv.capacity
        omega
      have hall : ∀ w ∈ cfg.workers, w.pc = 2 := by
        intro w hw
        by_cases hch : w.chan = cfg.cur
        · have := sum_map_zero (workHolds cfg.cur) cfg.workers hzero w hw
          unfold workHolds at this
          split at this
          · omega
          · rename_i hn
            by_contra hne
            exact hn ⟨hch, hne⟩
        · exact inv.earlier w hw hch
      obtain ⟨_, z2⟩ := all_finished_sums cfg.workers cfg.cur hall
      have hbal : l.countP isDispatch = l.countP isDone := by
        rw [inv.dispatched, inv.finished, z2]
      have key : ∀ (cfg1 : MapCfg σ) (rest : List Call),
          cfg1.st.trace = cfg.st.trace ++ Call.StopContainer id :: rest →
          (∀ c ∈ rest, isDispatch c = false ∧ isDone c = false ∧ isStop c = false) →
          cfg1.workers = cfg.workers → cfg1.sem = cfg.sem →
          (cfg1.pc = .returned ∨ cfg1.pc = .top) →
          ∃ l1, cfg1.st.trace = base ++ l1 ∧ MapInv (parallelOf job) l1 cfg1 := by
        intro cfg1 rest e p hw hs hpc1
        have c1 : rest.countP isDispatch = 0 :=
          List.countP_eq_zero.mpr (fun c hc => by simp [(p c hc).1])
        have c2 : rest.countP isDone = 0 :=
          List.countP_eq_zero.mpr (fun c hc => by simp [(p c hc).2.1])
        refine ⟨l ++ Call.StopContainer id :: rest, by rw [e, htr, List.append_assoc],
          ?_, ?_, ?_, ?_, ?_, ?_⟩
        · simp [List.countP_append, List.countP_cons, isDispatch, c1, hw, inv.dispatched]
        · simp [List.countP_append, List.countP_cons, isDone, c2, hw, inv.finished]
        · intro w hmem _
          rw [hw] at hmem
          exact hall w hmem
        · rw [hs]; exact inv.capacity
        · unfold semOk
          rcases hpc1 with h | h <;> rw [h] <;> simp only <;> rw [hw] <;> exact hall
        · exact inv.balanced.stop hbal (fun c hc => (p c hc).2.2)
      split
      · rename_i e he
        exact key _ [.Log e] (by simp [emit, Sys.call]) (by simp [isDispatch, isDone, isStop])
          rfl rfl (Or.inl rfl)
      · refine key _ [] (by simp [Sys.call]) (by simp) rfl rfl ?_
        by_cases hu : uses < upm
        · simp [hu]
        · simp [hu]
  · -- returned
    unfold mapMain
    rw [hpc]
    exact ⟨l, htr, inv⟩

/-- A worker adds the calls of `mapFile` and then the record of its return. -/
theorem workerRun_trace (sys : Sys σ) (job : Job) (jobName : String) (m : materializeInfo)
    (w : Worker) (s : St σ) :
    ∃ q, (workerRun sys job jobName m w s).trace =
        s.trace ++ (q ++ [.MapFileDone w.name w.id]) ∧ ∀ c ∈ q, calm c = true := by
  unfold workerRun
  simp only []
  have h := (mapFile_grows sys w.name jobName w.host job m s).mono quiet_calm
  split
  · rename_i e he
    obtain ⟨q, e1, p1⟩ := h.trans (emit_grows calm (.Log e) _ (by rfl))
    refine ⟨q, ?_, p1⟩
    rw [emit_trace, e1, List.append_assoc]
  · obtain ⟨q, e1, p1⟩ := h
    exact ⟨q, by simp [emit, e1], p1⟩

/-- A step of a worker keeps the invariant. -/
theorem mapWorker_inv (sys : Sys σ) (job : Job) (jobName : String) (m : materializeInfo)
    (base l : List Call) (cfg : MapCfg σ) (k : Nat)
    (htr : cfg.st.trace = base ++ l) (inv : MapInv (parallelOf job) l cfg) :
    ∃ l1, (mapWorker sys job jobName m cfg k).st.trace = base ++ l1 ∧
      MapInv (parallelOf job) l1 (mapWorker sys job jobName m cfg k) := by
  have hsem := inv.sem
  unfold semOk at hsem
  unfold mapWorker
  split
  · exact ⟨l, htr, inv⟩
  · rename_i w hk
    have hmem := mem_of_getElem? _ _ _ hk
    split
    · rename_i hpc
      obtain ⟨q, e, p⟩ := workerRun_trace sys job jobName m w cfg.st
      obtain ⟨c1, c2, c3, _⟩ := calm_counts q p
      have hd : ((cfg.workers.set k { w with pc := 1 }).map workDone).sum =
          (cfg.workers.map workDone).sum + 1 := by
        have := sum_map_set workDone cfg.workers k w { w with pc := 1 } hk
        have h0 : workDone w = 0 := by simp [workDone, hpc]
        have h1 : workDone { w with pc := 1 } = 1 := by simp [workDone]
        omega
      have hh : ((cfg.workers.set k { w with pc := 1 }).map (workHolds cfg.cur)).sum =
          (cfg.workers.map (workHolds cfg.cur)).sum := by
        have := sum_map_set (workHolds cfg.cur) cfg.workers k w { w with pc := 1 } hk
        have h0 : workHolds cfg.cur w = workHolds cfg.cur { w with pc := 1 } := by
          simp [workHolds, hpc]
        omega
      refine ⟨l ++ (q ++ [.MapFileDone w.name w.id]), by rw [e, htr, List.append_assoc],
        ?_, ?_, ?_, ?_, ?_, ?_⟩
      · simp [List.countP_append, c1, isDispatch, inv.dispatched]
      · rw [hd, ← inv.finished]
        simp [List.countP_append, c2, isDone]
      · intro u hu hne
        rcases List.mem_or_eq_of_mem_set hu with h | h
        · exact inv.earlier u h hne
        · subst h
          have := inv.earlier w hmem hne
          omega
      · exact inv.capacity
      · unfold semOk
        simp only
        split at hsem
        · rw [hh]; exact hsem
        · rw [hh]; exact hsem
        · have := hsem w hmem
          omega
      · exact inv.balanced.extend (by
          intro c hc
          simp only [List.mem_append, List.mem_singleton] at hc
          rcases hc with h | h
          · exact c3 c h
          · subst h; rfl)
    · split
      · rename_i hpc0 hpc
        split
        · rename_i hch
          split
          · rename_i hpos
            have hd : ((cfg.workers.set k { w with pc := 2 }).map workDone).sum =
                (cfg.workers.map workDone).sum := by
              have := sum_map_set workDone cfg.workers k w { w with pc := 2 } hk
              have h0 : workDone w = 1 := by simp [workDone, hpc]
              have h1 : workDone { w with pc := 2 } = 1 := by simp [workDone]
              omega
            have hh : ((cfg.workers.set k { w with pc := 2 }).map (workHolds cfg.cur)).sum + 1 =
                (cfg.workers.map (workHolds cfg.cur)).sum := by
              have := sum_map_set (workHolds cfg.cur) cfg.workers k w { w with pc := 2 } hk
              have h0 : workHolds cfg.cur w = 1 := by simp [workHolds, hpc, hch]
              have h1 : workHolds cfg.cur { w with pc := 2 } = 0 := by simp [workHolds]
              omega
            refine ⟨l, htr, ?_, ?_, ?_, ?_, ?_, inv.balanced⟩
            · simp [inv.dispatched]
            · rw [hd]; exact inv.finished
            · intro u hu hne
              rcases List.mem_or_eq_of_mem_set hu with h | h
              · exact inv.earlier u h hne
              · subst h; rfl
            · have := inv.capacity
              simp only; omega
            · unfold semOk
              simp only
              split at hsem
              · omega
              · exact ⟨by omega, hsem.2⟩
              · have := hsem w hmem
                omega
          · exact ⟨l, htr, inv⟩
        · rename_i hch
          have := inv.earlier w hmem hch
          omega
      · exact ⟨l, htr, inv⟩

/-- Every step of a run of `Map` keeps the invariant. -/
theorem mapStep_inv (sys : Sys σ) (fuel upm : Nat) (job : Job) (jobName : String)
    (m : materializeInfo) (shard modulos : Nat) (base l : List Call) (cfg : MapCfg σ)
    (tid : Nat) (htr : cfg.st.trace = base ++ l) (inv : MapInv (parallelOf job) l cfg) :
    ∃ l1, (mapStep sys fuel upm job jobName m shard modulos cfg tid).st.trace = base ++ l1 ∧
      MapInv (parallelOf job) l1 (mapStep sys fuel upm job jobName m shard modulos cfg tid) := by
  cases tid with
  | zero => exact mapMain_inv _ _ _ _ _ _ _ _ _ _ _ htr inv
  | succ k => exact mapWorker_inv _ _ _ _ _ _ _ _ htr inv

theorem foldl_mapStep_inv (sys : Sys σ) (fuel upm : Nat) (job : Job) (jobName : String)
    (m : materializeInfo) (shard modulos : Nat) (base : List Call) (sched : List Nat)
    (l : List Call) (cfg : MapCfg σ) (htr : cfg.st.trace = base ++ l)
    (inv : MapInv (parallelOf job) l cfg) :
    ∃ l1, (sched.foldl (mapStep sys fuel upm job jobName m shard modulos) cfg).st.trace =
        base ++ l1 ∧
      MapInv (parallelOf job) l1
        (sched.foldl (mapStep sys fuel upm job jobName m shard modulos) cfg) := by
  induction sched generalizing l cfg with
  | nil => exact ⟨l, htr, inv⟩
  | cons tid rest ih =>
    obtain ⟨l1, e1, inv1⟩ := mapStep_inv sys fuel upm job jobName m shard modulos base l cfg
      tid htr inv
    exact ih l1 _ e1 inv1

/-- Every run of `Map` satisfies the invariant. -/
theorem mapRun_inv (sys : Sys σ) (fuel upm : Nat) (job : Job) (jobName : String)
    (m : materializeInfo) (shard modulos : Nat) (sched : List Nat) (s : St σ) :
    ∃ l, (mapRun sys fuel upm job jobName m shard modulos sched s).st.trace = s.trace ++ l ∧
      MapInv (parallelOf job) l (mapRun sys fuel upm job jobName m shard modulos sched s) := by
  apply foldl_mapStep_inv _ _ _ _ _ _ _ _ _ _ [] (mapInit s) (by simp [mapInit])
  refine ⟨rfl, rfl, ?_, Nat.zero_le _, ?_, ?_⟩
  · intro w hw; simp [mapInit] at hw
  · simp only [semOk, mapInit]
    intro w hw; simp at hw
  · intro l1 l2 c e _
    simp at e

/-! ## The batches of `Map` -/

theorem batchTags_append (l1 l2 : List Call) :
    batchTags (l1 ++ l2) = batchTags l1 ++ batchTags l2 := by
  simp [batchTags, List.filterMap_append]

/-- A step of `Map` itself keeps the shape of the trace, when the job is a map job whose
directory could be made, `pumpFiles` has delivered `names`, and the container runtime
does not fail. -/
theorem mapMain_shape (sys : Sys σ) (fuel upm : Nat) (job : Job) (jobName : String)
    (m : materializeInfo) (shard modulos : Nat) (s p : St σ) (hupm : 0 < upm)
    (hprep : (PrepJob sys (pathBase jobName) m s).1 = none) (htyp : job.Typ = "map")
    (hpump : pumpFiles sys fuel job m shard modulos (PrepJob sys (pathBase jobName) m s).2 =
      some p)
    (hok : ∀ c w, containerOp c = true → (sys.exec c w).1.err = none)
    (l : List Call) (cfg : MapCfg σ) (htr : cfg.st.trace = s.trace ++ l)
    (inv : shapeOk upm (sentNames (p.trace.drop (PrepJob sys (pathBase jobName) m s).2.trace.length))
      s l cfg) :
    ∃ l1, (mapMain sys fuel upm job jobName m shard modulos cfg).st.trace = s.trace ++ l1 ∧
      shapeOk upm (sentNames (p.trace.drop (PrepJob sys (pathBase jobName) m s).2.trace.length))
        s l1 (mapMain sys fuel upm job jobName m shard modulos cfg) := by
  unfold shapeOk at inv
  rcases hpc : cfg.pc with _ | _ | ⟨id, host, uses⟩ | ⟨id, uses, i⟩ | _
  · rw [hpc] at inv
    simp only at inv
    obtain ⟨hst, hl, _⟩ := inv
    obtain ⟨evs, e, pc, _, _, _, _⟩ := mapMain_start sys fuel upm job jobName m shard modulos
      cfg hpc
    obtain ⟨_, _, _, c4⟩ := calm_counts evs pc
    have hpull := hok (.PullImage job.Image) p.world rfl
    refine ⟨evs, by rw [e, hst], ?_⟩
    unfold mapMain
    rw [hpc]
    simp only [hst, hprep, htyp, hpump, ne_eq, not_true_eq_false, if_false, Sys.call, hpull]
    simp only [shapeOk, mapFuture, c4, List.nil_append]
  · rw [hpc] at inv
    simp only at inv
    have h1 := hok (.StartContainer job.Image job.Cmd) cfg.st.world rfl
    have h2 := hok (.IpAddr (sys.exec (.StartContainer job.Image job.Cmd) cfg.st.world).1.text)
      (sys.exec (.StartContainer job.Image job.Cmd) cfg.st.world).2 rfl
    refine ⟨l ++ [.StartContainer job.Image job.Cmd,
      .IpAddr (sys.exec (.StartContainer job.Image job.Cmd) cfg.st.world).1.text], ?_, ?_⟩
    · unfold mapMain
      rw [hpc]
      simp [Sys.call, h1, h2, htr]
    · unfold mapMain
      rw [hpc]
      simp only [Sys.call, h1, h2]
      simp only [shapeOk, mapFuture, hpc] at inv ⊢
      refine ⟨hupm, ?_⟩
      rw [← inv, batchTags_append]
      simp [batchTags, batchTag]
  · rw [hpc] at inv
    simp only at inv
    obtain ⟨hu, hsh⟩ := inv
    simp only [mapFuture, hpc] at hsh
    unfold mapMain
    rw [hpc]
    simp only []
    split
    · rename_i hq
      refine ⟨l, htr, ?_⟩
      simp only [shapeOk, mapFuture, hq, hu, if_true]
      rw [hq] at hsh
      exact ⟨by omega, fun _ => trivial, by simpa [loopFuture] using hsh⟩
    · rename_i name rest hq
      rw [hq] at hsh
      split
      · refine ⟨l ++ [.Dispatch name id], by simp [emit, htr], ?_⟩
        by_cases hup : uses + 1 = upm
        · simp only [shapeOk, mapFuture, hup, if_true]
          refine ⟨le_refl _, fun h => absurd h (by omega), ?_⟩
          rw [← hsh, batchTags_append]
          simp [batchTags, batchTag, loopFuture, hup]
        · simp only [shapeOk, mapFuture, hup, if_false]
          refine ⟨by omega, ?_⟩
          rw [← hsh, batchTags_append]
          simp [batchTags, batchTag, loopFuture, hup]
      · refine ⟨l, htr, ?_⟩
        simp only [shapeOk, hpc, mapFuture, hq]
        exact ⟨hu, hsh⟩
  · rw [hpc] at inv
    simp only at inv
    obtain ⟨hu, hq, hsh⟩ := inv
    simp only [mapFuture, hpc] at hsh
    unfold mapMain
    rw [hpc]
    simp only []
    split
    · split
      · refine ⟨l, htr, ?_⟩
        simp only [shapeOk, mapFuture]
        exact ⟨hu, hq, hsh⟩
      · refine ⟨l, htr, ?_⟩
        simp only [shapeOk, hpc, mapFuture]
        exact ⟨hu, hq, hsh⟩
    · have h1 := hok (.StopContainer id) cfg.st.world rfl
      refine ⟨l ++ [.StopContainer id], ?_, ?_⟩
      · simp [Sys.call, h1, htr]
      · simp only [Sys.call, h1]
        by_cases hup : uses < upm
        · simp only [shapeOk, mapFuture, hup, if_true, List.append_nil] at hsh ⊢
          rw [← hsh, batchTags_append]
          simp [batchTags, batchTag]
        · simp only [shapeOk, mapFuture, hup, if_false] at hsh ⊢
          rw [← hsh, batchTags_append]
          simp [batchTags, batchTag]
  · rw [hpc] at inv
    simp only at inv
    unfold mapMain
    rw [hpc]
    refine ⟨l, htr, ?_⟩
    simp only [shapeOk, hpc]
    exact inv

/-- A step of a worker keeps the shape of the trace. -/
theorem mapWorker_shape (sys : Sys σ) (upm : Nat) (job : Job) (jobName : String)
    (m : materializeInfo) (names : List String) (s : St σ) (l : List Call) (cfg : MapCfg σ)
    (k : Nat) (htr : cfg.st.trace = s.trace ++ l) (inv : shapeOk upm names s l cfg) :
    ∃ l1, (mapWorker sys job jobName m cfg k).st.trace = s.trace ++ l1 ∧
      shapeOk upm names s l1 (mapWorker sys job jobName m cfg k) := by
  by_cases hst : cfg.pc = .start
  · have hw : cfg.workers = [] := by
      unfold shapeOk at inv
      rw [hst] at inv
      exact inv.2.2
    refine ⟨l, ?_, ?_⟩
    · simp [mapWorker, hw, htr]
    · simpa [mapWorker, hw] using inv
  · have keep : ∀ (cfg1 : MapCfg σ) (evs : List Call), cfg1.st.trace = cfg.st.trace ++ evs →
        batchTags evs = [] → cfg1.pc = cfg.pc → cfg1.queue = cfg.queue →
        ∃ l1, cfg1.st.trace = s.trace ++ l1 ∧ shapeOk upm names s l1 cfg1 := by
      intro cfg1 evs e hev hpc hq
      refine ⟨l ++ evs, by rw [e, htr, List.append_assoc], ?_⟩
      unfold shapeOk at inv ⊢
      rw [hpc]
      have hf : mapFuture upm cfg1 = mapFuture upm cfg := by
        simp only [mapFuture, hpc, hq]
      rcases h : cfg.pc with _ | _ | ⟨id, host, uses⟩ | ⟨id, uses, i⟩ | _
      · exact absurd h hst
      · rw [h] at inv
        simp only at inv ⊢
        rw [batchTags_append, hev, List.append_nil, hf]; exact inv
      · rw [h] at inv
        simp only at inv ⊢
        rw [batchTags_append, hev, List.append_nil, hf]; exact inv
      · rw [h] at inv
        simp only at inv ⊢
        rw [batchTags_append, hev, List.append_nil, hf, hq]; exact inv
      · rw [h] at inv
        simp only at inv ⊢
        rw [batchTags_append, hev, List.append_nil, hf]; exact inv
    unfold mapWorker
    split
    · exact ⟨l, htr, inv⟩
    · rename_i w hk
      split
      · obtain ⟨q, e, p⟩ := workerRun_trace sys job jobName m w cfg.st
        refine keep _ (q ++ [.MapFileDone w.name w.id]) e ?_ rfl rfl
        rw [batchTags_append, (calm_counts q p).2.2.2]
        simp [batchTags, batchTag]
      · split
        · split
          · split
            · exact keep _ [] (by simp) rfl rfl rfl
            · exact ⟨l, htr, inv⟩
          · exact keep _ [] (by simp) rfl rfl rfl
        · exact ⟨l, htr, inv⟩

/-- Every run of `Map` keeps the shape of the trace. -/
theorem mapRun_shape (sys : Sys σ) (fuel upm : Nat) (job : Job) (jobName : String)
    (m : materializeInfo) (shard modulos : Nat) (s p : St σ) (hupm : 0 < upm)
    (hprep : (PrepJob sys (pathBase jobName) m s).1 = none) (htyp : job.Typ = "map")
    (hpump : pumpFiles sys fuel job m shard modulos (PrepJob sys (pathBase jobName) m s).2 =
      some p)
    (hok : ∀ c w, containerOp c = true → (sys.exec c w).1.err = none) (sched : List Nat) :
    ∃ l, (mapRun sys fuel upm job jobName m shard modulos sched s).st.trace = s.trace ++ l ∧
      shapeOk upm
        (sentNames (p.trace.drop (PrepJob sys (pathBase jobName) m s).2.trace.length)) s l
        (mapRun sys fuel upm job jobName m shard modulos sched s) := by
  have gen : ∀ (sched : List Nat) (l : List Call) (cfg : MapCfg σ),
      cfg.st.trace = s.trace ++ l →
      shapeOk upm
        (sentNames (p.trace.drop (PrepJob sys (pathBase jobName) m s).2.trace.length)) s l
        cfg →
      ∃ l1, (sched.foldl (mapStep sys fuel upm job jobName m shard modulos) cfg).st.trace =
          s.trace ++ l1 ∧
        shapeOk upm
          (sentNames (p.trace.drop (PrepJob sys (pathBase jobName) m s).2.trace.length)) s l1
          (sched.foldl (mapStep sys fuel upm job jobName m shard modulos) cfg) := by
    intro sched
    induction sched with
    | nil => exact fun l cfg htr inv => ⟨l, htr, inv⟩
    | cons tid rest ih =>
      intro l cfg htr inv
      cases tid with
      | zero =>
        obtain ⟨l1, e1, inv1⟩ := mapMain_shape sys fuel upm job jobName m shard modulos s p
          hupm hprep htyp hpump hok l cfg htr inv
        exact ih l1 _ e1 inv1
      | succ k =>
        obtain ⟨l1, e1, inv1⟩ := mapWorker_shape sys upm job jobName m _ s l cfg k htr inv
        exact ih l1 _ e1 inv1
  exact gen sched [] (mapInit s) (by simp [mapInit]) (by simp [shapeOk, mapInit])

/-! ### The batches in the words of the specification -/

theorem loopFuture_take (upm : Nat) (names : List String) (uses : Nat) (h : uses < upm) :
    loopFuture upm names uses =
      (names.take (upm - uses)).map Tag.dispatch ++ [.stop] ++
        (if upm - uses ≤ names.length then
          .start :: loopFuture upm (names.drop (upm - uses)) 0 else []) := by
  induction names generalizing uses with
  | nil =>
    have : ¬ upm - uses ≤ 0 := by omega
    simp [loopFuture, this]
  | cons name rest ih =>
    by_cases hu : uses + 1 = upm
    · have e : upm - uses = 1 := by omega
      simp [loopFuture, hu, e]
    · have e : upm - uses = (upm - (uses + 1)) + 1 := by omega
      rw [loopFuture, if_neg hu, ih (uses + 1) (by omega), e]
      simp

theorem specBatches_unfold (upm : Nat) (names : List String) (hupm : 0 < upm) :
    specBatches upm names =
      names.take upm ::
        (if upm ≤ names.length then specBatches upm (names.drop upm) else []) := by
  unfold specBatches
  by_cases h : upm ≤ names.length
  · have e : names.length / upm = (names.length - upm) / upm + 1 := by
      rw [← Nat.sub_add_cancel h, Nat.add_div_right _ hupm]
      simp
    rw [if_pos h, e, List.range_succ_eq_map, List.map_cons, List.map_map]
    simp only [Nat.zero_mul, List.drop_zero, List.length_drop, List.cons.injEq, true_and]
    apply List.map_congr_left
    intro b _
    simp only [Function.comp, Nat.succ_eq_add_one]
    rw [List.drop_drop, Nat.add_mul, Nat.one_mul, Nat.add_comm]
  · have e : names.length / upm = 0 := Nat.div_eq_of_lt (by omega)
    rw [if_neg h, e]
    simp [List.range_succ]

/-- The run of the loops of `Map` over a delivery is the life of the batches of the
specification, one after the other. -/
theorem loopFuture_spec (upm : Nat) (hupm : 0 < upm) (names : List String) :
    .start :: loopFuture upm names 0 = (specBatches upm names).flatMap batchLife := by
  have gen : ∀ n, ∀ names : List String, names.length = n →
      .start :: loopFuture upm names 0 = (specBatches upm names).flatMap batchLife := by
    intro n
    induction n using Nat.strong_induction_on with
    | _ n ih =>
      intro names hn
      rw [loopFuture_take upm names 0 hupm, specBatches_unfold upm names hupm]
      simp only [Nat.sub_zero, List.flatMap_cons, batchLife]
      by_cases h : upm ≤ names.length
      · have hlt : (names.drop upm).length < n := by
          rw [List.length_drop]; omega
        rw [if_pos h, if_pos h, ih _ hlt (names.drop upm) rfl]
        simp
      · rw [if_neg h, if_neg h]
        simp
  exact gen _ names rfl

theorem specBatches_lengths (upm : Nat) (hupm : 0 < upm) (names : List String) :
    (specBatches upm names).map List.length =
      List.replicate (names.length / upm) upm ++ [names.length % upm] := by
  unfold specBatches
  rw [List.range_succ, List.map_append, List.map_append]
  congr 1
  · apply List.eq_replicate_iff.mpr
    refine ⟨by simp, ?_⟩
    · intro x hx
      simp only [List.map_map, List.mem_map, List.mem_range, Function.comp] at hx
      obtain ⟨b, hb, rfl⟩ := hx
      rw [List.length_take, List.length_drop]
      have h1 : (b + 1) * upm ≤ names.length := by
        calc (b + 1) * upm ≤ (names.length / upm) * upm := Nat.mul_le_mul_right _ hb
          _ ≤ names.length := Nat.div_mul_le_self _ _
      rw [Nat.add_mul, Nat.one_mul] at h1
      omega
  · simp only [List.map_cons, List.map_nil, List.length_take, List.length_drop,
      List.cons.injEq, and_true]
    have h1 := Nat.div_add_mod names.length upm
    have h2 := Nat.mod_lt names.length hupm
    rw [Nat.mul_comm] at h1
    omega

theorem specBatches_flatten (upm : Nat) (hupm : 0 < upm) (names : List String) :
    (specBatches upm names).flatten = names := by
  have gen : ∀ n, ∀ names : List String, names.length = n →
      (specBatches upm names).flatten = names := by
    intro n
    induction n using Nat.strong_induction_on with
    | _ n ih =>
      intro names hn
      rw [specBatches_unfold upm names hupm]
      by_cases h : upm ≤ names.length
      · have hlt : (names.drop upm).length < n := by
          rw [List.length_drop]; omega
        rw [if_pos h, List.flatten_cons, ih _ hlt (names.drop upm) rfl]
        exact List.take_append_drop _ _
      · rw [if_neg h]
        simp only [List.flatten_cons, List.flatten_nil, List.append_nil]
        exact List.take_of_length_le (by omega)
  exact gen _ names rfl

theorem count_start_batches (batches : List (List String)) :
    (batches.flatMap batchLife).count .start = batches.length := by
  induction batches with
  | nil => rfl
  | cons b rest ih =>
    have hb : (b.map Tag.dispatch).count .start = 0 :=
      List.count_eq_zero.mpr (by simp)
    simp only [List.flatMap_cons, List.count_append, ih, batchLife, List.count_cons,
      List.length_cons, hb]
    simp
    omega

/-! ## C10: the batches of the mappers -/

/-- C10. Let a map job be given whose output directory could be made and whose
`pumpFiles` has delivered `names`, and let the container runtime not fail.  Then in every
run in which `Map` returns, under every schedule of its workers: the starts, dispatches
and stops of `Map` are the lives of the batches of the specification one after the other
(container `b` is started, receives the names `b * 2000 .. b * 2000 + 1999` of the
delivery in order, and is stopped); the batches hold 2000 names each except the last one,
which holds `n % 2000` names; they hold every name once, in the order of delivery;
`n / 2000 + 1` containers are started; and whenever a container is stopped, every file
dispatched so far is back from `mapFile`. -/
theorem Map_batches (sys : Sys σ) (fuel : Nat) (sched : List Nat) (job : Job)
    (jobName : String) (m : materializeInfo) (shard modulos : Nat) (s p t : St σ)
    (hprep : (PrepJob sys (pathBase jobName) m s).1 = none) (htyp : job.Typ = "map")
    (hpump : pumpFiles sys fuel job m shard modulos (PrepJob sys (pathBase jobName) m s).2 =
      some p)
    (hok : ∀ c w, containerOp c = true → (sys.exec c w).1.err = none)
    (hret : Map sys fuel sched job jobName m shard modulos s = some t) :
    ∃ l, t.trace = s.trace ++ l ∧
      batchTags l =
        (specBatches usesPerMapper
          (sentNames (p.trace.drop (PrepJob sys (pathBase jobName) m s).2.trace.length))).flatMap
          batchLife ∧
      (specBatches usesPerMapper
          (sentNames (p.trace.drop (PrepJob sys (pathBase jobName) m s).2.trace.length))).map
          List.length =
        List.replicate
          ((sentNames (p.trace.drop
            (PrepJob sys (pathBase jobName) m s).2.trace.length)).length / 2000) 2000 ++
        [(sentNames (p.trace.drop
            (PrepJob sys (pathBase jobName) m s).2.trace.length)).length % 2000] ∧
      (specBatches usesPerMapper
          (sentNames (p.trace.drop
            (PrepJob sys (pathBase jobName) m s).2.trace.length))).flatten =
        sentNames (p.trace.drop (PrepJob sys (pathBase jobName) m s).2.trace.length) ∧
      (batchTags l).count .start =
        (sentNames (p.trace.drop
          (PrepJob sys (pathBase jobName) m s).2.trace.length)).length / 2000 + 1 ∧
      StopsBalanced l := by
  have hupm : 0 < usesPerMapper := by decide
  unfold Map at hret
  simp only [] at hret
  split at hret
  · rename_i hpc
    simp only [Option.some.injEq] at hret
    obtain ⟨l, e, sh⟩ := mapRun_shape sys fuel usesPerMapper job jobName m shard modulos s p
      hupm hprep htyp hpump hok sched
    obtain ⟨l1, e1, inv⟩ := mapRun_inv sys fuel usesPerMapper job jobName m shard modulos
      sched s
    have hl : l1 = l := List.append_cancel_left (e1.symm.trans e)
    subst hl
    unfold shapeOk at sh
    rw [hpc] at sh
    simp only [mapFuture, hpc, List.append_nil] at sh
    have hshape := sh.trans (loopFuture_spec usesPerMapper hupm _)
    refine ⟨l1, by rw [← hret, e], hshape, specBatches_lengths usesPerMapper hupm _,
      specBatches_flatten usesPerMapper hupm _, ?_, inv.balanced⟩
    rw [hshape, count_start_batches]
    simp [specBatches, usesPerMapper]
  · exact absurd hret (by simp)

theorem demoMapSys_containers (c : Call) (w : Store) (h : containerOp c = true) :
    (demoMapSys.exec c w).1.err = none := by
  cases c <;> simp [containerOp] at h <;> simp [demoMapSys, memSys]

/-- C10 for the map job of the demonstration: two files, one container. -/
theorem Map_batches_witness :
    (PrepJob demoMapSys (pathBase "grep") ⟨"data", "comp", "master", "c1"⟩
      ⟨demoStore, []⟩).1 = none ∧
    demoMap.Typ = "map" ∧
    pumpFiles demoMapSys 5 demoMap ⟨"data", "comp", "master", "c1"⟩ 0 1
      (PrepJob demoMapSys (pathBase "grep") ⟨"data", "comp", "master", "c1"⟩
        ⟨demoStore, []⟩).2 = some demoPumped ∧
    Map demoMapSys 5 demoMapSched demoMap "grep" ⟨"data", "comp", "master", "c1"⟩ 0 1
      ⟨demoStore, []⟩ = some demoMapped ∧
    ∃ l, demoMapped.trace = (⟨demoStore, []⟩ : St Store).trace ++ l ∧
      batchTags l =
        (specBatches usesPerMapper
          (sentNames (demoPumped.trace.drop
            (PrepJob demoMapSys (pathBase "grep") ⟨"data", "comp", "master", "c1"⟩
              ⟨demoStore, []⟩).2.trace.length))).flatMap batchLife ∧
      (specBatches usesPerMapper
          (sentNames (demoPumped.trace.drop
            (PrepJob demoMapSys (pathBase "grep") ⟨"data", "comp", "master", "c1"⟩
              ⟨demoStore, []⟩).2.trace.length))).map List.length =
        List.replicate
          ((sentNames (demoPumped.trace.drop
            (PrepJob demoMapSys (pathBase "grep") ⟨"data", "comp", "master", "c1"⟩
              ⟨demoStore, []⟩).2.trace.length)).length / 2000) 2000 ++
        [(sentNames (demoPumped.trace.drop
            (PrepJob demoMapSys (pathBase "grep") ⟨"data", "comp", "master", "c1"⟩
              ⟨demoStore, []⟩).2.trace.length)).length % 2000] ∧
      (specBatches usesPerMapper
          (sentNames (demoPumped.trace.drop
            (PrepJob demoMapSys (pathBase "grep") ⟨"data", "comp", "master", "c1"⟩
              ⟨demoStore, []⟩).2.trace.length))).flatten =
        sentNames (demoPumped.trace.drop
          (PrepJob demoMapSys (pathBase "grep") ⟨"data", "comp", "master", "c1"⟩
            ⟨demoStore, []⟩).2.trace.length) ∧
      (batchTags l).count .start =
        (sentNames (demoPumped.trace.drop
          (PrepJob demoMapSys (pathBase "grep") ⟨"data", "comp", "master", "c1"⟩
            ⟨demoStore, []⟩).2.trace.length)).length / 2000 + 1 ∧
      StopsBalanced l :=
  ⟨by rfl, by rfl, by rfl, by rfl,
    Map_batches demoMapSys 5 demoMapSched demoMap "grep" ⟨"data", "comp", "master", "c1"⟩ 0 1
      ⟨demoStore, []⟩ demoPumped demoMapped (by rfl) (by rfl) (by rfl) demoMapSys_containers
      (by rfl)⟩

/-! ## C5: the commit waits for the jobs, `Map` waits for its workers -/

/-- When `Map` returns, every file it dispatched is back from `mapFile`, and so it was
whenever `Map` stopped a container. -/
theorem Map_returns_after_workers (sys : Sys σ) (fuel : Nat) (sched : List Nat) (job : Job)
    (jobName : String) (m : materializeInfo) (shard modulos : Nat) (s t : St σ)
    (hret : Map sys fuel sched job jobName m shard modulos s = some t) :
    ∃ l, t.trace = s.trace ++ l ∧ l.countP isDispatch = l.countP isDone ∧
      StopsBalanced l ∧
      ∀ w ∈ (mapRun sys fuel usesPerMapper job jobName m shard modulos sched s).workers,
        w.pc = 2 := by
  unfold Map at hret
  simp only [] at hret
  split at hret
  · rename_i hpc
    simp only [Option.some.injEq] at hret
    obtain ⟨l, e, inv⟩ := mapRun_inv sys fuel usesPerMapper job jobName m shard modulos
      sched s
    have hall := inv.sem
    unfold semOk at hall
    rw [hpc] at hall
    simp only at hall
    obtain ⟨_, z2⟩ := all_finished_sums _ 0 hall
    exact ⟨l, by rw [← hret, e], by rw [inv.dispatched, inv.finished, z2], inv.balanced, hall⟩
  · exact absurd hret (by simp)

/-- C5. In every run of `Materialize`, under every schedule and whatever the world
answers: a commit in the trace comes after the return of `wg.Wait` and, for every entry
`ReadDir` returned, after the opening of the job file, after the return of the body of
its task (the call of `Map` or `Reduce` is over) and after its `wg.Done`.  And whenever a
call of `Map` returns, under every schedule of its workers, every file it dispatched is
back from `mapFile`: as many `mapFile` calls have returned as files were dispatched, and
every worker has finished. -/
theorem commit_after_jobs (sys : Sys σ) (fuel : Nat) (inner : Nat → List Nat)
    (in_repo branch commit outRepo jobDir : String) (shard modulos : Nat) (sched : List Nat)
    (w : σ) :
    (∀ l1 l2 c,
      (Materialize sys fuel inner in_repo branch commit outRepo jobDir shard modulos sched
        w).st.trace = l1 ++ c :: l2 → isCommit c = true →
      ∀ name ∈ (Materialize sys fuel inner in_repo branch commit outRepo jobDir shard modulos
          sched w).jobs,
        .Open (pathJoin [pathJoin [in_repo, commit, jobDir], name]) ∈ l1 ∧
        .BodyReturned name ∈ l1 ∧ .WgDone name ∈ l1 ∧ .WgWait ∈ l1) ∧
    (∀ (msched : List Nat) (job : Job) (jobName : String) (m : materializeInfo) (s t : St σ),
      Map sys fuel msched job jobName m shard modulos s = some t →
      ∃ l, t.trace = s.trace ++ l ∧ l.countP isDispatch = l.countP isDone ∧
        ∀ v ∈ (mapRun sys fuel usesPerMapper job jobName m shard modulos msched s).workers,
          v.pc = 2) := by
  constructor
  · exact (Materialize_inv sys fuel inner in_repo branch commit outRepo jobDir shard modulos
      sched w).ordered
  · intro msched job jobName m s t hret
    obtain ⟨l, e, hb, _, hall⟩ := Map_returns_after_workers sys fuel msched job jobName m
      shard modulos s t hret
    exact ⟨l, e, hb, hall⟩

/-- C5 on the demonstration store: the commit of the complete run comes after the job
`wc`, and the map job returns with both files mapped. -/
theorem commit_after_jobs_witness :
    (Materialize demoSys 5 (fun _ => []) "data" "master" "c1" "comp" "jobs" 0 1 demoSched
        demoStore).st.trace =
      (Materialize demoSys 5 (fun _ => []) "data" "master" "c1" "comp" "jobs" 0 1 demoSched
        demoStore).st.trace.take 20 ++ .Commit "comp" "c1" "master" :: [] ∧
    "wc" ∈ (Materialize demoSys 5 (fun _ => []) "data" "master" "c1" "comp" "jobs" 0 1
      demoSched demoStore).jobs ∧
    (.Open (pathJoin [pathJoin ["data", "c1", "jobs"], "wc"]) ∈
        (Materialize demoSys 5 (fun _ => []) "data" "master" "c1" "comp" "jobs" 0 1 demoSched
          demoStore).st.trace.take 20 ∧
      .BodyReturned "wc" ∈
        (Materialize demoSys 5 (fun _ => []) "data" "master" "c1" "comp" "jobs" 0 1 demoSched
          demoStore).st.trace.take 20 ∧
      .WgDone "wc" ∈
        (Materialize demoSys 5 (fun _ => []) "data" "master" "c1" "comp" "jobs" 0 1 demoSched
          demoStore).st.trace.take 20 ∧
      .WgWait ∈
        (Materialize demoSys 5 (fun _ => []) "data" "master" "c1" "comp" "jobs" 0 1 demoSched
          demoStore).st.trace.take 20) ∧
    Map demoMapSys 5 demoMapSched demoMap "grep" ⟨"data", "comp", "master", "c1"⟩ 0 1
      ⟨demoStore, []⟩ = some demoMapped ∧
    (∃ l, demoMapped.trace = (⟨demoStore, []⟩ : St Store).trace ++ l ∧
      l.countP isDispatch = l.countP isDone ∧
      ∀ v ∈ (mapRun demoMapSys 5 usesPerMapper demoMap "grep"
          ⟨"data", "comp", "master", "c1"⟩ 0 1 demoMapSched ⟨demoStore, []⟩).workers,
        v.pc = 2) :=
  ⟨by rfl, by decide,
    (commit_after_jobs demoSys 5 (fun _ => []) "data" "master" "c1" "comp" "jobs" 0 1
      demoSched demoStore).1 _ _ _ (by rfl) (by rfl) "wc" (by decide),
    by rfl,
    (commit_after_jobs demoMapSys 5 (fun _ => []) "data" "master" "c1" "comp" "jobs" 0 1
      [] demoStore).2 demoMapSched demoMap "grep" ⟨"data", "comp", "master", "c1"⟩
      ⟨demoStore, []⟩ demoMapped (by rfl)⟩

/-! ## C3: the early returns of `Materialize` come before the deferred commit -/

/-- C3, at a store that cannot make the progress directory: under every schedule the run
of `Materialize` contains no commit, and once `Materialize` has taken its first step it
has returned the error of `MkdirAll` after the three calls of lines 377-388. -/
theorem Materialize_setup_failure_skips_commit (sched : List Nat) :
    (∀ c ∈ (Materialize noMkdirSys 5 (fun _ => []) "data" "master" "c1" "comp" "jobs" 0 1
        sched demoStore).st.trace, isCommit c = false) ∧
    (0 ∈ sched →
      (Materialize noMkdirSys 5 (fun _ => []) "data" "master" "c1" "comp" "jobs" 0 1 sched
        demoStore).pc = .returned (some "failed") ∧
      (Materialize noMkdirSys 5 (fun _ => []) "data" "master" "c1" "comp" "jobs" 0 1 sched
        demoStore).st.trace =
        [.FileExists "comp/master", .Branch "comp" "" "master",
          .MkdirAll "comp/master/.progress/c1"]) := by
  have stay : ∀ (sched : List Nat) (cfg : MatCfg Store), cfg.tasks = [] →
      (∃ r, cfg.pc = .returned r) →
      sched.foldl (matStep noMkdirSys 5 (fun _ => []) "data" "master" "c1" "comp" "jobs" 0 1)
        cfg = cfg := by
    intro sched
    induction sched with
    | nil => intro cfg _ _; rfl
    | cons tid rest ih =>
      intro cfg ht hr
      obtain ⟨r, hr⟩ := hr
      have hstep : matStep noMkdirSys 5 (fun _ => []) "data" "master" "c1" "comp" "jobs" 0 1
          cfg tid = cfg := by
        cases tid with
        | zero => simp [matStep, matMain, hr]
        | succ k => simp [matStep, matTask, ht]
      rw [List.foldl_cons, hstep]
      exact ih cfg ht ⟨r, hr⟩
  have gen : ∀ (sched : List Nat),
      (sched.foldl (matStep noMkdirSys 5 (fun _ => []) "data" "master" "c1" "comp" "jobs" 0 1)
          (matInit demoStore) = matInit demoStore ∧ 0 ∉ sched) ∨
      (sched.foldl (matStep noMkdirSys 5 (fun _ => []) "data" "master" "c1" "comp" "jobs" 0 1)
          (matInit demoStore) =
        matStep noMkdirSys 5 (fun _ => []) "data" "master" "c1" "comp" "jobs" 0 1
          (matInit demoStore) 0) := by
    intro sched
    induction sched with
    | nil => exact Or.inl ⟨rfl, by simp⟩
    | cons tid rest ih =>
      cases tid with
      | zero =>
        right
        rw [List.foldl_cons]
        exact stay rest _ rfl ⟨some "failed", rfl⟩
      | succ k =>
        have hstep : matStep noMkdirSys 5 (fun _ => []) "data" "master" "c1" "comp" "jobs" 0 1
            (matInit demoStore) (k + 1) = matInit demoStore := rfl
        rw [List.foldl_cons, hstep]
        rcases ih with ⟨h1, h2⟩ | h
        · exact Or.inl ⟨h1, by simpa using h2⟩
        · exact Or.inr h
  unfold Materialize
  rcases gen sched with ⟨h1, h2⟩ | h
  · rw [h1]
    exact ⟨by simp [matInit], fun h0 => absurd h0 h2⟩
  · rw [h]
    exact ⟨by decide, fun _ => ⟨rfl, rfl⟩⟩

/-! ## C6: the marker of a job may be created after the commit -/

/-- C6, on the demonstration store under the schedule `raceSched`: the task of `wc` calls
`wg.Done`, `Materialize` returns from `wg.Wait` and commits, and only then does the task
create its progress marker.  When the commit is made the store holds no marker. -/
theorem marker_created_after_commit :
    (Materialize demoSys 5 (fun _ => []) "data" "master" "c1" "comp" "jobs" 0 1 raceSched
      demoStore).st.trace =
      [.FileExists "comp/master", .Branch "comp" "" "master",
        .MkdirAll "comp/master/.progress/c1", .FileExists "data/c1/jobs",
        .ReadDir "data/c1/jobs", .WgAdd, .Open "data/c1/jobs/wc", .Decode "data/c1/jobs/wc",
        .PullImage "ubuntu", .StartContainer "ubuntu" ["wc", "-l"], .IpAddr "mapper",
        .Get "http://localhost/in/file/*?commit=c1", .Post "http://10.0.0.2/in" "",
        .CreateAll "comp/master/wc", .Copy "comp/master/wc" "", .StopContainer "mapper",
        .BodyReturned "wc", .WgDone "wc", .WgWait, .Commit "comp" "c1" "master",
        .Create "comp/master/.progress/c1/wc"] ∧
    (Materialize demoSys 5 (fun _ => []) "data" "master" "c1" "comp" "jobs" 0 1
      (raceSched.take 7) demoStore).pc = .returned none ∧
    ("comp", "c1") ∈ (Materialize demoSys 5 (fun _ => []) "data" "master" "c1" "comp" "jobs" 0 1
      (raceSched.take 7) demoStore).st.world.commits ∧
    "comp/master/.progress/c1/wc" ∉
      (Materialize demoSys 5 (fun _ => []) "data" "master" "c1" "comp" "jobs" 0 1
        (raceSched.take 7) demoStore).st.world.files := by
  refine ⟨by rfl, by rfl, by decide, by decide⟩

/-! ## C7: `Materialize` runs the jobs again -/

/-- C7 refuted on the demonstration store: after a complete run of `Materialize` the
output branch, the progress marker of `wc` and the commit `c1` of `comp` exist; a second
run with the same arguments on that store pulls the image and starts the reducer
again. -/
theorem rematerialize_runs_jobs :
    "comp/master" ∈ (Materialize demoSys 5 (fun _ => []) "data" "master" "c1" "comp" "jobs"
      0 1 demoSched demoStore).st.world.files ∧
    "comp/master/.progress/c1/wc" ∈ (Materialize demoSys 5 (fun _ => []) "data" "master"
      "c1" "comp" "jobs" 0 1 demoSched demoStore).st.world.files ∧
    ("comp", "c1") ∈ (Materialize demoSys 5 (fun _ => []) "data" "master" "c1" "comp" "jobs"
      0 1 demoSched demoStore).st.world.commits ∧
    (Materialize demoSys 5 (fun _ => []) "data" "master" "c1" "comp" "jobs" 0 1 demoSched
      (Materialize demoSys 5 (fun _ => []) "data" "master" "c1" "comp" "jobs" 0 1 demoSched
        demoStore).st.world).pc = .returned none ∧
    .PullImage "ubuntu" ∈
      (Materialize demoSys 5 (fun _ => []) "data" "master" "c1" "comp" "jobs" 0 1 demoSched
        (Materialize demoSys 5 (fun _ => []) "data" "master" "c1" "comp" "jobs" 0 1 demoSched
          demoStore).st.world).st.trace ∧
    .StartContainer "ubuntu" ["wc", "-l"] ∈
      (Materialize demoSys 5 (fun _ => []) "data" "master" "c1" "comp" "jobs" 0 1 demoSched
        (Materialize demoSys 5 (fun _ => []) "data" "master" "c1" "comp" "jobs" 0 1 demoSched
          demoStore).st.world).st.trace := by
  refine ⟨by decide, by decide, by decide, by rfl, by decide, by decide⟩

/-- Whatever the store holds, materialised or not, `Materialize` consults no earlier
progress: in every run in which it has returned, the job file of every entry `ReadDir`
returned has been opened and the body of its task has been run to its return; and when
`ReadDir` has returned no entry the run makes none but the calls of `Materialize` itself
(`FileExists`, `Branch`, `MkdirAll`, `ReadDir`, `Commit`, the wait and log lines). -/
theorem rematerialize_runs_every_job (sys : Sys σ) (fuel : Nat) (inner : Nat → List Nat)
    (in_repo branch commit outRepo jobDir : String) (shard modulos : Nat) (sched : List Nat)
    (w : σ) (ret : Option String)
    (hret : (Materialize sys fuel inner in_repo branch commit outRepo jobDir shard modulos
      sched w).pc = .returned ret) :
    (∀ name ∈ (Materialize sys fuel inner in_repo branch commit outRepo jobDir shard modulos
        sched w).jobs,
      .Open (pathJoin [pathJoin [in_repo, commit, jobDir], name]) ∈
        (Materialize sys fuel inner in_repo branch commit outRepo jobDir shard modulos sched
          w).st.trace ∧
      .BodyReturned name ∈
        (Materialize sys fuel inner in_repo branch commit outRepo jobDir shard modulos sched
          w).st.trace) ∧
    ((Materialize sys fuel inner in_repo branch commit outRepo jobDir shard modulos sched
        w).jobs = [] →
      ∀ c ∈ (Materialize sys fuel inner in_repo branch commit outRepo jobDir shard modulos
        sched w).st.trace, mainLevel c = true) := by
  have inv := Materialize_inv sys fuel inner in_repo branch commit outRepo jobDir shard
    modulos sched w
  have hp := inv.phase
  unfold phaseOk at hp
  rw [hret] at hp
  simp only at hp
  obtain ⟨hj, hpend⟩ := hp
  constructor
  · intro name hname
    rw [hj] at hname
    obtain ⟨t, htm, hte⟩ := List.mem_map.mp hname
    have := inv.started t htm (pending_zero _ hpend t htm).1
    rw [hte] at this
    exact this
  · intro hnil
    apply inv.alone
    rw [hj] at hnil
    exact List.map_eq_nil_iff.mp hnil

/-- Every job is run again on the store the first run of the demonstration leaves
behind. -/
theorem rematerialize_runs_every_job_witness :
    (Materialize demoSys 5 (fun _ => []) "data" "master" "c1" "comp" "jobs" 0 1 demoSched
      (Materialize demoSys 5 (fun _ => []) "data" "master" "c1" "comp" "jobs" 0 1 demoSched
        demoStore).st.world).pc = .returned none ∧
    ((∀ name ∈ (Materialize demoSys 5 (fun _ => []) "data" "master" "c1" "comp" "jobs" 0 1
        demoSched (Materialize demoSys 5 (fun _ => []) "data" "master" "c1" "comp" "jobs" 0 1
          demoSched demoStore).st.world).jobs,
      .Open (pathJoin [pathJoin ["data", "c1", "jobs"], name]) ∈
        (Materialize demoSys 5 (fun _ => []) "data" "master" "c1" "comp" "jobs" 0 1 demoSched
          (Materialize demoSys 5 (fun _ => []) "data" "master" "c1" "comp" "jobs" 0 1
            demoSched demoStore).st.world).st.trace ∧
      .BodyReturned name ∈
        (Materialize demoSys 5 (fun _ => []) "data" "master" "c1" "comp" "jobs" 0 1 demoSched
          (Materialize demoSys 5 (fun _ => []) "data" "master" "c1" "comp" "jobs" 0 1
            demoSched demoStore).st.world).st.trace) ∧
    ((Materialize demoSys 5 (fun _ => []) "data" "master" "c1" "comp" "jobs" 0 1 demoSched
        (Materialize demoSys 5 (fun _ => []) "data" "master" "c1" "comp" "jobs" 0 1 demoSched
          demoStore).st.world).jobs = [] →
      ∀ c ∈ (Materialize demoSys 5 (fun _ => []) "data" "master" "c1" "comp" "jobs" 0 1
        demoSched (Materialize demoSys 5 (fun _ => []) "data" "master" "c1" "comp" "jobs" 0 1
          demoSched demoStore).st.world).st.trace, mainLevel c = true)) :=
  ⟨by rfl, rematerialize_runs_every_job demoSys 5 (fun _ => []) "data" "master" "c1" "comp"
    "jobs" 0 1 demoSched
    (Materialize demoSys 5 (fun _ => []) "data" "master" "c1" "comp" "jobs" 0 1 demoSched
      demoStore).st.world none (by rfl)⟩

/-! ## C8: `pumpFiles` on an in-cluster input -/

theorem walk_pump_all (job : Job) (h0 : job.Limit = 0) (names : List String) (c : Int)
    (s : St σ) :
    (walkNames (pumpVisit job) names c s).1 = none ∧
    (walkNames (pumpVisit job) names c s).2.2.trace = s.trace ++ names.map .Send ∧
    (walkNames (pumpVisit job) names c s).2.2.world = s.world := by
  induction names generalizing c s with
  | nil => simp [walkNames]
  | cons name rest ih =>
    obtain ⟨h1, h2, h3⟩ := ih (c + 1) (emit (.Send name) s)
    simp only [walkNames, pumpVisit, h0, ne_eq, not_true_eq_false, false_and, if_false]
    exact ⟨h1, by rw [h2]; simp [emit], by rw [h3]; rfl⟩

theorem walk_pump_limit (job : Job) (names : List String) (c : Int) (hc : c < job.Limit)
    (hc0 : 0 ≤ c) (s : St σ) :
    (walkNames (pumpVisit job) names c s).1 =
      (if (job.Limit - c).toNat ≤ names.length then some "STOP" else none) ∧
    (walkNames (pumpVisit job) names c s).2.2.trace =
      s.trace ++ (names.take (job.Limit - c).toNat).map .Send ∧
    (walkNames (pumpVisit job) names c s).2.2.world = s.world := by
  induction names generalizing c s with
  | nil =>
    have : ¬ (job.Limit - c).toNat ≤ 0 := by omega
    simp [walkNames, this]
  | cons name rest ih =>
    have hne : job.Limit ≠ 0 := by omega
    by_cases hlast : c + 1 ≥ job.Limit
    · have e : (job.Limit - c).toNat = 1 := by omega
      simp [walkNames, pumpVisit, hne, hlast, e, emit]
    · have hlt : c + 1 < job.Limit := by omega
      obtain ⟨h1, h2, h3⟩ := ih (c + 1) hlt (by omega) (emit (.Send name) s)
      have e : (job.Limit - c).toNat = (job.Limit - (c + 1)).toNat + 1 := by omega
      simp only [walkNames, pumpVisit, hne, ne_eq, not_false_eq_true, hlast, and_false,
        if_false]
      refine ⟨?_, ?_, ?_⟩
      · rw [h1, e]; simp
      · rw [h2, e]; simp [emit]
      · rw [h3]; rfl

/-- C8. Let the input of the job be an in-cluster path and let the walk of
`data/commit/input` visit the names `n1 .. nk` and succeed.  With `job.Limit = 0` the run
of `pumpFiles` is the walk, the sends of `n1 .. nk` in order and the close of the channel;
with `job.Limit = L > 0` it is the walk, the sends of the first `min L k` names in order
and the close of the channel.  Nothing else is sent and no line is logged: the `STOP`
that ends the walk is not reported as an error. -/
theorem pumpFiles_pfs_limit (sys : Sys σ) (fuel : Nat) (job : Job) (m : materializeInfo)
    (shard modulos : Nat) (s : St σ) (hproto : getProtocol job.Input = ProtoPfs)
    (hlim : 0 ≤ job.Limit)
    (hwalk : (sys.exec (.LazyWalk (pathJoin [m.In, m.Commit, job.Input])) s.world).1.err =
      none) :
    ∃ t, pumpFiles sys fuel job m shard modulos s = some t ∧
      t.trace = s.trace ++ .LazyWalk (pathJoin [m.In, m.Commit, job.Input]) ::
        ((if job.Limit = 0 then
            (sys.exec (.LazyWalk (pathJoin [m.In, m.Commit, job.Input])) s.world).1.names
          else
            (sys.exec (.LazyWalk (pathJoin [m.In, m.Commit, job.Input])) s.world).1.names.take
              job.Limit.toNat).map .Send ++ [.CloseChan]) ∧
      sentNames (t.trace.drop s.trace.length) =
        (if job.Limit = 0 then
            (sys.exec (.LazyWalk (pathJoin [m.In, m.Commit, job.Input])) s.world).1.names
          else
            (sys.exec (.LazyWalk (pathJoin [m.In, m.Commit, job.Input])) s.world).1.names.take
              job.Limit.toNat) ∧
      ((sys.exec (.LazyWalk (pathJoin [m.In, m.Commit, job.Input])) s.world).1.names.take
          job.Limit.toNat).length =
        min job.Limit.toNat
          (sys.exec (.LazyWalk (pathJoin [m.In, m.Commit, job.Input])) s.world).1.names.length := by
  have hsent : ∀ (pre : List Call) (c : Call) (names : List String),
      pre.length = s.trace.length → (∀ n, c ≠ .Send n) →
      sentNames ((pre ++ c :: (names.map Call.Send ++ [Call.CloseChan])).drop s.trace.length) =
        names := by
    intro pre c names hlen hc
    rw [← hlen, List.drop_left]
    unfold sentNames
    rw [List.filterMap_cons]
    have : (match c with | .Send name => some name | _ => none) = none := by
      cases c <;> simp_all
    rw [this, List.filterMap_append, List.filterMap_map]
    have hcomp : ((fun c => match c with | Call.Send name => some name | _ => none) ∘
        Call.Send) = some := by
      funext n; rfl
    rw [hcomp, List.filterMap_some]
    simp
  have key : pumpFiles sys fuel job m shard modulos s = some (emit .CloseChan
      (walkNames (pumpVisit job)
        (sys.exec (.LazyWalk (pathJoin [m.In, m.Commit, job.Input])) s.world).1.names 0
        (sys.call (.LazyWalk (pathJoin [m.In, m.Commit, job.Input])) s).2).2.2) := by
    by_cases h0 : job.Limit = 0
    · have h1 := (walk_pump_all job h0
        (sys.exec (.LazyWalk (pathJoin [m.In, m.Commit, job.Input])) s.world).1.names 0
        (sys.call (.LazyWalk (pathJoin [m.In, m.Commit, job.Input])) s).2).1
      simp only [Sys.call] at h1
      simp only [pumpFiles, pumpBody, hproto, if_true, LazyWalk, Sys.call, h1, hwalk,
        Option.map_some']
    · have hpos : (0 : Int) < job.Limit := by omega
      have h1 := (walk_pump_limit job
        (sys.exec (.LazyWalk (pathJoin [m.In, m.Commit, job.Input])) s.world).1.names 0 hpos
        (le_refl _) (sys.call (.LazyWalk (pathJoin [m.In, m.Commit, job.Input])) s).2).1
      simp only [Sys.call, sub_zero] at h1
      by_cases hstop : job.Limit.toNat ≤
          (sys.exec (.LazyWalk (pathJoin [m.In, m.Commit, job.Input])) s.world).1.names.length
      · rw [if_pos hstop] at h1
        simp only [pumpFiles, pumpBody, hproto, if_true, LazyWalk, Sys.call, h1, ne_eq,
          not_true_eq_false, if_false, Option.map_some']
      · rw [if_neg hstop] at h1
        simp only [pumpFiles, pumpBody, hproto, if_true, LazyWalk, Sys.call, h1, hwalk,
          Option.map_some']
  have htrace : (walkNames (pumpVisit job)
        (sys.exec (.LazyWalk (pathJoin [m.In, m.Commit, job.Input])) s.world).1.names 0
        (sys.call (.LazyWalk (pathJoin [m.In, m.Commit, job.Input])) s).2).2.2.trace =
      s.trace ++ .LazyWalk (pathJoin [m.In, m.Commit, job.Input]) ::
        (if job.Limit = 0 then
            (sys.exec (.LazyWalk (pathJoin [m.In, m.Commit, job.Input])) s.world).1.names
          else
            (sys.exec (.LazyWalk (pathJoin [m.In, m.Commit, job.Input])) s.world).1.names.take
              job.Limit.toNat).map .Send := by
    by_cases h0 : job.Limit = 0
    · rw [(walk_pump_all job h0 _ 0 _).2.1, if_pos h0]
      simp [Sys.call]
    · have hpos : (0 : Int) < job.Limit := by omega
      rw [(walk_pump_limit job _ 0 hpos (le_refl _) _).2.1, if_neg h0]
      simp [Sys.call]
  refine ⟨_, key, ?_, ?_, by simp [List.length_take]⟩
  · simp only [emit, htrace]
    simp
  · simp only [emit, htrace]
    have := hsent s.trace (.LazyWalk (pathJoin [m.In, m.Commit, job.Input]))
      (if job.Limit = 0 then
          (sys.exec (.LazyWalk (pathJoin [m.In, m.Commit, job.Input])) s.world).1.names
        else
          (sys.exec (.LazyWalk (pathJoin [m.In, m.Commit, job.Input])) s.world).1.names.take
            job.Limit.toNat) rfl (by simp)
    simpa using this

/-- C8 on the demonstration store, whose walk visits `a` and `b`: with the limit `1` the
run of `pumpFiles` is the walk, the send of `a` and the close of the channel. -/
theorem pumpFiles_pfs_limit_witness :
    getProtocol demoLimited.Input = ProtoPfs ∧ 0 ≤ demoLimited.Limit ∧
    (demoMapSys.exec (.LazyWalk (pathJoin ["data", "c1", demoLimited.Input]))
      demoStore).1.err = none ∧
    pumpFiles demoMapSys 0 demoLimited ⟨"data", "comp", "master", "c1"⟩ 0 1 ⟨demoStore, []⟩ =
      some ⟨demoStore, [.LazyWalk "data/c1/in", .Send "a", .CloseChan]⟩ ∧
    ∃ t, pumpFiles demoMapSys 0 demoLimited ⟨"data", "comp", "master", "c1"⟩ 0 1
        ⟨demoStore, []⟩ = some t ∧
      t.trace = [] ++ .LazyWalk (pathJoin ["data", "c1", demoLimited.Input]) ::
        ((if demoLimited.Limit = 0 then
            (demoMapSys.exec (.LazyWalk (pathJoin ["data", "c1", demoLimited.Input]))
              demoStore).1.names
          else
            (demoMapSys.exec (.LazyWalk (pathJoin ["data", "c1", demoLimited.Input]))
              demoStore).1.names.take demoLimited.Limit.toNat).map .Send ++ [.CloseChan]) ∧
      sentNames (t.trace.drop 0) =
        (if demoLimited.Limit = 0 then
            (demoMapSys.exec (.LazyWalk (pathJoin ["data", "c1", demoLimited.Input]))
              demoStore).1.names
          else
            (demoMapSys.exec (.LazyWalk (pathJoin ["data", "c1", demoLimited.Input]))
              demoStore).1.names.take demoLimited.Limit.toNat) ∧
      ((demoMapSys.exec (.LazyWalk (pathJoin ["data", "c1", demoLimited.Input]))
          demoStore).1.names.take demoLimited.Limit.toNat).length =
        min demoLimited.Limit.toNat
          (demoMapSys.exec (.LazyWalk (pathJoin ["data", "c1", demoLimited.Input]))
            demoStore).1.names.length :=
  ⟨by rfl, by decide, by rfl, by rfl,
    pumpFiles_pfs_limit demoMapSys 0 demoLimited ⟨"data", "comp", "master", "c1"⟩ 0 1
      ⟨demoStore, []⟩ (by rfl) (by decide) (by rfl)⟩

/-! ## C9: `pumpFiles` on an S3 input -/

theorem sentNames_append (a b : List Call) :
    sentNames (a ++ b) = sentNames a ++ sentNames b := by
  simp [sentNames, List.filterMap_append]

theorem sentNames_sends (l : List String) : sentNames (l.map .Send) = l := by
  induction l with
  | nil => rfl
  | cons a l ih =>
    simp only [sentNames, List.map_cons, List.filterMap_cons] at ih ⊢
    rw [ih]

theorem shardFiles_append (sys : Sys σ) (a b : List String) (shard modulos : Nat) :
    shardFiles sys (a ++ b) shard modulos =
      shardFiles sys a shard modulos ++ shardFiles sys b shard modulos := by
  simp [shardFiles]

/-- After a key of a listing without repetition come the keys listed behind it. -/
theorem keysAfter_split (a b : List String) (k : String) (hnd : (a ++ k :: b).Nodup)
    (hk : k ≠ "") : keysAfter (a ++ k :: b) k = b := by
  unfold keysAfter
  rw [if_neg hk]
  induction a with
  | nil => simp [List.dropWhile]
  | cons x a ih =>
    have hx : x ≠ k := by
      intro e
      subst e
      simp at hnd
    have hnd2 : (a ++ k :: b).Nodup := by
      simp only [List.cons_append, List.nodup_cons] at hnd
      exact hnd.2
    simp only [List.cons_append, List.dropWhile_cons, bne_iff_ne, ne_eq, hx,
      not_false_eq_true, decide_True, if_true]
    exact ih hnd2

theorem honoured_length (job : Job) (c : Int) (l : List String) :
    ((honoured job c l).length : Int) ≤ l.length := by
  unfold honoured
  split
  · exact le_refl _
  · simp [List.length_take]

/-- Below the limit everything has been sent. -/
theorem honoured_all (job : Job) (c : Int) (l : List String)
    (h : ¬ (job.Limit ≠ 0 ∧ c + (honoured job c l).length ≥ job.Limit)) :
    honoured job c l = l := by
  unfold honoured at h ⊢
  split
  · rfl
  · rename_i h0
    rw [if_neg h0] at h
    have h1 : c + ((l.take (job.Limit - c).toNat).length : Int) < job.Limit := by
      by_contra hcon
      exact h ⟨h0, by omega⟩
    rw [List.length_take] at h1
    apply List.take_of_length_le
    omega

/-- At the limit the names sent so far are all that is sent. -/
theorem honoured_append (job : Job) (c : Int) (a b : List String)
    (hc : job.Limit = 0 ∨ c < job.Limit) :
    honoured job c (a ++ b) =
      if job.Limit ≠ 0 ∧ c + (honoured job c a).length ≥ job.Limit then honoured job c a
      else a ++ honoured job (c + a.length) b := by
  unfold honoured
  by_cases h0 : job.Limit = 0
  · simp [h0]
  · have hlt : c < job.Limit := by
      rcases hc with h | h
      · exact absurd h h0
      · exact h
    simp only [h0, if_false, ne_eq, not_false_eq_true, true_and, List.length_take]
    rw [List.take_append_eq_append_take]
    split
    · rename_i hge
      have hle : (job.Limit - c).toNat ≤ a.length := by omega
      have : (job.Limit - c).toNat - a.length = 0 := by omega
      rw [this]
      simp
    · rename_i hlt2
      have hle : a.length < (job.Limit - c).toNat := by omega
      rw [List.take_of_length_le (by omega)]
      congr 2
      omega

/-- The inner loop over one page: the keys of the page that pass the shard test are sent
in order as far as the limit allows, the world is not touched, and below the limit the
marker moves on to the last key of the page. -/
theorem pumpPage_sends (sys : Sys σ) (job : Job) (shard modulos : Nat) (hm : modulos ≠ 0)
    (page : List String) (c : Int) (marker : String) (s : St σ)
    (hc : job.Limit = 0 ∨ c < job.Limit) :
    ∃ r, pumpPage sys job shard modulos page c marker s = some r ∧
      r.1 = c + (honoured job c (shardFiles sys page shard modulos)).length ∧
      r.2.2.trace = s.trace ++ (honoured job c (shardFiles sys page shard modulos)).map .Send ∧
      r.2.2.world = s.world ∧
      (¬ (job.Limit ≠ 0 ∧ r.1 ≥ job.Limit) → r.2.1 = page.getLastD marker) := by
  induction page generalizing c marker s with
  | nil =>
    refine ⟨(c, marker, s), rfl, ?_, ?_, rfl, fun _ => rfl⟩
    · simp [shardFiles, honoured]
    · simp [shardFiles, honoured]
  | cons key rest ih =>
    by_cases hown : (u64 (sys.hash key) % modulos == shard) = true
    · have hsf : shardFiles sys (key :: rest) shard modulos =
          key :: shardFiles sys rest shard modulos := by
        have hown1 : u64 (sys.hash key) % modulos = shard := by simpa using hown
        simp [shardFiles, ownedBy, hm, hown1]
      by_cases hhit : job.Limit ≠ 0 ∧ c + 1 ≥ job.Limit
      · have hlt : c < job.Limit := by
          rcases hc with h | h
          · exact absurd h hhit.1
          · exact h
        have e1 : (job.Limit - c).toNat = 1 := by omega
        have hh : honoured job c (key :: shardFiles sys rest shard modulos) = [key] := by
          simp [honoured, hhit.1, e1]
        refine ⟨(c + 1, marker, emit (.Send key) s), ?_, ?_, ?_, rfl, ?_⟩
        · simp only [pumpPage, ownedBy, hm, if_false, hown]
          rw [if_pos hhit]
        · rw [hsf, hh]; simp
        · rw [hsf, hh]; simp [emit]
        · intro hn
          exact absurd ⟨hhit.1, hhit.2⟩ hn
      · have hc2 : job.Limit = 0 ∨ c + 1 < job.Limit := by
          by_cases h0 : job.Limit = 0
          · exact Or.inl h0
          · right
            by_contra hcon
            exact hhit ⟨h0, by omega⟩
        obtain ⟨r, hr, h1, h2, h3, h4⟩ := ih (c + 1) key (emit (.Send key) s) hc2
        have hh : honoured job c (key :: shardFiles sys rest shard modulos) =
            key :: honoured job (c + 1) (shardFiles sys rest shard modulos) := by
          unfold honoured
          by_cases h0 : job.Limit = 0
          · simp [h0]
          · have hlt : c + 1 < job.Limit := by
              rcases hc2 with h | h
              · exact absurd h h0
              · exact h
            have e1 : (job.Limit - c).toNat = (job.Limit - (c + 1)).toNat + 1 := by omega
            simp [h0, e1]
        refine ⟨r, ?_, ?_, ?_, ?_, ?_⟩
        · simp only [pumpPage, ownedBy, hm, if_false, hown]
          rw [if_neg hhit]
          exact hr
        · rw [hsf, hh, h1]
          simp only [List.length_cons, Nat.cast_add, Nat.cast_one]
          omega
        · rw [hsf, hh, h2]; simp [emit]
        · rw [h3]; rfl
        · intro hn
          rw [h4 hn, List.getLastD_cons]
    · have hown2 : (u64 (sys.hash key) % modulos == shard) = false := by
        simpa using hown
      have hsf : shardFiles sys (key :: rest) shard modulos =
          shardFiles sys rest shard modulos := by
        have hown1 : ¬ u64 (sys.hash key) % modulos = shard := by simpa using hown
        simp [shardFiles, ownedBy, hm, hown1]
      obtain ⟨r, hr, h1, h2, h3, h4⟩ := ih c key s hc
      refine ⟨r, ?_, ?_, ?_, h3, ?_⟩
      · simp only [pumpPage, ownedBy, hm, if_false, hown2]
        exact hr
      · rw [hsf, h1]
      · rw [hsf, h2]
      · intro hn
        rw [h4 hn, List.getLastD_cons]

theorem ends_with_send (pre : List Call) (l : List String) (h : l ≠ []) :
    ∃ pre2 k, pre ++ l.map .Send = pre2 ++ [.Send k] := by
  refine ⟨pre ++ (l.dropLast).map .Send, l.getLast h, ?_⟩
  conv_lhs => rw [← List.dropLast_append_getLast h]
  simp

/-- The outer loop over the pages of a listing, from a marker behind which the keys
`rem` are listed: with fuel for every page the loop returns, its trace is made of
requests for a page and of sends, the names sent are the keys of `rem` that pass the
shard test as far as the limit allows, and when the limit is reached the last entry is
a send. -/
theorem pumpS3_pages (sys : Sys σ) (job : Job) (shard modulos : Nat) (hm : modulos ≠ 0)
    (inPath : String) (keys : List String) (ps : String → Nat)
    (hnd : keys.Nodup) (hne : "" ∉ keys) (hps : ∀ marker, 1 ≤ ps marker)
    (hlist : ∀ marker w,
      (sys.exec (.List job.Input inPath marker) w).1 = s3Page keys (ps marker) marker)
    (fuel : Nat) (done rem : List String) (marker : String) (c : Int) (s : St σ)
    (hkeys : keys = done ++ rem) (hrem : keysAfter keys marker = rem)
    (hfuel : rem.length + 1 ≤ fuel) (hc : job.Limit = 0 ∨ c < job.Limit) :
    ∃ t evs, pumpS3 sys job shard modulos inPath fuel marker c s = some t ∧
      t.trace = s.trace ++ evs ∧
      sentNames evs = honoured job c (shardFiles sys rem shard modulos) ∧
      (∀ e ∈ evs, (∃ mk, e = Call.List job.Input inPath mk) ∨ ∃ k, e = Call.Send k) ∧
      (job.Limit ≠ 0 → c + (shardFiles sys rem shard modulos).length ≥ job.Limit →
        ∃ pre k, evs = pre ++ [Call.Send k]) := by
  induction fuel generalizing done rem marker c s with
  | zero => omega
  | succ fuel ih =>
    have hreply := hlist marker s.world
    have herr : (sys.call (.List job.Input inPath marker) s).1.err = none := by
      simp [Sys.call, hreply, s3Page]
    have hnames : (sys.call (.List job.Input inPath marker) s).1.names =
        rem.take (ps marker) := by
      simp [Sys.call, hreply, s3Page, hrem]
    have hflagv : (sys.call (.List job.Input inPath marker) s).1.flag =
        decide (ps marker < rem.length) := by
      simp [Sys.call, hreply, s3Page, hrem]
    obtain ⟨r, hr, h1, h2, h3, h4⟩ := pumpPage_sends sys job shard modulos hm
      (rem.take (ps marker)) c marker (sys.call (.List job.Input inPath marker) s).2 hc
    have hsplit : shardFiles sys rem shard modulos =
        shardFiles sys (rem.take (ps marker)) shard modulos ++
          shardFiles sys (rem.drop (ps marker)) shard modulos := by
      rw [← shardFiles_append, List.take_append_drop]
    have hmem : ∀ (l : List String) (evs2 : List Call),
        (∀ e ∈ evs2, (∃ mk, e = Call.List job.Input inPath mk) ∨ ∃ k, e = Call.Send k) →
        ∀ e ∈ Call.List job.Input inPath marker :: (l.map Call.Send ++ evs2),
          (∃ mk, e = Call.List job.Input inPath mk) ∨ ∃ k, e = Call.Send k := by
      intro l evs2 h2 e he
      rcases List.mem_cons.mp he with e1 | e1
      · exact Or.inl ⟨marker, e1⟩
      · rcases List.mem_append.mp e1 with e2 | e2
        · obtain ⟨k, _, hk⟩ := List.mem_map.mp e2
          exact Or.inr ⟨k, hk.symm⟩
        · exact h2 e e2
    have htr : r.2.2.trace = s.trace ++ Call.List job.Input inPath marker ::
        ((honoured job c (shardFiles sys (rem.take (ps marker)) shard modulos)).map
          Call.Send ++ []) := by
      rw [h2]
      simp [Sys.call]
    have hsn : ∀ l : List String, ∀ evs2 : List Call,
        sentNames (Call.List job.Input inPath marker :: (l.map Call.Send ++ evs2)) =
          l ++ sentNames evs2 := by
      intro l evs2
      have : Call.List job.Input inPath marker :: (l.map Call.Send ++ evs2) =
          [Call.List job.Input inPath marker] ++ (l.map Call.Send ++ evs2) := rfl
      rw [this, sentNames_append, sentNames_append, sentNames_sends]
      rfl
    by_cases hstop : (!decide (ps marker < rem.length)) = true ∨
        (job.Limit ≠ 0 ∧ r.1 ≥ job.Limit)
    · -- the loop is left after this page
      have hres : pumpS3 sys job shard modulos inPath (fuel + 1) marker c s =
          some r.2.2 := by
        rw [pumpS3]
        simp only [herr, hnames, hr, hflagv]
        rcases hstop with hs | hs
        · rw [if_pos hs]
        · split
          · rfl
          · rfl
      have hall : honoured job c (shardFiles sys rem shard modulos) =
          honoured job c (shardFiles sys (rem.take (ps marker)) shard modulos) := by
        rcases hstop with hs | hs
        · have hle : rem.length ≤ ps marker := by simpa using hs
          rw [List.take_of_length_le hle]
        · rw [hsplit, honoured_append job c _ _ hc, if_pos ⟨hs.1, by rw [← h1]; exact hs.2⟩]
      refine ⟨r.2.2, _, hres, htr, ?_, hmem _ [] (by simp), ?_⟩
      · rw [hsn, hall]
        simp [sentNames]
      · intro h0 hge
        have hlt : c < job.Limit := by
          rcases hc with h | h
          · exact absurd h h0
          · exact h
        have hnonempty : honoured job c
            (shardFiles sys (rem.take (ps marker)) shard modulos) ≠ [] := by
          rw [← hall]
          intro e
          have hl := congrArg List.length e
          simp only [honoured, h0, if_false, List.length_take, List.length_nil] at hl
          omega
        obtain ⟨pre2, k, hk⟩ := ends_with_send [Call.List job.Input inPath marker] _ hnonempty
        exact ⟨pre2, k, by rw [← hk]; simp⟩
    · -- another page is requested
      have hflag : ps marker < rem.length := by
        by_contra hcon
        exact hstop (Or.inl (by simpa using hcon))
      have hnh : ¬ (job.Limit ≠ 0 ∧ r.1 ≥ job.Limit) := fun h => hstop (Or.inr h)
      have hres : pumpS3 sys job shard modulos inPath (fuel + 1) marker c s =
          pumpS3 sys job shard modulos inPath fuel r.2.1 r.1 r.2.2 := by
        rw [pumpS3]
        simp only [herr, hnames, hr, hflagv]
        have hf : (!decide (ps marker < rem.length)) = false := by simpa using hflag
        rw [hf]
        simp only [Bool.false_eq_true, if_false]
        rw [if_neg hnh]
      have hpage : rem.take (ps marker) ≠ [] := by
        intro e
        have hl := congrArg List.length e
        have := hps marker
        simp only [List.length_take, List.length_nil] at hl
        omega
      have hmarker : r.2.1 = (rem.take (ps marker)).getLast hpage := by
        rw [h4 hnh, List.getLastD_eq_getLast?, List.getLast?_eq_getLast _ hpage]
        rfl
      have hkeys2 : keys = (done ++ (rem.take (ps marker)).dropLast) ++
          r.2.1 :: rem.drop (ps marker) := by
        rw [hmarker, hkeys]
        conv_lhs => rw [← List.take_append_drop (ps marker) rem,
          ← List.dropLast_append_getLast hpage]
        simp
      have hin : r.2.1 ∈ keys := by
        rw [hkeys2]; simp
      have hk0 : r.2.1 ≠ "" := fun e => hne (e ▸ hin)
      have hrem2 : keysAfter keys r.2.1 = rem.drop (ps marker) := by
        have := keysAfter_split (done ++ (rem.take (ps marker)).dropLast)
          (rem.drop (ps marker)) r.2.1 (hkeys2 ▸ hnd) hk0
        rw [← hkeys2] at this
        exact this
      have hc2 : job.Limit = 0 ∨ r.1 < job.Limit := by
        by_cases h0 : job.Limit = 0
        · exact Or.inl h0
        · right
          by_contra hcon
          exact hnh ⟨h0, by omega⟩
      have hfu : (rem.drop (ps marker)).length + 1 ≤ fuel := by
        have := hps marker
        simp only [List.length_drop]
        omega
      obtain ⟨t, evs2, ht, htt, hts, hte, htl⟩ := ih (done ++ (rem.take (ps marker)).dropLast ++
        [r.2.1]) (rem.drop (ps marker)) r.2.1 r.1 r.2.2 (by rw [hkeys2]; simp) hrem2 hfu hc2
      have hall : honoured job c (shardFiles sys (rem.take (ps marker)) shard modulos) =
          shardFiles sys (rem.take (ps marker)) shard modulos :=
        honoured_all job c _ (by rw [← h1]; exact hnh)
      have hcount : r.1 = c + (shardFiles sys (rem.take (ps marker)) shard modulos).length := by
        rw [h1, hall]
      refine ⟨t, Call.List job.Input inPath marker ::
        ((honoured job c (shardFiles sys (rem.take (ps marker)) shard modulos)).map
          Call.Send ++ evs2), by rw [hres]; exact ht, ?_, ?_, hmem _ evs2 hte, ?_⟩
      · rw [htt, h2]
        simp [Sys.call]
      · rw [hsn, hts, hsplit, honoured_append job c _ _ hc, if_neg (by rw [← h1]; exact hnh),
          hall, hcount]
      · intro h0 hge
        have hge2 : r.1 + (shardFiles sys (rem.drop (ps marker)) shard modulos).length ≥
            job.Limit := by
          rw [hcount]
          rw [hsplit, List.length_append] at hge
          push_cast at hge
          omega
        obtain ⟨pre, k, hk⟩ := htl h0 hge2
        refine ⟨Call.List job.Input inPath marker ::
          ((honoured job c (shardFiles sys (rem.take (ps marker)) shard modulos)).map
            Call.Send ++ pre), k, ?_⟩
        rw [hk]
        simp

/-- C9. Let the input of the job be an S3 path whose bucket and path resolve, let the
bucket list the keys `keys` (no key twice, none empty) in pages of at least one key, each
page holding the keys after the marker and the flag `IsTruncated`, and let
`modulos ≥ 1`.  Then, with fuel for every page, `pumpFiles` returns; its trace is
`NewBucket`, `GetPath`, then requests for a page and sends, then the close of the channel,
and no line is logged.  The names sent are the keys `k` of the listing with
`HashResource(k) % modulos == shard`, in listing order, each once: all of them when
`job.Limit = 0`, and the first `min L n` of the `n` matching keys when
`job.Limit = L > 0`.  When the limit is reached the last send is followed by the close of
the channel at once: no further page is requested. -/
theorem pumpFiles_s3_pages (sys : Sys σ) (fuel : Nat) (job : Job) (m : materializeInfo)
    (shard modulos : Nat) (s : St σ) (inPath : String) (keys : List String)
    (ps : String → Nat)
    (hproto : getProtocol job.Input = ProtoS3) (hm : 1 ≤ modulos) (hlim : 0 ≤ job.Limit)
    (hbucket : (sys.exec (.NewBucket job.Input) s.world).1.err = none)
    (hpath : (sys.exec (.GetPath job.Input)
      (sys.exec (.NewBucket job.Input) s.world).2).1.err = none)
    (htext : (sys.exec (.GetPath job.Input)
      (sys.exec (.NewBucket job.Input) s.world).2).1.text = inPath)
    (hnd : keys.Nodup) (hne : "" ∉ keys) (hps : ∀ marker, 1 ≤ ps marker)
    (hlist : ∀ marker w,
      (sys.exec (.List job.Input inPath marker) w).1 = s3Page keys (ps marker) marker)
    (hfuel : keys.length + 1 ≤ fuel) :
    ∃ t evs, pumpFiles sys fuel job m shard modulos s = some t ∧
      t.trace = s.trace ++ .NewBucket job.Input :: .GetPath job.Input :: evs ++
        [.CloseChan] ∧
      (∀ e ∈ evs, (∃ mk, e = .List job.Input inPath mk) ∨ ∃ k, e = .Send k) ∧
      sentNames (t.trace.drop s.trace.length) =
        (if job.Limit = 0 then shardFiles sys keys shard modulos
          else (shardFiles sys keys shard modulos).take job.Limit.toNat) ∧
      (∀ k, k ∈ shardFiles sys keys shard modulos ↔
        k ∈ keys ∧ u64 (sys.hash k) % modulos = shard) ∧
      ((shardFiles sys keys shard modulos).take job.Limit.toNat).length =
        min job.Limit.toNat (shardFiles sys keys shard modulos).length ∧
      (sentNames (t.trace.drop s.trace.length)).Nodup ∧
      (0 < job.Limit → job.Limit.toNat ≤ (shardFiles sys keys shard modulos).length →
        ∃ pre k, t.trace = pre ++ [.Send k, .CloseChan]) := by
  have hm0 : modulos ≠ 0 := by omega
  have hc : job.Limit = 0 ∨ (0 : Int) < job.Limit := by omega
  obtain ⟨t, evs, ht, htt, hts, hte, htl⟩ := pumpS3_pages sys job shard modulos hm0 inPath
    keys ps hnd hne hps hlist fuel [] keys "" 0
    (sys.call (.GetPath job.Input) (sys.call (.NewBucket job.Input) s).2).2
    (by simp) (by simp [keysAfter]) hfuel hc
  have hrun : pumpFiles sys fuel job m shard modulos s = some (emit .CloseChan t) := by
    have hb : (sys.call (.NewBucket job.Input) s).1.err = none := hbucket
    have hp : (sys.call (.GetPath job.Input) (sys.call (.NewBucket job.Input) s).2).1.err =
        none := hpath
    have hx : (sys.call (.GetPath job.Input) (sys.call (.NewBucket job.Input) s).2).1.text =
        inPath := htext
    have hne2 : ¬ ProtoS3 = ProtoPfs := by decide
    simp only [pumpFiles, pumpBody, hproto, hne2, if_false, if_true, hb, hp, hx, ht,
      Option.map_some']
  have htrace : (emit .CloseChan t).trace =
      s.trace ++ .NewBucket job.Input :: .GetPath job.Input :: evs ++ [.CloseChan] := by
    simp [emit, htt, Sys.call]
  have hsent : sentNames ((emit .CloseChan t).trace.drop s.trace.length) =
      honoured job 0 (shardFiles sys keys shard modulos) := by
    rw [htrace]
    have : s.trace ++ Call.NewBucket job.Input :: Call.GetPath job.Input :: evs ++
        [Call.CloseChan] =
        s.trace ++ ([Call.NewBucket job.Input, Call.GetPath job.Input] ++ evs ++
          [Call.CloseChan]) := by simp
    rw [this, List.drop_left, sentNames_append, sentNames_append, hts]
    simp [sentNames]
  have hhon : honoured job 0 (shardFiles sys keys shard modulos) =
      (if job.Limit = 0 then shardFiles sys keys shard modulos
        else (shardFiles sys keys shard modulos).take job.Limit.toNat) := by
    simp [honoured]
  have hnodup : (if job.Limit = 0 then shardFiles sys keys shard modulos
      else (shardFiles sys keys shard modulos).take job.Limit.toNat).Nodup := by
    have h1 : (shardFiles sys keys shard modulos).Nodup := hnd.filter _
    split
    · exact h1
    · exact h1.sublist (List.take_sublist _ _)
  refine ⟨emit .CloseChan t, evs, hrun, htrace, hte, hsent.trans hhon, ?_, ?_, ?_, ?_⟩
  · intro k
    simp [shardFiles, ownedBy, hm0]
  · simp [List.length_take]
  · rw [hsent, hhon]
    exact hnodup
  · intro hpos hle
    obtain ⟨pre, k, hk⟩ := htl (by omega) (by omega)
    refine ⟨s.trace ++ .NewBucket job.Input :: .GetPath job.Input :: pre, k, ?_⟩
    rw [htrace, hk]
    simp

/-- C9 on the demonstration bucket, listed two keys at a time, for shard `0` of `2` and a
limit of two files: the run requests two pages, sends `in/a` and `in/d` and closes the
channel; the third page is never requested. -/
theorem pumpFiles_s3_pages_witness :
    getProtocol demoS3Job.Input = ProtoS3 ∧ 1 ≤ 2 ∧ 0 ≤ demoS3Job.Limit ∧
    (demoS3Sys.exec (.NewBucket demoS3Job.Input) ()).1.err = none ∧
    (demoS3Sys.exec (.GetPath demoS3Job.Input)
      (demoS3Sys.exec (.NewBucket demoS3Job.Input) ()).2).1.err = none ∧
    (demoS3Sys.exec (.GetPath demoS3Job.Input)
      (demoS3Sys.exec (.NewBucket demoS3Job.Input) ()).2).1.text = "in" ∧
    demoKeys.Nodup ∧ "" ∉ demoKeys ∧ (∀ _marker : String, 1 ≤ 2) ∧
    (∀ marker w,
      (demoS3Sys.exec (.List demoS3Job.Input "in" marker) w).1 = s3Page demoKeys 2 marker) ∧
    demoKeys.length + 1 ≤ 6 ∧
    pumpFiles demoS3Sys 6 demoS3Job ⟨"data", "comp", "master", "c1"⟩ 0 2 ⟨(), []⟩ =
      some ⟨(), [.NewBucket "s3://bucket/in", .GetPath "s3://bucket/in",
        .List "s3://bucket/in" "in" "", .Send "in/a",
        .List "s3://bucket/in" "in" "in/bb", .Send "in/d", .CloseChan]⟩ ∧
    ∃ t evs, pumpFiles demoS3Sys 6 demoS3Job ⟨"data", "comp", "master", "c1"⟩ 0 2
        ⟨(), []⟩ = some t ∧
      t.trace = (⟨(), []⟩ : St Unit).trace ++ .NewBucket demoS3Job.Input ::
        .GetPath demoS3Job.Input :: evs ++ [.CloseChan] ∧
      (∀ e ∈ evs, (∃ mk, e = .List demoS3Job.Input "in" mk) ∨ ∃ k, e = .Send k) ∧
      sentNames (t.trace.drop (⟨(), []⟩ : St Unit).trace.length) =
        (if demoS3Job.Limit = 0 then shardFiles demoS3Sys demoKeys 0 2
          else (shardFiles demoS3Sys demoKeys 0 2).take demoS3Job.Limit.toNat) ∧
      (∀ k, k ∈ shardFiles demoS3Sys demoKeys 0 2 ↔
        k ∈ demoKeys ∧ u64 (demoS3Sys.hash k) % 2 = 0) ∧
      ((shardFiles demoS3Sys demoKeys 0 2).take demoS3Job.Limit.toNat).length =
        min demoS3Job.Limit.toNat (shardFiles demoS3Sys demoKeys 0 2).length ∧
      (sentNames (t.trace.drop (⟨(), []⟩ : St Unit).trace.length)).Nodup ∧
      (0 < demoS3Job.Limit →
        demoS3Job.Limit.toNat ≤ (shardFiles demoS3Sys demoKeys 0 2).length →
        ∃ pre k, t.trace = pre ++ [.Send k, .CloseChan]) :=
  ⟨by rfl, by decide, by decide, by rfl, by rfl, by rfl, by decide, by decide,
    fun _ => by decide, fun _ _ => rfl, by decide, by rfl,
    pumpFiles_s3_pages demoS3Sys 6 demoS3Job ⟨"data", "comp", "master", "c1"⟩ 0 2 ⟨(), []⟩
      "in" demoKeys (fun _ => 2) (by rfl) (by decide) (by decide) (by rfl) (by rfl) (by rfl)
      (by decide) (by decide) (fun _ => (by decide : 1 ≤ 2)) (fun _ _ => rfl) (by decide)⟩

/-! ## C15: `contains` is membership on sorted input -/

theorem strLess_iff (a b : String) : strLess a b = true ↔ a < b := by
  simp [strLess, String.lt_iff_toList_lt]

theorem sorted_getElem_le (set : List String) (hs : set.Sorted (· ≤ ·)) (a b : Nat)
    (ha : a < set.length) (hb : b < set.length) (hab : a ≤ b) : set[a] ≤ set[b] := by
  have := hs.rel_get_of_le (a := ⟨a, ha⟩) (b := ⟨b, hb⟩) hab
  simpa using this

/-- The loop of the binary search keeps the keys below `i` smaller than `val` and the
keys from `j` on at least `val`, and it ends within `j - i` iterations. -/
theorem searchLoop_sorted (set : List String) (val : String) (hlen : set.length < 2 ^ 63)
    (hs : set.Sorted (· ≤ ·)) (fuel i j : Nat) (hij : i ≤ j) (hj : j ≤ set.length)
    (hfuel : j - i ≤ fuel)
    (hlow : ∀ k (hk : k < set.length), k < i → set[k] < val)
    (hhigh : ∀ k (hk : k < set.length), j ≤ k → val ≤ set[k]) :
    ∃ r, searchLoop (fun i => (set[i]?).map (fun s => !strLess s val)) fuel i j = some r ∧
      r ≤ set.length ∧ (∀ k (hk : k < set.length), k < r → set[k] < val) ∧
      (∀ k (hk : k < set.length), r ≤ k → val ≤ set[k]) := by
  induction fuel generalizing i j with
  | zero =>
    have : ¬ i < j := by omega
    have e : i = j := by omega
    subst e
    exact ⟨i, by simp [searchLoop], hj, hlow, hhigh⟩
  | succ fuel ih =>
    by_cases hlt : i < j
    · have hmid : u64 (i + j) / 2 = (i + j) / 2 := by
        unfold u64
        rw [Nat.mod_eq_of_lt (by omega)]
      have hh : (i + j) / 2 < set.length := by omega
      have hget : set[(i + j) / 2]? = some set[(i + j) / 2] := List.getElem?_eq_getElem hh
      by_cases hless : strLess set[(i + j) / 2] val = true
      · have hlt2 : set[(i + j) / 2] < val := (strLess_iff _ _).mp hless
        obtain ⟨r, hr, h1, h2, h3⟩ := ih ((i + j) / 2 + 1) j (by omega) hj (by omega)
          (fun k hk hki => lt_of_le_of_lt
            (sorted_getElem_le set hs k _ hk hh (by omega)) hlt2) hhigh
        refine ⟨r, ?_, h1, h2, h3⟩
        rw [searchLoop, if_pos hlt]
        simp only [hmid, hget, Option.map_some', hless, Bool.not_true]
        exact hr
      · have hge : val ≤ set[(i + j) / 2] := by
          rw [← not_lt]
          intro h
          exact hless ((strLess_iff _ _).mpr h)
        have hless2 : strLess set[(i + j) / 2] val = false := by simpa using hless
        obtain ⟨r, hr, h1, h2, h3⟩ := ih i ((i + j) / 2) (by omega) (by omega) (by omega)
          hlow (fun k hk hki => le_trans hge
            (sorted_getElem_le set hs _ k hh hk hki))
        refine ⟨r, ?_, h1, h2, h3⟩
        rw [searchLoop, if_pos hlt]
        simp only [hmid, hget, Option.map_some', hless2, Bool.not_false]
        exact hr
    · have e : i = j := by omega
      subst e
      exact ⟨i, by rw [searchLoop, if_neg hlt], hj, hlow, hhigh⟩

/-- C15. For every list `set` of strings sorted in ascending order (of a length a Go
slice can have) and every string `val`, the function `contains` returns without a panic
of an index out of range, and it returns `true` if and only if `val` is an element of
`set`; on the empty list it returns `false`. -/
theorem contains_sorted (set : List String) (val : String) (hlen : set.length < 2 ^ 63)
    (hs : set.Sorted (· ≤ ·)) :
    contains set val = some (decide (val ∈ set)) ∧
    (contains set val = some true ↔ val ∈ set) ∧
    contains [] val = some false := by
  obtain ⟨r, hr, h1, h2, h3⟩ := searchLoop_sorted set val hlen hs set.length 0 set.length
    (Nat.zero_le _) (le_refl _) (by omega) (fun k _ hk => absurd hk (by omega))
    (fun k hk hle => absurd hk (by omega))
  have key : contains set val = some (decide (val ∈ set)) := by
    unfold contains SearchStrings Search
    rw [hr]
    simp only []
    by_cases hrl : r < set.length
    · rw [if_pos hrl, List.getElem?_eq_getElem hrl]
      simp only [Option.map_some', Option.some.injEq]
      by_cases hmem : val ∈ set
      · obtain ⟨k, hk, hkv⟩ := List.getElem_of_mem hmem
        have hrk : r ≤ k := by
          by_contra hcon
          have := h2 k hk (by omega)
          rw [hkv] at this
          exact lt_irrefl _ this
        have hle : set[r] ≤ val := by
          rw [← hkv]
          exact sorted_getElem_le set hs r k hrl hk hrk
        have heq : set[r] = val := le_antisymm hle (h3 r hrl (le_refl _))
        simp [heq, hmem]
      · have hne : set[r] ≠ val := fun e => hmem (e ▸ List.getElem_mem hrl)
        simp [hne, hmem]
    · rw [if_neg hrl]
      have hmem : val ∉ set := by
        intro hmem
        obtain ⟨k, hk, hkv⟩ := List.getElem_of_mem hmem
        have := h2 k hk (by omega)
        rw [hkv] at this
        exact lt_irrefl _ this
      simp [hmem]
  refine ⟨key, ?_, by rfl⟩
  rw [key]
  simp

/-- C15 on a sorted list of three names. -/
theorem contains_sorted_witness :
    ["a", "b", "cc"].length < 2 ^ 63 ∧ List.Sorted (· ≤ ·) ["a", "b", "cc"] ∧
    contains ["a", "b", "cc"] "b" = some true ∧ contains ["a", "b", "cc"] "c" = some false ∧
    (contains ["a", "b", "cc"] "b" = some (decide ("b" ∈ ["a", "b", "cc"])) ∧
      (contains ["a", "b", "cc"] "b" = some true ↔ "b" ∈ ["a", "b", "cc"]) ∧
      contains [] "b" = some false) :=
  ⟨by decide, by simp [String.le_iff_toList_le]; decide, by decide, by decide,
    contains_sorted ["a", "b", "cc"] "b" (by decide)
      (by simp [String.le_iff_toList_le]; decide)⟩

/-! ## C16: `getProtocol` knows two protocols -/

theorem getProtocol_s3_iff (input : String) :
    getProtocol input = ProtoS3 ↔ "s3://".data <+: input.data := by
  unfold getProtocol trimLeading
  by_cases h : "s3://".data.isPrefixOf input.data = true
  · have hp : "s3://".data <+: input.data := List.isPrefixOf_iff_prefix.mp h
    have hne : String.mk (input.data.drop "s3://".data.length) ≠ input := by
      intro e
      have hl := congrArg (fun s => s.data.length) e
      have h5 := hp.length_le
      have h5len : "s3://".data.length = 5 := by rfl
      simp only [List.length_drop] at hl
      rw [h5len] at hl h5
      omega
    rw [if_pos h, if_pos hne]
    exact ⟨fun _ => hp, fun _ => rfl⟩
  · have hp : ¬ "s3://".data <+: input.data := fun hp => h (List.isPrefixOf_iff_prefix.mpr hp)
    rw [if_neg h]
    simp only [ne_eq, not_true_eq_false, if_false]
    exact ⟨fun e => absurd e (by decide), fun e => absurd e hp⟩

/-- A run that continues a call starts with this call. -/
theorem first_call (P : Call → Bool) (sys : Sys σ) (c : Call) (s t : St σ)
    (h : GrowsBy P (sys.call c s).2 t) : ∃ l, t.trace = s.trace ++ c :: l := by
  obtain ⟨l, hl, _⟩ := h
  exact ⟨l, by rw [hl]; simp [Sys.call]⟩

/-- Every attempt of `mapFile` begins with a call that opens the input. -/
theorem mapFileAttempt_first (sys : Sys σ) (filename jobName host : String) (job : Job)
    (m : materializeInfo) (s : St σ) :
    ∃ c l, (mapFileAttempt sys filename jobName host job m s).2.trace = s.trace ++ c :: l ∧
      (c = .Open (pathJoin [m.In, m.Commit, job.Input, filename]) ∨
        c = .NewBucket job.Input) := by
  have hproto : getProtocol job.Input = ProtoPfs ∨ getProtocol job.Input = ProtoS3 := by
    unfold getProtocol
    split
    · exact Or.inr rfl
    · exact Or.inl rfl
  unfold mapFileAttempt
  simp only []
  rcases hproto with hp | hp
  · rw [if_pos hp]
    have key : ∃ l, (if (sys.call (.Open (pathJoin [m.In, m.Commit, job.Input, filename]))
          s).1.err ≠ none then
          ((sys.call (.Open (pathJoin [m.In, m.Commit, job.Input, filename])) s).1.err,
            (sys.call (.Open (pathJoin [m.In, m.Commit, job.Input, filename])) s).2)
        else mapFilePost sys filename jobName host m
          (sys.call (.Open (pathJoin [m.In, m.Commit, job.Input, filename])) s).1.text
          (sys.call (.Open (pathJoin [m.In, m.Commit, job.Input, filename])) s).2).2.trace =
        s.trace ++ .Open (pathJoin [m.In, m.Commit, job.Input, filename]) :: l := by
      split
      · exact first_call quietLevel sys _ s _ (GrowsBy.refl _)
      · exact first_call quietLevel sys _ s _ (mapFilePost_grows _ _ _ _ _ _ _)
    obtain ⟨l, hl⟩ := key
    exact ⟨_, l, hl, Or.inl rfl⟩
  · have hn : ¬ getProtocol job.Input = ProtoPfs := by rw [hp]; decide
    rw [if_neg hn, if_pos hp]
    have key : ∃ l, (if (sys.call (.NewBucket job.Input) s).1.err ≠ none then
          ((sys.call (.NewBucket job.Input) s).1.err, (sys.call (.NewBucket job.Input) s).2)
        else if (sys.call (.GetReader job.Input filename)
            (sys.call (.NewBucket job.Input) s).2).1.nilReader = true then
          (some "Nil file returned.", (sys.call (.GetReader job.Input filename)
            (sys.call (.NewBucket job.Input) s).2).2)
        else mapFilePost sys filename jobName host m
          (sys.call (.GetReader job.Input filename)
            (sys.call (.NewBucket job.Input) s).2).1.text
          (sys.call (.GetReader job.Input filename)
            (sys.call (.NewBucket job.Input) s).2).2).2.trace =
        s.trace ++ .NewBucket job.Input :: l := by
      have hg := call_grows quietLevel sys (.GetReader job.Input filename)
        (sys.call (.NewBucket job.Input) s).2 (by rfl)
      split
      · exact first_call quietLevel sys _ s _ (GrowsBy.refl _)
      · split
        · exact first_call quietLevel sys _ s _ hg
        · exact first_call quietLevel sys _ s _
            (hg.trans (mapFilePost_grows _ _ _ _ _ _ _))
    obtain ⟨l, hl⟩ := key
    exact ⟨_, l, hl, Or.inr rfl⟩

/-- When the body of `pumpFiles` returns, its first call was the walk of the input or the
opening of the bucket. -/
theorem pumpBody_first (sys : Sys σ) (fuel : Nat) (job : Job) (m : materializeInfo)
    (shard modulos : Nat) (s t : St σ)
    (h : pumpBody sys fuel job m shard modulos s = some t) :
    ∃ c l, t.trace = s.trace ++ c :: l ∧
      (c = .LazyWalk (pathJoin [m.In, m.Commit, job.Input]) ∨ c = .NewBucket job.Input) := by
  have hproto : getProtocol job.Input = ProtoPfs ∨ getProtocol job.Input = ProtoS3 := by
    unfold getProtocol
    split
    · exact Or.inr rfl
    · exact Or.inl rfl
  unfold pumpBody at h
  simp only [] at h
  rcases hproto with hp | hp
  · rw [if_pos hp] at h
    have hw : GrowsBy quietLevel
        (sys.call (.LazyWalk (pathJoin [m.In, m.Commit, job.Input])) s).2
        (LazyWalk sys (pathJoin [m.In, m.Commit, job.Input]) (pumpVisit job) 0 s).2.2 := by
      have := walkNames_grows (pumpVisit job) (pumpVisit_grows job)
        (sys.call (.LazyWalk (pathJoin [m.In, m.Commit, job.Input])) s).1.names 0
        (sys.call (.LazyWalk (pathJoin [m.In, m.Commit, job.Input])) s).2
      unfold LazyWalk
      simp only []
      split
      · exact this
      · exact this
    have key : ∀ u, GrowsBy quietLevel
        (LazyWalk sys (pathJoin [m.In, m.Commit, job.Input]) (pumpVisit job) 0 s).2.2 u →
        ∃ c l, u.trace = s.trace ++ c :: l ∧
          (c = .LazyWalk (pathJoin [m.In, m.Commit, job.Input]) ∨
            c = .NewBucket job.Input) := by
      intro u hu
      obtain ⟨l, hl⟩ := first_call quietLevel sys _ s u (hw.trans hu)
      exact ⟨_, l, hl, Or.inl rfl⟩
    split at h
    · split at h
      · simp only [Option.some.injEq] at h
        subst h
        exact key _ (emit_grows _ _ _ (by rfl))
      · simp only [Option.some.injEq] at h
        subst h
        exact key _ (GrowsBy.refl _)
    · simp only [Option.some.injEq] at h
      subst h
      exact key _ (GrowsBy.refl _)
  · have hn : ¬ getProtocol job.Input = ProtoPfs := by rw [hp]; decide
    rw [if_neg hn, if_pos hp] at h
    have key : ∀ u, GrowsBy quietLevel (sys.call (.NewBucket job.Input) s).2 u →
        ∃ c l, u.trace = s.trace ++ c :: l ∧
          (c = .LazyWalk (pathJoin [m.In, m.Commit, job.Input]) ∨
            c = .NewBucket job.Input) := by
      intro u hu
      obtain ⟨l, hl⟩ := first_call quietLevel sys _ s u hu
      exact ⟨_, l, hl, Or.inr rfl⟩
    have hg := call_grows quietLevel sys (.GetPath job.Input)
      (sys.call (.NewBucket job.Input) s).2 (by rfl)
    split at h
    · simp only [Option.some.injEq] at h
      subst h
      exact key _ (emit_grows _ _ _ (by rfl))
    · split at h
      · simp only [Option.some.injEq] at h
        subst h
        exact key _ (hg.trans (emit_grows _ _ _ (by rfl)))
      · exact key _ (hg.trans (pumpS3_grows _ _ _ _ _ _ _ _ _ _ h))

/-- C16. The function `getProtocol` returns `ProtoS3` if and only if the input begins
with `s3://`, and `ProtoPfs` for every other input, the empty string among them; the two
values differ, so every input has exactly one protocol.  Hence the `default` branches
are dead: an attempt of `mapFile` always begins with `btrfs.Open` or with
`s3utils.NewBucket` and never is the return of `Invalid protocol.` without a call, and
the body of `pumpFiles`, when it returns, has begun with `btrfs.LazyWalk` or with
`s3utils.NewBucket` and never is the log line `Unrecognized protocol.` alone. -/
theorem getProtocol_two_protocols (input : String) (sys : Sys σ)
    (filename jobName host : String) (job : Job) (m : materializeInfo) (fuel : Nat)
    (shard modulos : Nat) (s : St σ) :
    (getProtocol input = ProtoS3 ↔ "s3://".data <+: input.data) ∧
    (getProtocol input = ProtoPfs ↔ ¬ "s3://".data <+: input.data) ∧
    (getProtocol input = ProtoPfs ∨ getProtocol input = ProtoS3) ∧
    ProtoPfs ≠ ProtoS3 ∧ getProtocol "" = ProtoPfs ∧
    (∃ c l, (mapFileAttempt sys filename jobName host job m s).2.trace = s.trace ++ c :: l ∧
      (c = .Open (pathJoin [m.In, m.Commit, job.Input, filename]) ∨
        c = .NewBucket job.Input)) ∧
    mapFileAttempt sys filename jobName host job m s ≠ (some "Invalid protocol.", s) ∧
    (∀ t, pumpBody sys fuel job m shard modulos s = some t →
      ∃ c l, t.trace = s.trace ++ c :: l ∧
        (c = .LazyWalk (pathJoin [m.In, m.Commit, job.Input]) ∨
          c = .NewBucket job.Input)) ∧
    pumpBody sys fuel job m shard modulos s ≠
      some (emit (.Log "Unrecognized protocol.") s) := by
  have h1 := getProtocol_s3_iff input
  have h2 : getProtocol input = ProtoPfs ∨ getProtocol input = ProtoS3 := by
    unfold getProtocol
    split
    · exact Or.inr rfl
    · exact Or.inl rfl
  have hne : ProtoPfs ≠ ProtoS3 := by decide
  have hfirst := mapFileAttempt_first sys filename jobName host job m s
  refine ⟨h1, ?_, h2, hne, by rfl, hfirst, ?_, pumpBody_first sys fuel job m shard modulos s,
    ?_⟩
  · rw [← h1]
    rcases h2 with h | h
    · rw [h]; simp [hne]
    · rw [h]; simp [hne.symm]
  · intro e
    obtain ⟨c, l, hl, _⟩ := hfirst
    rw [e] at hl
    have := congrArg List.length hl
    simp at this
  · intro e
    obtain ⟨c, l, hl, hc⟩ := pumpBody_first sys fuel job m shard modulos s _ e
    simp only [emit] at hl
    have hl2 := List.append_cancel_left hl
    rcases hc with hc | hc
    · rw [hc] at hl2
      simp at hl2
    · rw [hc] at hl2
      simp at hl2

/-! ## The invocations `retry` makes -/

/-- The loop of `retry` over an observed closure: the ghost does not change the run; the
invocations made are at most as many as the iterations left and at least one when an
iteration is left; they make up a run of `retry`; when all of them failed the iterations
are used up and the loop returns an error; when one succeeded the loop returns `nil`;
the loop returns what the last invocation returned, and every invocation before the last
failed. -/
theorem retryLoop_observed {κ : Type} (f : κ → St σ → Option String × κ × St σ)
    (pause n : Nat) (err : Option String) (k : κ) (l0 : List Invocation) (s : St σ) :
    ∃ obs, (retryLoop (observed f) pause n err (k, l0) s).2.1.2 = l0 ++ obs ∧
      ((retryLoop (observed f) pause n err (k, l0) s).1,
        (retryLoop (observed f) pause n err (k, l0) s).2.1.1,
        (retryLoop (observed f) pause n err (k, l0) s).2.2) = retryLoop f pause n err k s ∧
      obs.length ≤ n ∧ (0 < n → obs ≠ []) ∧
      retryChain pause s.trace err obs
        ((retryLoop f pause n err k s).1, (retryLoop f pause n err k s).2.2.trace) = true ∧
      ((∀ o ∈ obs, o.err ≠ none) →
        obs.length = n ∧ (0 < n → (retryLoop f pause n err k s).1 ≠ none)) ∧
      ((∃ o ∈ obs, o.err = none) → (retryLoop f pause n err k s).1 = none) ∧
      (∀ o, obs.getLast? = some o → (retryLoop f pause n err k s).1 = o.err) ∧
      (∀ i o, obs[i]? = some o → i + 1 < obs.length → o.err ≠ none) ∧
      (obs = [] → retryLoop f pause n err k s = (err, k, s)) := by
  induction n generalizing err k l0 s with
  | zero =>
    refine ⟨[], by simp [retryLoop], by simp [retryLoop], by simp, by simp, ?_, ?_, ?_, ?_,
      ?_, ?_⟩
    · simp [retryLoop, retryChain]
    · intro _; exact ⟨rfl, fun h => absurd h (by omega)⟩
    · rintro ⟨o, ho, _⟩; simp at ho
    · intro o ho; simp at ho
    · intro i o ho; simp at ho
    · intro _; simp [retryLoop]
  | succ n ih =>
    rcases hfk : f k s with ⟨e, k1, s1⟩
    cases e with
    | none =>
      refine ⟨[⟨s.trace, none, s1.trace⟩], ?_, ?_, by simp, by simp, ?_, ?_, ?_, ?_, ?_, ?_⟩
      · simp [retryLoop, observed, hfk]
      · simp [retryLoop, observed, hfk]
      · simp [retryLoop, retryChain, hfk]
      · intro h
        exact absurd rfl (h ⟨s.trace, none, s1.trace⟩ (by simp))
      · intro _; simp [retryLoop, hfk]
      · intro o ho
        simp only [List.getLast?_singleton, Option.some.injEq] at ho
        subst ho
        simp [retryLoop, hfk]
      · intro i o _ hi
        simp at hi
      · intro h; simp at h
    | some e =>
      obtain ⟨obs, h1, h2, h3, h4, h5, h6, h7, h8, h9, h10⟩ := ih (some e) k1
        (l0 ++ [⟨s.trace, some e, s1.trace⟩])
        (emit (.Sleep pause) (emit (.Log ("Retrying due to error: " ++ e)) s1))
      have hstep : retryLoop f pause (n + 1) err k s = retryLoop f pause n (some e) k1
          (emit (.Sleep pause) (emit (.Log ("Retrying due to error: " ++ e)) s1)) := by
        simp [retryLoop, hfk]
      have hstep2 : retryLoop (observed f) pause (n + 1) err (k, l0) s =
          retryLoop (observed f) pause n (some e) (k1, l0 ++ [⟨s.trace, some e, s1.trace⟩])
            (emit (.Sleep pause) (emit (.Log ("Retrying due to error: " ++ e)) s1)) := by
        simp [retryLoop, observed, hfk]
      refine ⟨⟨s.trace, some e, s1.trace⟩ :: obs, ?_, ?_, by simp; omega, by simp, ?_, ?_,
        ?_, ?_, ?_, ?_⟩
      · rw [hstep2, h1]; simp
      · rw [hstep2, hstep]; exact h2
      · rw [hstep]
        simp only [retryChain, beq_self_eq_true, Bool.true_and]
        have : (emit (.Sleep pause) (emit (.Log ("Retrying due to error: " ++ e)) s1)).trace =
            s1.trace ++ [.Log ("Retrying due to error: " ++ e), .Sleep pause] := by
          simp [emit]
        rw [← this]
        exact h5
      · intro hall
        have hall2 : ∀ o ∈ obs, o.err ≠ none := fun o ho => hall o (List.mem_cons_of_mem _ ho)
        obtain ⟨hl, hr⟩ := h6 hall2
        refine ⟨by simp [hl], fun _ => ?_⟩
        rw [hstep]
        by_cases hn : 0 < n
        · exact hr hn
        · have hn0 : n = 0 := by omega
          subst hn0
          simp [retryLoop]
      · rintro ⟨o, ho, hoe⟩
        rw [hstep]
        rcases List.mem_cons.mp ho with e1 | e1
        · subst e1; simp at hoe
        · exact h7 ⟨o, e1, hoe⟩
      · intro o ho
        rw [hstep]
        cases obs with
        | nil =>
          simp only [List.getLast?_singleton, Option.some.injEq] at ho
          subst ho
          rw [h10 rfl]
        | cons a rest =>
          rw [List.getLast?_cons_cons] at ho
          exact h8 o ho
      · intro i o ho hi
        cases i with
        | zero =>
          simp only [List.getElem?_cons_zero, Option.some.injEq] at ho
          subst ho
          simp
        | succ i =>
          simp only [List.getElem?_cons_succ] at ho
          simp only [List.length_cons] at hi
          exact h9 i o ho (by omega)
      · intro h; simp at h

/-! ## C17: when `retry` reports success -/

/-- C17. Watch the invocations of `f` that a call `retry(f, retries, pause)` makes (watching
does not change the call).  For `retries ≥ 1` the call returns `nil` if and only if one
of these invocations returned `nil`, and they are at least one and at most `retries`;
for `retries ≤ 0` the call returns `nil` and leaves everything as it was, without any
invocation of `f`. -/
theorem retry_nil_iff {κ : Type} (f : κ → St σ → Option String × κ × St σ) (retries : Int)
    (pause : Nat) (k : κ) (s : St σ) :
    ((retry (observed f) retries pause (k, []) s).1,
      (retry (observed f) retries pause (k, []) s).2.1.1,
      (retry (observed f) retries pause (k, []) s).2.2) = retry f retries pause k s ∧
    (1 ≤ retries →
      ((retry f retries pause k s).1 = none ↔
        ∃ o ∈ (retry (observed f) retries pause (k, []) s).2.1.2, o.err = none) ∧
      1 ≤ (retry (observed f) retries pause (k, []) s).2.1.2.length ∧
      ((retry (observed f) retries pause (k, []) s).2.1.2.length : Int) ≤ retries) ∧
    (retries ≤ 0 →
      retry f retries pause k s = (none, k, s) ∧
      (retry (observed f) retries pause (k, []) s).2.1.2 = []) := by
  obtain ⟨obs, h1, h2, h3, h4, _, h6, h7, _, _, h10⟩ :=
    retryLoop_observed f pause retries.toNat none k [] s
  have hobs : (retry (observed f) retries pause (k, []) s).2.1.2 = obs := by
    simpa [retry] using h1
  rw [hobs]
  refine ⟨h2, ?_, ?_⟩
  · intro hr
    have hpos : 0 < retries.toNat := by omega
    refine ⟨⟨fun hnil => ?_, h7⟩, ?_, by omega⟩
    · by_contra hcon
      have hall : ∀ o ∈ obs, o.err ≠ none := fun o ho he => hcon ⟨o, ho, he⟩
      exact (h6 hall).2 hpos hnil
    · have := h4 hpos
      exact List.length_pos.mpr this
  · intro hr
    have h0 : retries.toNat = 0 := by omega
    have he : obs = [] := by
      rw [h0] at h3
      exact List.length_eq_zero.mp (by omega)
    exact ⟨h10 he, he⟩

/-- C17 on a closure that fails twice and then succeeds, with a budget of five and with
an empty budget. -/
theorem retry_nil_iff_witness :
    (1 : Int) ≤ 5 ∧ (retry flaky 5 200 0 ⟨(), []⟩).1 = none ∧
    (retry (observed flaky) 5 200 (0, []) ⟨(), []⟩).2.1.2.length = 3 ∧
    (((retry flaky 5 200 0 ⟨(), []⟩).1 = none ↔
        ∃ o ∈ (retry (observed flaky) 5 200 (0, []) ⟨(), []⟩).2.1.2, o.err = none) ∧
      1 ≤ (retry (observed flaky) 5 200 (0, []) ⟨(), []⟩).2.1.2.length ∧
      ((retry (observed flaky) 5 200 (0, []) ⟨(), []⟩).2.1.2.length : Int) ≤ 5) ∧
    (0 : Int) ≤ 0 ∧
    (retry flaky 0 200 0 ⟨(), []⟩ = (none, 0, ⟨(), []⟩) ∧
      (retry (observed flaky) 0 200 (0, []) ⟨(), []⟩).2.1.2 = []) :=
  ⟨by decide, by decide, by decide,
    (retry_nil_iff flaky 5 200 0 ⟨(), []⟩).2.1 (by decide), by decide,
    (retry_nil_iff flaky 0 200 0 ⟨(), []⟩).2.2 (by decide)⟩

/-! ## C11: the attempts of `mapFile` -/

/-- C11. The budget `retries` is five.  For every closure `f`, watch the invocations a
call `retry(f, retries, pause)` makes: they are at least one and at most five; each is
entered where the run stands, one that fails is followed by the log line and by a pause
of `pause`, and one that returns no error ends the call, which then returns `nil`; every
invocation before the last failed, and the call returns what the last one returned; when
the call returns an error, every one of five invocations failed.  `mapFile` is this call
for its closure with a pause of 500 ms: it returns what `retry` returns, after logging a
final error. -/
theorem mapFile_retry_budget {κ : Type} (f : κ → St σ → Option String × κ × St σ)
    (pause : Nat) (k : κ) (s0 : St σ) (sys : Sys σ) (filename jobName host : String)
    (job : Job) (m : materializeInfo) (s : St σ) :
    retries = 5 ∧
    ((retry (observed f) retries pause (k, []) s0).1,
      (retry (observed f) retries pause (k, []) s0).2.1.1,
      (retry (observed f) retries pause (k, []) s0).2.2) = retry f retries pause k s0 ∧
    1 ≤ (retry (observed f) retries pause (k, []) s0).2.1.2.length ∧
    (retry (observed f) retries pause (k, []) s0).2.1.2.length ≤ 5 ∧
    retryChain pause s0.trace none (retry (observed f) retries pause (k, []) s0).2.1.2
      ((retry f retries pause k s0).1, (retry f retries pause k s0).2.2.trace) = true ∧
    (∀ i o, (retry (observed f) retries pause (k, []) s0).2.1.2[i]? = some o →
      i + 1 < (retry (observed f) retries pause (k, []) s0).2.1.2.length → o.err ≠ none) ∧
    (∀ o, (retry (observed f) retries pause (k, []) s0).2.1.2.getLast? = some o →
      (retry f retries pause k s0).1 = o.err) ∧
    ((retry f retries pause k s0).1 ≠ none →
      (retry (observed f) retries pause (k, []) s0).2.1.2.length = 5 ∧
      ∀ o ∈ (retry (observed f) retries pause (k, []) s0).2.1.2, o.err ≠ none) ∧
    (mapFile sys filename jobName host job m s).1 =
      (retry (fun (_ : Unit) s1 =>
        ((mapFileAttempt sys filename jobName host job m s1).1, (),
          (mapFileAttempt sys filename jobName host job m s1).2)) retries 500 () s).1 ∧
    (mapFile sys filename jobName host job m s).2.trace =
      (retry (fun (_ : Unit) s1 =>
        ((mapFileAttempt sys filename jobName host job m s1).1, (),
          (mapFileAttempt sys filename jobName host job m s1).2)) retries 500 () s).2.2.trace ++
      (match (mapFile sys filename jobName host job m s).1 with
        | some e => [.Log e]
        | none => []) := by
  obtain ⟨obs, h1, h2, h3, h4, h5, h6, h7, h8, h9, _⟩ :=
    retryLoop_observed f pause 5 none k [] s0
  have hobs : (retry (observed f) retries pause (k, []) s0).2.1.2 = obs := by
    simpa [retry, retries] using h1
  have hr : retry f retries pause k s0 = retryLoop f pause 5 none k s0 := by
    simp [retry, retries]
  have hro : retry (observed f) retries pause (k, []) s0 =
      retryLoop (observed f) pause 5 none (k, []) s0 := by
    simp [retry, retries]
  rw [hobs, hr]
  refine ⟨rfl, by rw [hro]; exact h2, List.length_pos.mpr (h4 (by omega)), h3, h5, h9, h8, ?_,
    ?_, ?_⟩
  · intro hne
    have hall : ∀ o ∈ obs, o.err ≠ none := by
      intro o ho he
      exact hne (h7 ⟨o, ho, he⟩)
    exact ⟨(h6 hall).1, hall⟩
  · unfold mapFile
    simp only []
    split
    · rename_i e he
      rw [he]
    · rename_i he
      rw [he]
  · unfold mapFile
    simp only []
    split
    · simp [emit]
    · simp

/-- C11 on the mapper that refuses every `POST`: `mapFile` opens and posts the file five
times, logs and pauses 500 ms after each failure, logs the last error and returns it. -/
theorem mapFile_retry_budget_witness :
    (mapFile postFailSys "a" "grep" "10.0.0.2" demoMap ⟨"data", "comp", "master", "c1"⟩
      ⟨demoStore, []⟩).1 = some "failed" ∧
    (mapFile postFailSys "a" "grep" "10.0.0.2" demoMap ⟨"data", "comp", "master", "c1"⟩
      ⟨demoStore, []⟩).2.trace =
      [.Open "data/c1/in/a", .Post "http://10.0.0.2/a" "",
        .Log "Retrying due to error: failed", .Sleep 500,
        .Open "data/c1/in/a", .Post "http://10.0.0.2/a" "",
        .Log "Retrying due to error: failed", .Sleep 500,
        .Open "data/c1/in/a", .Post "http://10.0.0.2/a" "",
        .Log "Retrying due to error: failed", .Sleep 500,
        .Open "data/c1/in/a", .Post "http://10.0.0.2/a" "",
        .Log "Retrying due to error: failed", .Sleep 500,
        .Open "data/c1/in/a", .Post "http://10.0.0.2/a" "",
        .Log "Retrying due to error: failed", .Sleep 500,
        .Log "failed"] ∧
    (retry refusedAttempt retries 500 () ⟨demoStore, []⟩).1 ≠ none ∧
    ((retry (observed refusedAttempt) retries 500 ((), []) ⟨demoStore, []⟩).2.1.2.length = 5 ∧
      ∀ o ∈ (retry (observed refusedAttempt) retries 500 ((), []) ⟨demoStore, []⟩).2.1.2,
        o.err ≠ none) :=
  ⟨by decide, by decide, by decide,
    (mapFile_retry_budget refusedAttempt 500 () ⟨demoStore, []⟩ postFailSys "a" "grep"
      "10.0.0.2" demoMap ⟨"data", "comp", "master", "c1"⟩ ⟨demoStore, []⟩).2.2.2.2.2.2.2.1
      (by decide)⟩

/-! ## C13: the calls one `Reduce` spends -/

theorem spends_refl (s : St σ) : Spends 0 0 s s :=
  ⟨[], by simp, by simp, by simp⟩

theorem spends_trans {a b c d : Nat} {s t u : St σ} (h1 : Spends a b s t)
    (h2 : Spends c d t u) : Spends (a + c) (b + d) s u := by
  obtain ⟨l1, e1, p1, m1⟩ := h1
  obtain ⟨l2, e2, p2, m2⟩ := h2
  refine ⟨l1 ++ l2, by rw [e2, e1, List.append_assoc], ?_, ?_⟩
  · rw [List.countP_append]; omega
  · rw [List.countP_append]; omega

theorem spends_mono {a b c d : Nat} {s t : St σ} (h : Spends a b s t) (hac : a ≤ c)
    (hbd : b ≤ d) : Spends c d s t := by
  obtain ⟨l, e, p, m⟩ := h
  exact ⟨l, e, by omega, by omega⟩

theorem spends_emit (c : Call) (s : St σ) (hp : isPost c = false)
    (hm : isMulticast c = false) : Spends 0 0 s (emit c s) :=
  ⟨[c], rfl, by simp [List.countP_cons, hp], by simp [List.countP_cons, hm]⟩

theorem spends_call (sys : Sys σ) (c : Call) (s : St σ) (hp : isPost c = false)
    (hm : isMulticast c = false) : Spends 0 0 s (sys.call c s).2 :=
  ⟨[c], rfl, by simp [List.countP_cons, hp], by simp [List.countP_cons, hm]⟩

theorem spends_post (sys : Sys σ) (url body : String) (s : St σ) :
    Spends 1 0 s (sys.call (.Post url body) s).2 :=
  ⟨[.Post url body], rfl, by simp [List.countP_cons, isPost],
    by simp [List.countP_cons, isMulticast]⟩

theorem spends_multicast (sys : Sys σ) (url key : String) (s : St σ) :
    Spends 0 1 s (sys.call (.Multicast url key) s).2 :=
  ⟨[.Multicast url key], rfl, by simp [List.countP_cons, isPost],
    by simp [List.countP_cons, isMulticast]⟩

/-- A loop of `retry` with `n` iterations left spends at most `n` times what one
invocation of its closure spends. -/
theorem spends_retryLoop {κ : Type} (f : κ → St σ → Option String × κ × St σ) (pause : Nat)
    (a b : Nat) (hf : ∀ k s, Spends a b s (f k s).2.2) (n : Nat) (err : Option String)
    (k : κ) (s : St σ) : Spends (n * a) (n * b) s (retryLoop f pause n err k s).2.2 := by
  induction n generalizing err k s with
  | zero =>
    simp only [retryLoop, Nat.zero_mul]
    exact spends_refl s
  | succ n ih =>
    have h := hf k s
    rcases hfk : f k s with ⟨e, k1, s1⟩
    rw [hfk] at h
    cases e with
    | none =>
      simp only [retryLoop, hfk]
      exact spends_mono h (by rw [Nat.succ_mul]; omega) (by rw [Nat.succ_mul]; omega)
    | some e =>
      simp only [retryLoop, hfk]
      have h2 := spends_trans (spends_trans h
        (spends_emit (.Log ("Retrying due to error: " ++ e)) s1 rfl rfl))
        (spends_emit (.Sleep pause) _ rfl rfl)
      exact spends_mono (spends_trans h2 (ih (some e) k1 _))
        (by rw [Nat.succ_mul]; omega) (by rw [Nat.succ_mul]; omega)

theorem spends_multicastAttempt (sys : Sys σ) (job : Job) (m : materializeInfo)
    (reader : String) (s : St σ) : Spends 0 1 s (multicastAttempt sys job m reader s).2.2 := by
  unfold multicastAttempt
  simp only []
  have h0 := spends_call sys
    (.NewRequest ("http://host/" ++ pathJoin [job.Input, "file", "*"] ++ "?commit=" ++
      m.Commit)) s rfl rfl
  split
  · exact spends_mono h0 (by omega) (by omega)
  · have h1 := spends_trans h0 (spends_multicast sys
      ("http://host/" ++ pathJoin [job.Input, "file", "*"] ++ "?commit=" ++ m.Commit)
      "/pfs/master" _)
    split
    · exact spends_mono h1 (by omega) (by omega)
    · exact spends_mono h1 (by omega) (by omega)

/-- One attempt of the outer `retry` of `Reduce` posts at most once and multicasts at
most five times. -/
theorem spends_reduceAttempt (sys : Sys σ) (job : Job) (m : materializeInfo) (host : String)
    (modulos : Nat) (resp : Reply) (s : St σ) :
    Spends 1 5 s (reduceAttempt sys job m host modulos resp s).2.2 := by
  unfold reduceAttempt
  simp only []
  split
  · have h0 := spends_call sys
      (.Get ("http://localhost/" ++ pathJoin [job.Input, "file", "*"] ++ "?commit=" ++
        m.Commit)) s rfl rfl
    split
    · exact spends_mono h0 (by omega) (by omega)
    · exact spends_mono (spends_trans h0 (spends_post sys _ _ _)) (by omega) (by omega)
  · have h := spends_retryLoop (multicastAttempt sys job m) 60000 0 1
      (spends_multicastAttempt sys job m) 5 none "" s
    have hr : retry (multicastAttempt sys job m) retries 60000 "" s =
        retryLoop (multicastAttempt sys job m) 60000 5 none "" s := by
      simp [retry, retries]
    rw [hr]
    split
    · exact spends_mono h (by omega) (by omega)
    · exact spends_mono (spends_trans h (spends_post sys _ _ _)) (by omega) (by omega)

theorem spends_reduceStop (sys : Sys σ) (containerId : String) (s : St σ) :
    Spends 0 0 s (reduceStop sys containerId s) := by
  unfold reduceStop
  simp only []
  have h0 := spends_call sys (.StopContainer containerId) s rfl rfl
  split
  · exact spends_mono (spends_trans h0 (spends_emit _ _ rfl rfl)) (by omega) (by omega)
  · exact h0

theorem spends_reduceBody (sys : Sys σ) (job : Job) (jobName : String) (m : materializeInfo)
    (modulos : Nat) (containerId : String) (s : St σ) :
    Spends 5 25 s (reduceBody sys job jobName m modulos containerId s) := by
  unfold reduceBody
  simp only []
  have h0 := spends_call sys (.IpAddr containerId) s rfl rfl
  split
  · exact spends_mono (spends_trans h0 (spends_emit _ _ rfl rfl)) (by omega) (by omega)
  · have hr : retry (reduceAttempt sys job m (sys.call (.IpAddr containerId) s).1.text
        modulos) retries 200 {} (sys.call (.IpAddr containerId) s).2 =
        retryLoop (reduceAttempt sys job m (sys.call (.IpAddr containerId) s).1.text
          modulos) 200 5 none {} (sys.call (.IpAddr containerId) s).2 := by
      simp [retry, retries]
    rw [hr]
    have h1 : Spends 5 25 s (retryLoop
        (reduceAttempt sys job m (sys.call (.IpAddr containerId) s).1.text modulos) 200 5
        none {} (sys.call (.IpAddr containerId) s).2).2.2 :=
      spends_mono (spends_trans h0 (spends_retryLoop _ 200 1 5
        (spends_reduceAttempt sys job m _ modulos) 5 none {} _)) (by omega) (by omega)
    split
    · exact spends_mono (spends_trans h1 (spends_emit _ _ rfl rfl)) (by omega) (by omega)
    · split
      · exact spends_mono (spends_trans h1 (spends_emit _ _ rfl rfl)) (by omega) (by omega)
      · have h2 := spends_trans h1 (spends_call sys
          (.CreateAll (pathJoin [m.Out, m.Branch, jobName])) _ rfl rfl)
        split
        · exact spends_mono (spends_trans h2 (spends_emit _ _ rfl rfl)) (by omega)
            (by omega)
        · split
          · exact spends_mono (spends_trans (spends_trans h2
              (spends_call sys _ _ (by rfl) (by rfl))) (spends_emit _ _ rfl rfl)) (by omega)
              (by omega)
          · exact spends_mono (spends_trans h2 (spends_call sys _ _ (by rfl) (by rfl)))
              (by omega) (by omega)

theorem spends_reduceGuarded (sys : Sys σ) (job : Job) (jobName : String)
    (m : materializeInfo) (modulos : Nat) (s : St σ) :
    Spends 5 25 s (reduceGuarded sys job jobName m modulos s) := by
  unfold reduceGuarded
  split
  · exact spends_mono (spends_emit _ _ rfl rfl) (by omega) (by omega)
  · simp only []
    have h0 := spends_call sys (.PullImage job.Image) s rfl rfl
    split
    · exact spends_mono (spends_trans h0 (spends_emit _ _ rfl rfl)) (by omega) (by omega)
    · have h1 := spends_trans h0 (spends_call sys (.StartContainer job.Image job.Cmd) _
        rfl rfl)
      split
      · exact spends_mono (spends_trans h1 (spends_emit _ _ rfl rfl)) (by omega) (by omega)
      · exact spends_mono (spends_trans (spends_trans h1
          (spends_reduceBody sys job jobName m modulos _ _)) (spends_reduceStop sys _ _))
          (by omega) (by omega)

set_option maxRecDepth 100000 in
/-- C13 refuted on a ring of two shards whose router fails every multicast: the one call
of `Reduce` for the job `wc` on the shard that owns it returns after 25 calls of
`route.Multicast`. -/
theorem Reduce_multicasts_25 :
    (Reduce multicastFailSys demoReduce "wc" ⟨"data", "comp", "master", "c1"⟩ 1 2
      ⟨demoStore, []⟩).map (fun t => t.trace.countP isMulticast) = some 25 := by
  decide

/-- C13 as amended.  One call of `Reduce` on a ring of more than one shard returns, and
among the calls it has made are at most 5 of `http.Post` and at most 25 of
`route.Multicast`: one attempt of the outer `retry` posts at most once and multicasts at
most 5 times, and there are at most 5 such attempts. -/
theorem Reduce_retry_budget (sys : Sys σ) (job : Job) (jobName : String)
    (m : materializeInfo) (shard modulos : Nat) (s : St σ) (resp : Reply) (host : String)
    (hm : 1 < modulos) :
    (∃ t l, Reduce sys job jobName m shard modulos s = some t ∧ t.trace = s.trace ++ l ∧
      l.countP isPost ≤ 5 ∧ l.countP isMulticast ≤ 25) ∧
    (∃ l, (reduceAttempt sys job m host modulos resp s).2.2.trace = s.trace ++ l ∧
      l.countP isPost ≤ 1 ∧ l.countP isMulticast ≤ 5) := by
  refine ⟨?_, spends_reduceAttempt sys job m host modulos resp s⟩
  have hm0 : modulos ≠ 0 := by omega
  unfold Reduce
  simp only [ownedBy, hm0, if_false]
  split
  · rename_i h; exact absurd h (by simp)
  · exact ⟨s, [], rfl, by simp, by simp, by simp⟩
  · obtain ⟨l, hl, hp, hc⟩ := spends_reduceGuarded sys job jobName m modulos s
    exact ⟨_, l, rfl, hl, hp, hc⟩

/-- C13 as amended, on the ring of two shards whose router fails every multicast. -/
theorem Reduce_retry_budget_witness :
    1 < 2 ∧
    ((∃ t l, Reduce multicastFailSys demoReduce "wc" ⟨"data", "comp", "master", "c1"⟩ 1 2
        ⟨demoStore, []⟩ = some t ∧ t.trace = (⟨demoStore, []⟩ : St Store).trace ++ l ∧
      l.countP isPost ≤ 5 ∧ l.countP isMulticast ≤ 25) ∧
    (∃ l, (reduceAttempt multicastFailSys demoReduce ⟨"data", "comp", "master", "c1"⟩
        "10.0.0.2" 2 {} ⟨demoStore, []⟩).2.2.trace = (⟨demoStore, []⟩ : St Store).trace ++ l ∧
      l.countP isPost ≤ 1 ∧ l.countP isMulticast ≤ 5)) :=
  ⟨by decide, Reduce_retry_budget multicastFailSys demoReduce "wc"
    ⟨"data", "comp", "master", "c1"⟩ 1 2 ⟨demoStore, []⟩ {} "10.0.0.2" (by decide)⟩

/-! ## C14: errors of opening the input in `mapFile` -/

/-- What an attempt of `mapFile` does with an error of opening the input: an error of
`btrfs.Open` and an error of `s3utils.NewBucket` are returned after this one call, and a
`nil` reader from `GetReader` is answered with the error `Nil file returned.` after the
two calls; the error that `GetReader` returns is not read. -/
theorem mapFileAttempt_open_error (sys : Sys σ) (filename jobName host : String) (job : Job)
    (m : materializeInfo) (s : St σ) :
    (getProtocol job.Input = ProtoPfs →
      (sys.call (.Open (pathJoin [m.In, m.Commit, job.Input, filename])) s).1.err ≠ none →
      mapFileAttempt sys filename jobName host job m s =
        ((sys.call (.Open (pathJoin [m.In, m.Commit, job.Input, filename])) s).1.err,
          (sys.call (.Open (pathJoin [m.In, m.Commit, job.Input, filename])) s).2)) ∧
    (getProtocol job.Input = ProtoS3 →
      (sys.call (.NewBucket job.Input) s).1.err ≠ none →
      mapFileAttempt sys filename jobName host job m s =
        ((sys.call (.NewBucket job.Input) s).1.err, (sys.call (.NewBucket job.Input) s).2)) ∧
    (getProtocol job.Input = ProtoS3 →
      (sys.call (.NewBucket job.Input) s).1.err = none →
      (sys.call (.GetReader job.Input filename)
        (sys.call (.NewBucket job.Input) s).2).1.nilReader = true →
      mapFileAttempt sys filename jobName host job m s =
        (some "Nil file returned.",
          (sys.call (.GetReader job.Input filename) (sys.call (.NewBucket job.Input) s).2).2)) ∧
    (getProtocol job.Input = ProtoS3 →
      (sys.call (.NewBucket job.Input) s).1.err = none →
      (sys.call (.GetReader job.Input filename)
        (sys.call (.NewBucket job.Input) s).2).1.nilReader = false →
      mapFileAttempt sys filename jobName host job m s =
        mapFilePost sys filename jobName host m
          (sys.call (.GetReader job.Input filename)
            (sys.call (.NewBucket job.Input) s).2).1.text
          (sys.call (.GetReader job.Input filename)
            (sys.call (.NewBucket job.Input) s).2).2) := by
  have hne : ¬ ProtoS3 = ProtoPfs := by decide
  refine ⟨?_, ?_, ?_, ?_⟩
  · intro hp he
    simp only [mapFileAttempt, hp, if_true, he, ne_eq, not_false_eq_true]
  · intro hp he
    simp only [mapFileAttempt, hp, hne, if_false, if_true, he, ne_eq, not_false_eq_true]
  · intro hp he hn
    simp only [mapFileAttempt, hp, hne, if_false, if_true, he, ne_eq, not_true_eq_false, hn]
  · intro hp he hn
    simp only [mapFileAttempt, hp, hne, if_false, if_true, he, ne_eq, not_true_eq_false, hn,
      Bool.false_eq_true]

/-- C14 fails on a bucket whose `GetReader` returns a reader together with an error: the
attempt of `mapFile` for the file `a` does not return an error; it posts the file to the
mapper and creates the output file `comp/master/grep/a`. -/
theorem mapFileAttempt_drops_reader_error :
    getProtocol demoS3Job.Input = ProtoS3 ∧
    (readerFailSys.exec (.GetReader "s3://bucket/in" "a") demoStore).1.err = some "failed" ∧
    (readerFailSys.exec (.GetReader "s3://bucket/in" "a") demoStore).1.nilReader = false ∧
    (mapFileAttempt readerFailSys "a" "grep" "10.0.0.2" demoS3Job
      ⟨"data", "comp", "master", "c1"⟩ ⟨demoStore, []⟩).1 = none ∧
    (mapFileAttempt readerFailSys "a" "grep" "10.0.0.2" demoS3Job
      ⟨"data", "comp", "master", "c1"⟩ ⟨demoStore, []⟩).2.trace =
      [.NewBucket "s3://bucket/in", .GetReader "s3://bucket/in" "a",
        .Post "http://10.0.0.2/a" "", .CreateAll "comp/master/grep/a",
        .Copy "comp/master/grep/a" ""] ∧
    "comp/master/grep/a" ∉ demoStore.files ∧
    "comp/master/grep/a" ∈ (mapFileAttempt readerFailSys "a" "grep" "10.0.0.2" demoS3Job
      ⟨"data", "comp", "master", "c1"⟩ ⟨demoStore, []⟩).2.world.files := by
  refine ⟨by rfl, by rfl, by rfl, by rfl, by rfl, by decide, by decide⟩

/-! ## C12: the output file of a mapping that fails -/

theorem fileKept_refl (ex : σ → Bool) (p : String) (s : St σ) : FileKept ex p s s :=
  ⟨[], by simp, by simp⟩

theorem fileKept_trans {ex : σ → Bool} {p : String} {s t u : St σ}
    (h1 : FileKept ex p s t) (h2 : FileKept ex p t u) : FileKept ex p s u := by
  obtain ⟨l1, e1, k1⟩ := h1
  obtain ⟨l2, e2, k2⟩ := h2
  refine ⟨l1 ++ l2, by rw [e2, e1, List.append_assoc], ?_⟩
  rw [k2, k1]
  constructor
  · rintro ((h | ⟨b, hb⟩) | ⟨b, hb⟩)
    · exact Or.inl h
    · exact Or.inr ⟨b, List.mem_append_left _ hb⟩
    · exact Or.inr ⟨b, List.mem_append_right _ hb⟩
  · rintro (h | ⟨b, hb⟩)
    · exact Or.inl (Or.inl h)
    · rcases List.mem_append.mp hb with h | h
      · exact Or.inl (Or.inr ⟨b, h⟩)
      · exact Or.inr ⟨b, h⟩

theorem fileKept_emit (ex : σ → Bool) (p : String) (c : Call) (s : St σ)
    (hc : ∀ body, c ≠ .Copy p body) : FileKept ex p s (emit c s) := by
  refine ⟨[c], rfl, ?_⟩
  simp only [emit, List.mem_singleton]
  constructor
  · exact fun h => Or.inl h
  · rintro (h | ⟨b, hb⟩)
    · exact h
    · exact absurd hb.symm (hc b)

theorem fileKept_call (sys : Sys σ) (ex : σ → Bool) (p : String)
    (hk : KeepsFile sys ex p) (c : Call) (s : St σ) (ha : attemptCall c = true)
    (hc : ∀ body, c ≠ .Copy p body) : FileKept ex p s (sys.call c s).2 := by
  refine ⟨[c], rfl, ?_⟩
  simp only [Sys.call, List.mem_singleton, hk.other c s.world ha]
  constructor
  · exact fun h => Or.inl h
  · rintro (h | ⟨b, hb⟩)
    · exact h
    · exact absurd hb.symm (hc b)

theorem fileKept_mapFilePost (sys : Sys σ) (ex : σ → Bool) (filename jobName host : String)
    (m : materializeInfo) (hk : KeepsFile sys ex (pathJoin [m.Out, m.Branch, jobName, filename]))
    (inFile : String) (s : St σ) :
    FileKept ex (pathJoin [m.Out, m.Branch, jobName, filename]) s
      (mapFilePost sys filename jobName host m inFile s).2 := by
  unfold mapFilePost
  simp only []
  have h0 := fileKept_call sys ex _ hk (.Post ("http://" ++ pathJoin [host, filename]) inFile)
    s rfl (fun _ => by simp)
  split
  · exact h0
  · apply fileKept_trans h0
    by_cases hcr : (sys.call (.CreateAll (pathJoin [m.Out, m.Branch, jobName, filename]))
        (sys.call (.Post ("http://" ++ pathJoin [host, filename]) inFile) s).2).1.err = none
    · have key : FileKept ex (pathJoin [m.Out, m.Branch, jobName, filename])
          (sys.call (.Post ("http://" ++ pathJoin [host, filename]) inFile) s).2
          (sys.call (.Copy (pathJoin [m.Out, m.Branch, jobName, filename])
            (sys.call (.Post ("http://" ++ pathJoin [host, filename]) inFile) s).1.text)
            (sys.call (.CreateAll (pathJoin [m.Out, m.Branch, jobName, filename]))
              (sys.call (.Post ("http://" ++ pathJoin [host, filename]) inFile) s).2).2).2 := by
        refine ⟨[.CreateAll (pathJoin [m.Out, m.Branch, jobName, filename]),
          .Copy (pathJoin [m.Out, m.Branch, jobName, filename])
            (sys.call (.Post ("http://" ++ pathJoin [host, filename]) inFile) s).1.text],
          by simp [Sys.call], ?_⟩
        have h1 := hk.created _ hcr
        have h2 := hk.other (.Copy (pathJoin [m.Out, m.Branch, jobName, filename])
          (sys.call (.Post ("http://" ++ pathJoin [host, filename]) inFile) s).1.text)
          (sys.call (.CreateAll (pathJoin [m.Out, m.Branch, jobName, filename]))
            (sys.call (.Post ("http://" ++ pathJoin [host, filename]) inFile) s).2).2.world
          rfl
        constructor
        · intro _
          exact Or.inr ⟨(sys.call (.Post ("http://" ++ pathJoin [host, filename]) inFile)
            s).1.text, by simp⟩
        · intro _
          simp only [Sys.call] at h1 h2 ⊢
          rw [h2, h1]
      rw [if_neg (by simpa using hcr)]
      split
      · exact key
      · exact key
    · rw [if_pos hcr]
      refine ⟨[.CreateAll (pathJoin [m.Out, m.Branch, jobName, filename])], rfl, ?_⟩
      have h1 := hk.failed _ hcr
      simp only [Sys.call] at h1 ⊢
      rw [h1]
      simp

theorem fileKept_mapFileAttempt (sys : Sys σ) (ex : σ → Bool)
    (filename jobName host : String) (job : Job) (m : materializeInfo)
    (hk : KeepsFile sys ex (pathJoin [m.Out, m.Branch, jobName, filename])) (s : St σ) :
    FileKept ex (pathJoin [m.Out, m.Branch, jobName, filename]) s
      (mapFileAttempt sys filename jobName host job m s).2 := by
  unfold mapFileAttempt
  simp only []
  split
  · have h0 := fileKept_call sys ex _ hk
      (.Open (pathJoin [m.In, m.Commit, job.Input, filename])) s rfl (fun _ => by simp)
    split
    · exact h0
    · exact fileKept_trans h0 (fileKept_mapFilePost sys ex _ _ _ _ hk _ _)
  · split
    · have h0 := fileKept_call sys ex _ hk (.NewBucket job.Input) s rfl (fun _ => by simp)
      split
      · exact h0
      · have h1 := fileKept_trans h0 (fileKept_call sys ex _ hk
          (.GetReader job.Input filename) _ rfl (fun _ => by simp))
        split
        · exact h1
        · exact fileKept_trans h1 (fileKept_mapFilePost sys ex _ _ _ _ hk _ _)
    · exact fileKept_refl ex _ s

theorem fileKept_retryLoop {κ : Type} (ex : σ → Bool) (p : String)
    (f : κ → St σ → Option String × κ × St σ) (pause : Nat)
    (hf : ∀ k s, FileKept ex p s (f k s).2.2) (n : Nat) (err : Option String) (k : κ)
    (s : St σ) : FileKept ex p s (retryLoop f pause n err k s).2.2 := by
  induction n generalizing err k s with
  | zero => exact fileKept_refl ex p s
  | succ n ih =>
    have h := hf k s
    rcases hfk : f k s with ⟨e, k1, s1⟩
    rw [hfk] at h
    cases e with
    | none => simpa [retryLoop, hfk] using h
    | some e =>
      simp only [retryLoop, hfk]
      exact fileKept_trans (fileKept_trans (fileKept_trans h
        (fileKept_emit ex p (.Log ("Retrying due to error: " ++ e)) s1 (fun _ => by simp)))
        (fileKept_emit ex p (.Sleep pause) _ (fun _ => by simp))) (ih (some e) k1 _)

/-- C12 refuted on a store on which every `io.Copy` fails: `mapFile` for the file `a`
returns an error, and the output file `comp/master/grep/a`, which was not there before,
exists after the call. -/
theorem mapFile_failed_leaves_file :
    (mapFile copyFailSys "a" "grep" "10.0.0.2" demoMap ⟨"data", "comp", "master", "c1"⟩
      ⟨demoStore, []⟩).1 = some "failed" ∧
    "comp/master/grep/a" ∉ demoStore.files ∧
    "comp/master/grep/a" ∈ (mapFile copyFailSys "a" "grep" "10.0.0.2" demoMap
      ⟨"data", "comp", "master", "c1"⟩ ⟨demoStore, []⟩).2.world.files := by
  refine ⟨by decide, by decide, by decide⟩

/-- C12 as amended.  On a store that keeps its files, and for an output file that did not
exist before the call: after a call of `mapFile`, failed or not, the file at
`outRepo/branch/<jobName>/<name>` exists exactly when one of the attempts has come to
`io.Copy`, that is when its `btrfs.CreateAll` has returned no error.  So a file whose
attempts all failed in opening the input, in the `POST` or in `btrfs.CreateAll` is
absent, and one with an attempt that failed in copying the response is left in place. -/
theorem mapFile_file_kept (sys : Sys σ) (ex : σ → Bool) (filename jobName host : String)
    (job : Job) (m : materializeInfo) (s : St σ)
    (hk : KeepsFile sys ex (pathJoin [m.Out, m.Branch, jobName, filename]))
    (h0 : ex s.world = false) :
    ∃ l, (mapFile sys filename jobName host job m s).2.trace = s.trace ++ l ∧
      (ex (mapFile sys filename jobName host job m s).2.world = true ↔
        ∃ body, .Copy (pathJoin [m.Out, m.Branch, jobName, filename]) body ∈ l) := by
  have hr := fileKept_retryLoop ex (pathJoin [m.Out, m.Branch, jobName, filename])
    (fun (_ : Unit) s1 =>
      ((mapFileAttempt sys filename jobName host job m s1).1, (),
        (mapFileAttempt sys filename jobName host job m s1).2)) 500
    (fun _ s1 => fileKept_mapFileAttempt sys ex filename jobName host job m hk s1) 5 none () s
  have key : FileKept ex (pathJoin [m.Out, m.Branch, jobName, filename]) s
      (mapFile sys filename jobName host job m s).2 := by
    unfold mapFile
    simp only []
    have hrr : retry (fun (_ : Unit) s1 =>
        ((mapFileAttempt sys filename jobName host job m s1).1, (),
          (mapFileAttempt sys filename jobName host job m s1).2)) retries 500 () s =
        retryLoop (fun (_ : Unit) s1 =>
          ((mapFileAttempt sys filename jobName host job m s1).1, (),
            (mapFileAttempt sys filename jobName host job m s1).2)) 500 5 none () s := by
      simp [retry, retries]
    rw [hrr]
    split
    · exact fileKept_trans hr (fileKept_emit ex _ _ _ (fun _ => by simp))
    · exact hr
  obtain ⟨l, hl, hiff⟩ := key
  refine ⟨l, hl, ?_⟩
  rw [hiff, h0]
  simp

/-- The reference store keeps its files. -/
theorem memSys_keeps (jobsPath : String) (jobs : List (String × Job)) (inputs : List String)
    (failing : Call → Bool) (p : String) :
    KeepsFile (memSys jobsPath jobs inputs failing) (fun w => decide (p ∈ w.files)) p := by
  refine ⟨?_, ?_, ?_⟩
  · intro c w h
    cases c <;> simp [attemptCall] at h <;>
      (simp only [memSys]; split <;> rfl)
  · intro w h
    simp only [memSys] at h ⊢
    split
    · rfl
    · rename_i hf
      simp [hf] at h
  · intro w h
    simp only [memSys] at h ⊢
    split
    · rename_i hf
      simp [hf] at h
    · simp

/-- C12 as amended, on the store on which every `io.Copy` fails. -/
theorem mapFile_file_kept_witness :
    KeepsFile copyFailSys (fun w => decide ("comp/master/grep/a" ∈ w.files))
      (pathJoin ["comp", "master", "grep", "a"]) ∧
    decide ("comp/master/grep/a" ∈ (⟨demoStore, []⟩ : St Store).world.files) = false ∧
    ∃ l, (mapFile copyFailSys "a" "grep" "10.0.0.2" demoMap ⟨"data", "comp", "master", "c1"⟩
        ⟨demoStore, []⟩).2.trace = (⟨demoStore, []⟩ : St Store).trace ++ l ∧
      (decide ("comp/master/grep/a" ∈ (mapFile copyFailSys "a" "grep" "10.0.0.2" demoMap
          ⟨"data", "comp", "master", "c1"⟩ ⟨demoStore, []⟩).2.world.files) = true ↔
        ∃ body, .Copy (pathJoin ["comp", "master", "grep", "a"]) body ∈ l) :=
  ⟨memSys_keeps _ _ _ _ _, by decide,
    mapFile_file_kept copyFailSys (fun w => decide ("comp/master/grep/a" ∈ w.files)) "a"
      "grep" "10.0.0.2" demoMap ⟨"data", "comp", "master", "c1"⟩ ⟨demoStore, []⟩
      (memSys_keeps _ _ _ _ _) (by decide)⟩

/-! ## Runs and their worlds -/

theorem replay_append (sys : Sys σ) (l1 l2 : List Call) (w : σ) :
    replay sys (l1 ++ l2) w = replay sys l2 (replay sys l1 w) := by
  induction l1 generalizing w with
  | nil => rfl
  | cons c l ih =>
    rw [List.cons_append]
    simp only [replay]
    exact ih _

theorem Runs.same {sys : Sys σ} {P : Call → Bool} (s : St σ) : Runs sys P s s :=
  ⟨[], by simp, by simp, rfl⟩

theorem Runs.andThen {sys : Sys σ} {P : Call → Bool} {s t u : St σ} (h1 : Runs sys P s t)
    (h2 : Runs sys P t u) : Runs sys P s u := by
  obtain ⟨l1, e1, p1, w1⟩ := h1
  obtain ⟨l2, e2, p2, w2⟩ := h2
  refine ⟨l1 ++ l2, by rw [e2, e1, List.append_assoc], ?_, by rw [w2, w1, replay_append]⟩
  intro c hc
  rcases List.mem_append.mp hc with h | h
  · exact p1 c h
  · exact p2 c h

theorem Runs.widen {sys : Sys σ} {P Q : Call → Bool} {s t : St σ} (h : Runs sys P s t)
    (hPQ : ∀ c, P c = true → Q c = true) : Runs sys Q s t := by
  obtain ⟨l, e, p, w⟩ := h
  exact ⟨l, e, fun c hc => hPQ c (p c hc), w⟩

theorem emit_runs (sys : Sys σ) (P : Call → Bool) (c : Call) (s : St σ) (h : P c = true)
    (hr : reaches c = false) : Runs sys P s (emit c s) :=
  ⟨[c], rfl, by simpa using h, by simp [replay, hr, emit]⟩

theorem call_runs (P : Call → Bool) (sys : Sys σ) (c : Call) (s : St σ) (h : P c = true)
    (hr : reaches c = true) : Runs sys P s (sys.call c s).2 :=
  ⟨[c], rfl, by simpa using h, by simp [replay, hr, Sys.call]⟩

theorem retryLoop_runs {P : Call → Bool} {κ : Type} (sys : Sys σ)
    (f : κ → St σ → Option String × κ × St σ) (pause : Nat)
    (hl : ∀ msg, P (.Log msg) = true) (hs : ∀ ms, P (.Sleep ms) = true)
    (hf : ∀ k s, Runs sys P s (f k s).2.2) (n : Nat) (err : Option String) (k : κ)
    (s : St σ) : Runs sys P s (retryLoop f pause n err k s).2.2 := by
  induction n generalizing err k s with
  | zero => exact Runs.same _
  | succ n ih =>
    have h := hf k s
    rcases hfk : f k s with ⟨e, k1, s1⟩
    rw [hfk] at h
    cases e with
    | none => simpa [retryLoop, hfk] using h
    | some e =>
      simp only [retryLoop, hfk]
      exact h.andThen (((emit_runs sys _ _ _ (hl _) rfl).andThen
        (emit_runs sys _ _ _ (hs _) rfl)).andThen (ih _ _ _))

theorem retry_runs (sys : Sys σ) (P : Call → Bool) {κ : Type}
    (f : κ → St σ → Option String × κ × St σ) (retries : Int) (pause : Nat)
    (hl : ∀ msg, P (.Log msg) = true) (hs : ∀ ms, P (.Sleep ms) = true)
    (hf : ∀ k s, Runs sys P s (f k s).2.2) (k : κ) (s : St σ) :
    Runs sys P s (retry f retries pause k s).2.2 :=
  retryLoop_runs sys f pause hl hs hf _ _ _ _
/-! ## Every function of the package runs by calls and log lines -/

theorem multicastAttempt_runs (sys : Sys σ) (job : Job) (m : materializeInfo)
    (reader : String) (s : St σ) : Runs sys jobLevel s (multicastAttempt sys job m reader s).2.2 := by
  unfold multicastAttempt
  simp only []
  split
  · exact call_runs _ _ _ _ (by rfl) (by rfl)
  · split
    · exact (call_runs _ _ _ _ (by rfl) (by rfl)).andThen (call_runs _ _ _ _ (by rfl) (by rfl))
    · exact (call_runs _ _ _ _ (by rfl) (by rfl)).andThen (call_runs _ _ _ _ (by rfl) (by rfl))

theorem reduceAttempt_runs (sys : Sys σ) (job : Job) (m : materializeInfo) (host : String)
    (modulos : Nat) (resp : Reply) (s : St σ) :
    Runs sys jobLevel s (reduceAttempt sys job m host modulos resp s).2.2 := by
  unfold reduceAttempt
  simp only []
  split
  · split
    · exact call_runs _ _ _ _ (by rfl) (by rfl)
    · exact (call_runs _ _ _ _ (by rfl) (by rfl)).andThen (call_runs _ _ _ _ (by rfl) (by rfl))
  · have h := retry_runs sys jobLevel (multicastAttempt sys job m) retries 60000
      (fun _ => rfl) (fun _ => rfl) (multicastAttempt_runs sys job m) "" s
    split
    · exact h
    · exact h.andThen (call_runs _ _ _ _ (by rfl) (by rfl))

theorem reduceStop_runs (sys : Sys σ) (containerId : String) (s : St σ) :
    Runs sys jobLevel s (reduceStop sys containerId s) := by
  unfold reduceStop
  simp only []
  split
  · exact (call_runs _ _ _ _ (by rfl) (by rfl)).andThen (emit_runs _ _ _ _ (by rfl) (by rfl))
  · exact call_runs _ _ _ _ (by rfl) (by rfl)

theorem reduceBody_runs (sys : Sys σ) (job : Job) (jobName : String) (m : materializeInfo)
    (modulos : Nat) (containerId : String) (s : St σ) :
    Runs sys jobLevel s (reduceBody sys job jobName m modulos containerId s) := by
  unfold reduceBody
  simp only []
  have h0 := call_runs jobLevel sys (.IpAddr containerId) s (by rfl) (by rfl)
  split
  · exact h0.andThen (emit_runs _ _ _ _ (by rfl) (by rfl))
  · have h1 := h0.andThen (retry_runs sys jobLevel
      (reduceAttempt sys job m (sys.call (.IpAddr containerId) s).1.text modulos) retries 200
      (fun _ => rfl) (fun _ => rfl) (reduceAttempt_runs sys job m _ modulos) {}
      (sys.call (.IpAddr containerId) s).2)
    split
    · exact h1.andThen (emit_runs _ _ _ _ (by rfl) (by rfl))
    · split
      · exact h1.andThen (emit_runs _ _ _ _ (by rfl) (by rfl))
      · apply h1.andThen
        split
        · exact (call_runs _ _ _ _ (by rfl) (by rfl)).andThen (emit_runs _ _ _ _ (by rfl) (by rfl))
        · split
          · exact ((call_runs _ _ _ _ (by rfl) (by rfl)).andThen (call_runs _ _ _ _ (by rfl) (by rfl))).andThen
              (emit_runs _ _ _ _ (by rfl) (by rfl))
          · exact (call_runs _ _ _ _ (by rfl) (by rfl)).andThen (call_runs _ _ _ _ (by rfl) (by rfl))

theorem reduceGuarded_runs (sys : Sys σ) (job : Job) (jobName : String)
    (m : materializeInfo) (modulos : Nat) (s : St σ) :
    Runs sys jobLevel s (reduceGuarded sys job jobName m modulos s) := by
  unfold reduceGuarded
  split
  · exact emit_runs _ _ _ _ (by rfl) (by rfl)
  · simp only []
    have h0 := call_runs jobLevel sys (.PullImage job.Image) s (by rfl) (by rfl)
    split
    · exact h0.andThen (emit_runs _ _ _ _ (by rfl) (by rfl))
    · apply h0.andThen
      split
      · exact (call_runs _ _ _ _ (by rfl) (by rfl)).andThen (emit_runs _ _ _ _ (by rfl) (by rfl))
      · exact ((call_runs _ _ _ _ (by rfl) (by rfl)).andThen (reduceBody_runs _ _ _ _ _ _ _)).andThen
          (reduceStop_runs _ _ _)

theorem Reduce_runs (sys : Sys σ) (job : Job) (jobName : String) (m : materializeInfo)
    (shard modulos : Nat) (s t : St σ) (h : Reduce sys job jobName m shard modulos s = some t) :
    Runs sys jobLevel s t := by
  unfold Reduce at h
  split at h
  · exact absurd h (by simp)
  · cases h; exact Runs.same _
  · cases h; exact reduceGuarded_runs _ _ _ _ _ _

theorem mapFilePost_runs (sys : Sys σ) (filename jobName host : String) (m : materializeInfo)
    (inFile : String) (s : St σ) :
    Runs sys quietLevel s (mapFilePost sys filename jobName host m inFile s).2 := by
  unfold mapFilePost
  simp only []
  have h0 := call_runs quietLevel sys (.Post ("http://" ++ pathJoin [host, filename]) inFile) s (by rfl) (by rfl)
  split
  · exact h0
  · apply h0.andThen
    split
    · exact call_runs _ _ _ _ (by rfl) (by rfl)
    · split
      · exact (call_runs _ _ _ _ (by rfl) (by rfl)).andThen (call_runs _ _ _ _ (by rfl) (by rfl))
      · exact (call_runs _ _ _ _ (by rfl) (by rfl)).andThen (call_runs _ _ _ _ (by rfl) (by rfl))

theorem mapFileAttempt_runs (sys : Sys σ) (filename jobName host : String) (job : Job)
    (m : materializeInfo) (s : St σ) :
    Runs sys quietLevel s (mapFileAttempt sys filename jobName host job m s).2 := by
  unfold mapFileAttempt
  simp only []
  split
  · split
    · exact call_runs _ _ _ _ (by rfl) (by rfl)
    · exact (call_runs _ _ _ _ (by rfl) (by rfl)).andThen (mapFilePost_runs _ _ _ _ _ _ _)
  · split
    · split
      · exact call_runs _ _ _ _ (by rfl) (by rfl)
      · split
        · exact (call_runs _ _ _ _ (by rfl) (by rfl)).andThen (call_runs _ _ _ _ (by rfl) (by rfl))
        · exact ((call_runs _ _ _ _ (by rfl) (by rfl)).andThen (call_runs _ _ _ _ (by rfl) (by rfl))).andThen
            (mapFilePost_runs _ _ _ _ _ _ _)
    · exact Runs.same _

theorem mapFile_runs (sys : Sys σ) (filename jobName host : String) (job : Job)
    (m : materializeInfo) (s : St σ) :
    Runs sys quietLevel s (mapFile sys filename jobName host job m s).2 := by
  unfold mapFile
  simp only []
  have h := retry_runs sys quietLevel (fun (_ : Unit) s1 =>
      ((mapFileAttempt sys filename jobName host job m s1).1, (),
        (mapFileAttempt sys filename jobName host job m s1).2)) retries 500
      (fun _ => rfl) (fun _ => rfl) (fun _ s1 => mapFileAttempt_runs sys filename jobName host job m s1) () s
  split
  · exact h.andThen (emit_runs _ _ _ _ (by rfl) (by rfl))
  · exact h

theorem workerRun_runs (sys : Sys σ) (job : Job) (jobName : String) (m : materializeInfo)
    (w : Worker) (s : St σ) : Runs sys jobLevel s (workerRun sys job jobName m w s) := by
  unfold workerRun
  simp only []
  have h := (mapFile_runs sys w.name jobName w.host job m s).widen quiet_job
  split
  · exact (h.andThen (emit_runs _ _ _ _ (by rfl) (by rfl))).andThen (emit_runs _ _ _ _ (by rfl) (by rfl))
  · exact h.andThen (emit_runs _ _ _ _ (by rfl) (by rfl))

theorem walkNames_runs {κ : Type} (sys : Sys σ) (visit : String → κ → St σ → Option String × κ × St σ)
    (hv : ∀ name k s, Runs sys quietLevel s (visit name k s).2.2) (names : List String) (k : κ)
    (s : St σ) : Runs sys quietLevel s (walkNames visit names k s).2.2 := by
  induction names generalizing k s with
  | nil => exact Runs.same _
  | cons name rest ih =>
    have h := hv name k s
    rcases hvk : visit name k s with ⟨e, k1, s1⟩
    rw [hvk] at h
    cases e with
    | some e => simpa [walkNames, hvk] using h
    | none =>
      simp only [walkNames, hvk]
      exact h.andThen (ih _ _)

theorem pumpVisit_runs (sys : Sys σ) (job : Job) (name : String) (fileCount : Int) (s : St σ) :
    Runs sys quietLevel s (pumpVisit job name fileCount s).2.2 := by
  unfold pumpVisit
  split
  · exact emit_runs _ _ _ _ (by rfl) (by rfl)
  · exact emit_runs _ _ _ _ (by rfl) (by rfl)

theorem LazyWalk_runs {κ : Type} (sys : Sys σ) (path : String)
    (visit : String → κ → St σ → Option String × κ × St σ)
    (hv : ∀ name k s, Runs sys quietLevel s (visit name k s).2.2) (k : κ) (s : St σ) :
    Runs sys quietLevel s (LazyWalk sys path visit k s).2.2 := by
  unfold LazyWalk
  simp only []
  have h := (call_runs quietLevel sys (.LazyWalk path) s (by rfl) (by rfl)).andThen
    (walkNames_runs sys visit hv (sys.call (.LazyWalk path) s).1.names k
      (sys.call (.LazyWalk path) s).2)
  split
  · exact h
  · exact h

theorem pumpPage_runs (sys : Sys σ) (job : Job) (shard modulos : Nat) (keys : List String)
    (fileCount : Int) (nextMarker : String) (s : St σ) (r : Int × String × St σ)
    (h : pumpPage sys job shard modulos keys fileCount nextMarker s = some r) :
    Runs sys quietLevel s r.2.2 := by
  induction keys generalizing fileCount nextMarker s with
  | nil =>
    simp only [pumpPage, Option.some.injEq] at h
    subst h
    exact Runs.same _
  | cons key rest ih =>
    unfold pumpPage at h
    split at h
    · exact absurd h (by simp)
    · split at h
      · simp only [Option.some.injEq] at h
        subst h
        exact emit_runs _ _ _ _ (by rfl) (by rfl)
      · exact (emit_runs _ _ _ _ (by rfl) (by rfl)).andThen (ih _ _ _ h)
    · exact ih _ _ _ h

theorem pumpS3_runs (sys : Sys σ) (job : Job) (shard modulos : Nat) (inPath : String)
    (fuel : Nat) (nextMarker : String) (fileCount : Int) (s t : St σ)
    (h : pumpS3 sys job shard modulos inPath fuel nextMarker fileCount s = some t) :
    Runs sys quietLevel s t := by
  induction fuel generalizing nextMarker fileCount s with
  | zero => exact absurd h (by simp [pumpS3])
  | succ fuel ih =>
    unfold pumpS3 at h
    simp only [] at h
    have h0 := call_runs quietLevel sys (.List job.Input inPath nextMarker) s (by rfl) (by rfl)
    split at h
    · simp only [Option.some.injEq] at h
      subst h
      exact h0.andThen (emit_runs _ _ _ _ (by rfl) (by rfl))
    · split at h
      · exact absurd h (by simp)
      · rename_i c mk s1 hp
        have h1 := h0.andThen (pumpPage_runs _ _ _ _ _ _ _ _ _ hp)
        split at h
        · simp only [Option.some.injEq] at h
          subst h
          exact h1
        · split at h
          · simp only [Option.some.injEq] at h
            subst h
            exact h1
          · exact h1.andThen (ih _ _ _ h)

theorem pumpBody_runs (sys : Sys σ) (fuel : Nat) (job : Job) (m : materializeInfo)
    (shard modulos : Nat) (s t : St σ)
    (h : pumpBody sys fuel job m shard modulos s = some t) : Runs sys quietLevel s t := by
  unfold pumpBody at h
  simp only [] at h
  split at h
  · have hw := LazyWalk_runs sys (pathJoin [m.In, m.Commit, job.Input]) (pumpVisit job)
      (pumpVisit_runs sys job) 0 s
    split at h
    · split at h
      · simp only [Option.some.injEq] at h
        subst h
        exact hw.andThen (emit_runs _ _ _ _ (by rfl) (by rfl))
      · simp only [Option.some.injEq] at h
        subst h
        exact hw
    · simp only [Option.some.injEq] at h
      subst h
      exact hw
  · split at h
    · have h0 := call_runs quietLevel sys (.NewBucket job.Input) s (by rfl) (by rfl)
      split at h
      · simp only [Option.some.injEq] at h
        subst h
        exact h0.andThen (emit_runs _ _ _ _ (by rfl) (by rfl))
      · have h1 := h0.andThen (call_runs _ sys (.GetPath job.Input)
          (sys.call (.NewBucket job.Input) s).2 (by rfl) (by rfl))
        split at h
        · simp only [Option.some.injEq] at h
          subst h
          exact h1.andThen (emit_runs _ _ _ _ (by rfl) (by rfl))
        · exact h1.andThen (pumpS3_runs _ _ _ _ _ _ _ _ _ _ h)
    · simp only [Option.some.injEq] at h
      subst h
      exact emit_runs _ _ _ _ (by rfl) (by rfl)

theorem pumpFiles_runs (sys : Sys σ) (fuel : Nat) (job : Job) (m : materializeInfo)
    (shard modulos : Nat) (s t : St σ)
    (h : pumpFiles sys fuel job m shard modulos s = some t) : Runs sys quietLevel s t := by
  unfold pumpFiles at h
  cases hb : pumpBody sys fuel job m shard modulos s with
  | none => simp [hb] at h
  | some b =>
    simp only [hb, Option.map_some', Option.some.injEq] at h
    subst h
    exact (pumpBody_runs _ _ _ _ _ _ _ _ hb).andThen (emit_runs _ _ _ _ (by rfl) (by rfl))

theorem mapMain_runs (sys : Sys σ) (fuel upm : Nat) (job : Job) (jobName : String)
    (m : materializeInfo) (shard modulos : Nat) (cfg : MapCfg σ) :
    Runs sys jobLevel cfg.st (mapMain sys fuel upm job jobName m shard modulos cfg).st := by
  unfold mapMain
  split
  · simp only [PrepJob, MapCfg.fail]
    have h0 := call_runs jobLevel sys (.MkdirAll (pathJoin [m.Out, m.Branch, pathBase jobName]))
      cfg.st (by rfl) (by rfl)
    split
    · exact h0.andThen (emit_runs _ _ _ _ (by rfl) (by rfl))
    · split
      · exact h0.andThen (emit_runs _ _ _ _ (by rfl) (by rfl))
      · split
        · exact Runs.same _
        · rename_i pumped hp
          have h1 := h0.andThen ((pumpFiles_runs _ _ _ _ _ _ _ _ hp).widen quiet_job)
          split
          · exact (h1.andThen (call_runs _ _ _ _ (by rfl) (by rfl))).andThen (emit_runs _ _ _ _ (by rfl) (by rfl))
          · exact h1.andThen (call_runs _ _ _ _ (by rfl) (by rfl))
  · simp only [MapCfg.fail]
    have h0 := call_runs jobLevel sys (.StartContainer job.Image job.Cmd) cfg.st (by rfl) (by rfl)
    split
    · exact h0.andThen (emit_runs _ _ _ _ (by rfl) (by rfl))
    · split
      · exact (h0.andThen (call_runs _ _ _ _ (by rfl) (by rfl))).andThen (emit_runs _ _ _ _ (by rfl) (by rfl))
      · exact h0.andThen (call_runs _ _ _ _ (by rfl) (by rfl))
  · split
    · exact Runs.same _
    · split
      · exact emit_runs _ _ _ _ (by rfl) (by rfl)
      · exact Runs.same _
  · split
    · split
      · exact Runs.same _
      · exact Runs.same _
    · simp only [MapCfg.fail]
      split
      · exact (call_runs _ _ _ _ (by rfl) (by rfl)).andThen (emit_runs _ _ _ _ (by rfl) (by rfl))
      · exact call_runs _ _ _ _ (by rfl) (by rfl)
  · exact Runs.same _

theorem mapWorker_runs (sys : Sys σ) (job : Job) (jobName : String) (m : materializeInfo)
    (cfg : MapCfg σ) (k : Nat) : Runs sys jobLevel cfg.st (mapWorker sys job jobName m cfg k).st := by
  unfold mapWorker
  split
  · exact Runs.same _
  · split
    · exact workerRun_runs _ _ _ _ _ _
    · split
      · split
        · split
          · exact Runs.same _
          · exact Runs.same _
        · exact Runs.same _
      · exact Runs.same _

theorem mapStep_runs (sys : Sys σ) (fuel upm : Nat) (job : Job) (jobName : String)
    (m : materializeInfo) (shard modulos : Nat) (cfg : MapCfg σ) (tid : Nat) :
    Runs sys jobLevel cfg.st (mapStep sys fuel upm job jobName m shard modulos cfg tid).st := by
  cases tid with
  | zero => exact mapMain_runs _ _ _ _ _ _ _ _ _
  | succ k => exact mapWorker_runs _ _ _ _ _ _

theorem foldl_mapStep_runs (sys : Sys σ) (fuel upm : Nat) (job : Job) (jobName : String)
    (m : materializeInfo) (shard modulos : Nat) (sched : List Nat) (cfg : MapCfg σ) :
    Runs sys jobLevel cfg.st (sched.foldl (mapStep sys fuel upm job jobName m shard modulos) cfg).st := by
  induction sched generalizing cfg with
  | nil => exact Runs.same _
  | cons tid rest ih =>
    exact (mapStep_runs _ _ _ _ _ _ _ _ _ _).andThen (ih _)

theorem Map_runs (sys : Sys σ) (fuel : Nat) (sched : List Nat) (job : Job)
    (jobName : String) (m : materializeInfo) (shard modulos : Nat) (s t : St σ)
    (h : Map sys fuel sched job jobName m shard modulos s = some t) : Runs sys jobLevel s t := by
  unfold Map at h
  simp only [] at h
  split at h
  · simp only [Option.some.injEq] at h
    subst h
    exact foldl_mapStep_runs _ _ _ _ _ _ _ _ _ _
  · exact absurd h (by simp)

theorem jobBody_runs (sys : Sys σ) (fuel : Nat) (inner : List Nat) (jobsPath name : String)
    (m : materializeInfo) (shard modulos : Nat) (s t : St σ)
    (h : jobBody sys fuel inner jobsPath name m shard modulos s = some t) : Runs sys jobLevel s t := by
  unfold jobBody at h
  simp only [] at h
  have h0 := call_runs jobLevel sys (.Open (pathJoin [jobsPath, name])) s (by rfl) (by rfl)
  split at h
  · simp only [Option.some.injEq] at h
    subst h
    exact h0.andThen (emit_runs _ _ _ _ (by rfl) (by rfl))
  · have h1 := h0.andThen (call_runs _ sys (.Decode (pathJoin [jobsPath, name]))
      (sys.call (.Open (pathJoin [jobsPath, name])) s).2 (by rfl) (by rfl))
    split at h
    · simp only [Option.some.injEq] at h
      subst h
      exact h1.andThen (emit_runs _ _ _ _ (by rfl) (by rfl))
    · split at h
      · exact h1.andThen (Map_runs _ _ _ _ _ _ _ _ _ _ h)
      · split at h
        · exact h1.andThen (Reduce_runs _ _ _ _ _ _ _ _ h)
        · simp only [Option.some.injEq] at h
          subst h
          exact h1.andThen (emit_runs _ _ _ _ (by rfl) (by rfl))
/-! ## The world of a run of `Materialize` -/

theorem tracks_refl (sys : Sys σ) (A : Call → Prop) (s : St σ) : Tracks sys A s s :=
  ⟨[], by simp, by simp, rfl⟩

theorem tracks_trans {sys : Sys σ} {A : Call → Prop} {s t u : St σ}
    (h1 : Tracks sys A s t) (h2 : Tracks sys A t u) : Tracks sys A s u := by
  obtain ⟨l1, e1, p1, w1⟩ := h1
  obtain ⟨l2, e2, p2, w2⟩ := h2
  refine ⟨l1 ++ l2, by rw [e2, e1, List.append_assoc], ?_, by rw [w2, w1, replay_append]⟩
  intro c hc
  rcases List.mem_append.mp hc with h | h
  · exact p1 c h
  · exact p2 c h

theorem tracks_of_runs {sys : Sys σ} {P : Call → Bool} {A : Call → Prop} {s t : St σ}
    (h : Runs sys P s t) (hPA : ∀ c, P c = true → A c) : Tracks sys A s t := by
  obtain ⟨l, e, p, w⟩ := h
  exact ⟨l, e, fun c hc => hPA c (p c hc), w⟩

theorem tracks_emit (sys : Sys σ) (A : Call → Prop) (c : Call) (s : St σ) (h : A c)
    (hr : reaches c = false) : Tracks sys A s (emit c s) :=
  ⟨[c], rfl, by simpa using h, by simp [replay, hr, emit]⟩

theorem tracks_call (sys : Sys σ) (A : Call → Prop) (c : Call) (s : St σ) (h : A c)
    (hr : reaches c = true) : Tracks sys A s (sys.call c s).2 :=
  ⟨[c], rfl, by simpa using h, by simp [replay, hr, Sys.call]⟩

theorem jobLevel_allowed (outRepo branch commit : String) (listing : List String) (c : Call)
    (h : jobLevel c = true) : allowed outRepo branch commit listing c := by
  cases c <;> simp_all [jobLevel, allowed]

theorem createMarker_tracks (sys : Sys σ) (outRepo branch commit name : String)
    (listing : List String) (hn : name ∈ listing) (s : St σ) :
    Tracks sys (allowed outRepo branch commit listing) s
      (createMarker sys outRepo branch commit name s) := by
  unfold createMarker
  simp only []
  have h0 := tracks_call sys (allowed outRepo branch commit listing)
    (.Create (pathJoin [outRepo, branch, ".progress", commit, name])) s ⟨name, hn, rfl⟩ rfl
  split
  · exact tracks_trans h0 (tracks_emit sys _ _ _ trivial rfl)
  · exact h0

theorem matSetup_tracks (sys : Sys σ) (branch commit outRepo : String)
    (listing : List String) (s : St σ) :
    Tracks sys (allowed outRepo branch commit listing) s
      (matSetup sys branch commit outRepo s).2 := by
  unfold matSetup
  simp only []
  have h0 := tracks_call sys (allowed outRepo branch commit listing)
    (.FileExists (pathJoin [outRepo, branch])) s trivial rfl
  split
  · exact h0
  · by_cases hf : (sys.call (.FileExists (pathJoin [outRepo, branch])) s).1.flag = true
    · simp only [hf, Bool.not_true, Bool.false_eq_true, if_false]
      exact tracks_trans h0 (tracks_call sys _ _ _ trivial rfl)
    · simp only [hf, Bool.not_false, if_true]
      have h1 := tracks_trans h0 (tracks_call sys (allowed outRepo branch commit listing)
        (.Branch outRepo "" branch) _ ⟨rfl, rfl⟩ rfl)
      split
      · exact h1
      · exact tracks_trans h1 (tracks_call sys _ _ _ trivial rfl)

theorem matMain_recorded (sys : Sys σ) (in_repo branch commit outRepo jobDir : String)
    (listing : List String) (w0 : σ)
    (hnames : ∀ p w, ∀ n ∈ (sys.exec (.ReadDir p) w).1.names, n ∈ listing)
    (cfg : MatCfg σ) (inv : Recorded sys outRepo branch commit listing w0 cfg) :
    Recorded sys outRepo branch commit listing w0
      (matMain sys in_repo branch commit outRepo jobDir cfg) := by
  have hsetup := tracks_trans inv.run
    (matSetup_tracks sys branch commit outRepo listing cfg.st)
  have hex := tracks_trans hsetup (tracks_call sys (allowed outRepo branch commit listing)
    (.FileExists (pathJoin [in_repo, commit, jobDir]))
    (matSetup sys branch commit outRepo cfg.st).2 trivial rfl)
  have hrd := tracks_trans hex (tracks_call sys (allowed outRepo branch commit listing)
    (.ReadDir (pathJoin [in_repo, commit, jobDir]))
    (sys.call (.FileExists (pathJoin [in_repo, commit, jobDir]))
      (matSetup sys branch commit outRepo cfg.st).2).2 trivial rfl)
  unfold matMain
  split
  · -- the first statements
    simp only []
    split
    · exact ⟨hsetup, inv.listed, fun rest h => by simp at h⟩
    · split
      · exact ⟨hex, inv.listed, fun rest h => by simp at h⟩
      · split
        · exact ⟨hex, inv.listed, fun rest h => by simp at h⟩
        · split
          · exact ⟨hrd, inv.listed, fun rest h => by simp at h⟩
          · refine ⟨hrd, inv.listed, fun rest h => ?_⟩
            simp only [MatPc.spawn.injEq] at h
            subst h
            intro n hn
            exact hnames _ _ n (by simpa [Sys.call] using hn)
  · exact ⟨inv.run, inv.listed, fun rest h => by simp at h⟩
  · rename_i name rest hpc
    refine ⟨tracks_trans inv.run (tracks_emit sys _ _ _ trivial rfl), ?_, ?_⟩
    · intro t ht
      rcases List.mem_append.mp ht with h | h
      · exact inv.listed t h
      · simp only [List.mem_singleton] at h
        subst h
        exact inv.waiting _ hpc name (by simp)
    · intro rest2 h
      simp only [MatPc.spawn.injEq] at h
      subst h
      intro n hn
      exact inv.waiting _ hpc n (List.mem_cons_of_mem _ hn)
  · split
    · exact ⟨tracks_trans inv.run (tracks_emit sys _ _ _ trivial rfl), inv.listed,
        fun rest h => by simp at h⟩
    · exact inv
  · simp only []
    have hc := tracks_trans inv.run (tracks_call sys (allowed outRepo branch commit listing)
      (.Commit outRepo commit branch) cfg.st ⟨rfl, rfl⟩ rfl)
    split
    · exact ⟨tracks_trans hc (tracks_emit sys _ _ _ trivial rfl), inv.listed,
        fun rest h => by simp at h⟩
    · exact ⟨hc, inv.listed, fun rest h => by simp at h⟩
  · exact inv

theorem matTask_recorded (sys : Sys σ) (fuel : Nat) (inner : Nat → List Nat)
    (in_repo branch commit outRepo jobDir : String) (shard modulos : Nat)
    (listing : List String) (w0 : σ) (cfg : MatCfg σ) (k : Nat)
    (inv : Recorded sys outRepo branch commit listing w0 cfg) :
    Recorded sys outRepo branch commit listing w0
      (matTask sys fuel inner in_repo branch commit outRepo jobDir shard modulos cfg k) := by
  have hset : ∀ (t : Task) (pc : TaskPc), t ∈ cfg.tasks →
      ∀ u ∈ cfg.tasks.set k { t with pc := pc }, u.name ∈ listing := by
    intro t pc ht u hu
    rcases List.mem_or_eq_of_mem_set hu with h | h
    · exact inv.listed u h
    · subst h
      exact inv.listed t ht
  unfold matTask
  split
  · exact inv
  · rename_i t ht
    have hmem : t ∈ cfg.tasks := mem_of_getElem? _ _ _ ht
    split
    · split
      · exact inv
      · rename_i s hb
        have hrun := tracks_of_runs (jobBody_runs _ _ _ _ _ _ _ _ _ _ hb)
          (jobLevel_allowed outRepo branch commit listing)
        exact ⟨tracks_trans (tracks_trans inv.run hrun) (tracks_emit sys _ _ _ trivial rfl),
          hset t _ hmem, fun rest h => inv.waiting rest h⟩
    · exact ⟨tracks_trans inv.run (tracks_emit sys _ _ _ trivial rfl), hset t _ hmem,
        fun rest h => inv.waiting rest h⟩
    · exact ⟨tracks_trans inv.run
        (createMarker_tracks sys outRepo branch commit t.name listing (inv.listed t hmem) _),
        hset t _ hmem, fun rest h => inv.waiting rest h⟩
    · exact inv

/-- Under every schedule, a run of `Materialize` is made of allowed calls and its world
is the replay of its trace. -/
theorem Materialize_recorded (sys : Sys σ) (fuel : Nat) (inner : Nat → List Nat)
    (in_repo branch commit outRepo jobDir : String) (shard modulos : Nat)
    (listing : List String)
    (hnames : ∀ p w, ∀ n ∈ (sys.exec (.ReadDir p) w).1.names, n ∈ listing)
    (sched : List Nat) (w : σ) :
    Recorded sys outRepo branch commit listing w
      (Materialize sys fuel inner in_repo branch commit outRepo jobDir shard modulos sched
        w) := by
  unfold Materialize
  have gen : ∀ (sched : List Nat) (cfg : MatCfg σ),
      Recorded sys outRepo branch commit listing w cfg →
      Recorded sys outRepo branch commit listing w
        (sched.foldl
          (matStep sys fuel inner in_repo branch commit outRepo jobDir shard modulos) cfg) := by
    intro sched
    induction sched with
    | nil => exact fun cfg h => h
    | cons tid rest ih =>
      intro cfg h
      apply ih
      cases tid with
      | zero =>
        exact matMain_recorded sys in_repo branch commit outRepo jobDir listing w hnames
          cfg h
      | succ k =>
        exact matTask_recorded sys fuel inner in_repo branch commit outRepo jobDir shard
          modulos listing w cfg k h
  apply gen
  exact ⟨tracks_refl sys _ _, fun t ht => by simp [matInit] at ht,
    fun rest h => by simp [matInit] at h⟩
/-! ## The reference store under a replay -/

/-- One call on the reference store removes no path, adds at most the path it creates,
and adds at most the commit it makes, which then was not there. -/
theorem memSys_step (jobsPath : String) (jobs : List (String × Job)) (inputs : List String)
    (failing : Call → Bool) (c : Call) (w : Store) :
    (∀ q ∈ w.files, q ∈ ((memSys jobsPath jobs inputs failing).exec c w).2.files) ∧
    (∀ q ∈ ((memSys jobsPath jobs inputs failing).exec c w).2.files, q ∈ w.files ∨
      (∃ r f n, c = .Branch r f n ∧ q = pathJoin [r, n]) ∨ c = .MkdirAll q ∨
        c = .Create q ∨ c = .CreateAll q) ∧
    (((memSys jobsPath jobs inputs failing).exec c w).2.commits = w.commits ∨
      ∃ r i b, c = .Commit r i b ∧ (r, i) ∉ w.commits) := by
  have same : ((memSys jobsPath jobs inputs failing).exec c w).2 = w →
      (∀ q ∈ w.files, q ∈ ((memSys jobsPath jobs inputs failing).exec c w).2.files) ∧
      (∀ q ∈ ((memSys jobsPath jobs inputs failing).exec c w).2.files, q ∈ w.files ∨
        (∃ r f n, c = .Branch r f n ∧ q = pathJoin [r, n]) ∨ c = .MkdirAll q ∨
          c = .Create q ∨ c = .CreateAll q) ∧
      (((memSys jobsPath jobs inputs failing).exec c w).2.commits = w.commits ∨
        ∃ r i b, c = .Commit r i b ∧ (r, i) ∉ w.commits) := by
    intro hw
    rw [hw]
    exact ⟨fun q h => h, fun q h => Or.inl h, Or.inl rfl⟩
  have grown : ∀ p : String,
      ((memSys jobsPath jobs inputs failing).exec c w).2 =
        { w with files := w.files.insert p } →
      ((∃ r f n, c = .Branch r f n ∧ p = pathJoin [r, n]) ∨ c = .MkdirAll p ∨
        c = .Create p ∨ c = .CreateAll p) →
      (∀ q ∈ w.files, q ∈ ((memSys jobsPath jobs inputs failing).exec c w).2.files) ∧
      (∀ q ∈ ((memSys jobsPath jobs inputs failing).exec c w).2.files, q ∈ w.files ∨
        (∃ r f n, c = .Branch r f n ∧ q = pathJoin [r, n]) ∨ c = .MkdirAll q ∨
          c = .Create q ∨ c = .CreateAll q) ∧
      (((memSys jobsPath jobs inputs failing).exec c w).2.commits = w.commits ∨
        ∃ r i b, c = .Commit r i b ∧ (r, i) ∉ w.commits) := by
    intro p hw hc
    rw [hw]
    refine ⟨fun q h => List.mem_insert_iff.mpr (Or.inr h), fun q h => ?_, Or.inl rfl⟩
    rcases List.mem_insert_iff.mp h with e | e
    · subst e
      exact Or.inr hc
    · exact Or.inl e
  by_cases hf : failing c = true
  · exact same (by simp [memSys, hf])
  · cases c with
    | Branch r f n =>
      exact grown _ (by simp [memSys, hf]) (Or.inl ⟨r, f, n, rfl, rfl⟩)
    | MkdirAll p => exact grown p (by simp [memSys, hf]) (Or.inr (Or.inl rfl))
    | Create p => exact grown p (by simp [memSys, hf]) (Or.inr (Or.inr (Or.inl rfl)))
    | CreateAll p => exact grown p (by simp [memSys, hf]) (Or.inr (Or.inr (Or.inr rfl)))
    | Commit r i b =>
      by_cases hin : (r, i) ∈ w.commits
      · exact same (by simp [memSys, hf, hin])
      · have hw : ((memSys jobsPath jobs inputs failing).exec (.Commit r i b) w).2 =
            { w with commits := (r, i) :: w.commits } := by
          simp [memSys, hf, hin]
        rw [hw]
        exact ⟨fun q h => h, fun q h => Or.inl h, Or.inr ⟨r, i, b, rfl, hin⟩⟩
    | ReadDir p =>
      apply same
      simp only [memSys, hf, Bool.false_eq_true, if_false]
      split <;> rfl
    | Decode p =>
      apply same
      simp only [memSys, hf, Bool.false_eq_true, if_false]
      split <;> rfl
    | _ => exact same (by simp [memSys, hf])

/-- A replay on the reference store removes no path, adds at most the paths its calls
create, and leaves the commits as they are unless one of its calls commits an id that was
not there. -/
theorem memSys_replay (jobsPath : String) (jobs : List (String × Job))
    (inputs : List String) (failing : Call → Bool) (l : List Call) (w : Store) :
    (∀ q ∈ w.files, q ∈ (replay (memSys jobsPath jobs inputs failing) l w).files) ∧
    (∀ q ∈ (replay (memSys jobsPath jobs inputs failing) l w).files, q ∈ w.files ∨
      (∃ r f n, .Branch r f n ∈ l ∧ q = pathJoin [r, n]) ∨ .MkdirAll q ∈ l ∨
        .Create q ∈ l ∨ .CreateAll q ∈ l) ∧
    ((replay (memSys jobsPath jobs inputs failing) l w).commits = w.commits ∨
      ∃ r i b, .Commit r i b ∈ l ∧ (r, i) ∉ w.commits) := by
  induction l generalizing w with
  | nil => exact ⟨fun q h => h, fun q h => Or.inl h, Or.inl rfl⟩
  | cons c l ih =>
    have step : ∀ w1 : Store,
        (∀ q ∈ w.files, q ∈ w1.files) →
        (∀ q ∈ w1.files, q ∈ w.files ∨
          (∃ r f n, c = .Branch r f n ∧ q = pathJoin [r, n]) ∨ c = .MkdirAll q ∨
            c = .Create q ∨ c = .CreateAll q) →
        (w1.commits = w.commits ∨ ∃ r i b, c = .Commit r i b ∧ (r, i) ∉ w.commits) →
        (∀ q ∈ w.files, q ∈ (replay (memSys jobsPath jobs inputs failing) l w1).files) ∧
        (∀ q ∈ (replay (memSys jobsPath jobs inputs failing) l w1).files, q ∈ w.files ∨
          (∃ r f n, .Branch r f n ∈ c :: l ∧ q = pathJoin [r, n]) ∨ .MkdirAll q ∈ c :: l ∨
            .Create q ∈ c :: l ∨ .CreateAll q ∈ c :: l) ∧
        ((replay (memSys jobsPath jobs inputs failing) l w1).commits = w.commits ∨
          ∃ r i b, .Commit r i b ∈ c :: l ∧ (r, i) ∉ w.commits) := by
      intro w1 s1 s2 s3
      obtain ⟨i1, i2, i3⟩ := ih w1
      refine ⟨fun q h => i1 q (s1 q h), fun q h => ?_, ?_⟩
      · rcases i2 q h with e | ⟨r, f, n, e, eq⟩ | e | e | e
        · rcases s2 q e with e | ⟨r, f, n, e, eq⟩ | e | e | e
          · exact Or.inl e
          · exact Or.inr (Or.inl ⟨r, f, n, by rw [e]; simp, eq⟩)
          · exact Or.inr (Or.inr (Or.inl (by rw [e]; simp)))
          · exact Or.inr (Or.inr (Or.inr (Or.inl (by rw [e]; simp))))
          · exact Or.inr (Or.inr (Or.inr (Or.inr (by rw [e]; simp))))
        · exact Or.inr (Or.inl ⟨r, f, n, List.mem_cons_of_mem _ e, eq⟩)
        · exact Or.inr (Or.inr (Or.inl (List.mem_cons_of_mem _ e)))
        · exact Or.inr (Or.inr (Or.inr (Or.inl (List.mem_cons_of_mem _ e))))
        · exact Or.inr (Or.inr (Or.inr (Or.inr (List.mem_cons_of_mem _ e))))
      · rcases s3 with e | ⟨r, i, b, e, hni⟩
        · rcases i3 with e2 | ⟨r, i, b, e2, hni⟩
          · exact Or.inl (e2.trans e)
          · exact Or.inr ⟨r, i, b, List.mem_cons_of_mem _ e2, by rw [← e]; exact hni⟩
        · exact Or.inr ⟨r, i, b, by rw [e]; simp, hni⟩
    simp only [replay]
    by_cases hr : reaches c = true
    · rw [if_pos hr]
      obtain ⟨s1, s2, s3⟩ := memSys_step jobsPath jobs inputs failing c w
      exact step _ s1 s2 s3
    · rw [if_neg hr]
      exact step w (fun q h => h) (fun q h => Or.inl h) (Or.inl rfl)

theorem memSys_listing (jobsPath : String) (jobs : List (String × Job))
    (inputs : List String) (failing : Call → Bool) (p : String) (w : Store) :
    ∀ n ∈ ((memSys jobsPath jobs inputs failing).exec (.ReadDir p) w).1.names,
      n ∈ jobs.map Prod.fst := by
  intro n hn
  by_cases hf : failing (.ReadDir p) = true
  · simp [memSys, hf] at hn
  · by_cases hp : p = jobsPath
    · subst hp
      simp only [memSys, hf, Bool.false_eq_true, if_false, if_true] at hn
      exact hn
    · simp [memSys, hf, hp] at hn

/-! ## C7: what a second run of `Materialize` does and what it leaves alone -/

/-- C7 as amended.  Take the reference store in a state in which the commit has been
materialised: the output branch exists, the progress directory and the marker of every
listed job exist, and the commit of `outRepo` is made.  Under every schedule, a run of
`Materialize` with the same arguments runs the jobs again: when it has returned, the job
file of every entry `ReadDir` returned has been opened and the body of its task has been
run to its return.  At every point of the run the commits of the store are unchanged, no
path has been removed, and every path added is an output that a job has created with
`MkdirAll` or `CreateAll`; so the progress directory holds what it held before, as long
as no job creates an output below it. -/
theorem rematerialize_reruns_and_keeps (jobsPath : String) (jobs : List (String × Job))
    (inputs : List String) (failing : Call → Bool) (fuel : Nat) (inner : Nat → List Nat)
    (in_repo branch commit outRepo jobDir : String) (shard modulos : Nat) (sched : List Nat)
    (w : Store)
    (hbranch : pathJoin [outRepo, branch] ∈ w.files)
    (hdir : pathJoin [outRepo, branch, ".progress", commit] ∈ w.files)
    (hmarkers : ∀ name ∈ jobs.map Prod.fst,
      pathJoin [outRepo, branch, ".progress", commit, name] ∈ w.files)
    (hcommit : (outRepo, commit) ∈ w.commits) :
    (∀ ret, (Materialize (memSys jobsPath jobs inputs failing) fuel inner in_repo branch
        commit outRepo jobDir shard modulos sched w).pc = .returned ret →
      ∀ name ∈ (Materialize (memSys jobsPath jobs inputs failing) fuel inner in_repo branch
          commit outRepo jobDir shard modulos sched w).jobs,
        .Open (pathJoin [pathJoin [in_repo, commit, jobDir], name]) ∈
          (Materialize (memSys jobsPath jobs inputs failing) fuel inner in_repo branch commit
            outRepo jobDir shard modulos sched w).st.trace ∧
        .BodyReturned name ∈
          (Materialize (memSys jobsPath jobs inputs failing) fuel inner in_repo branch commit
            outRepo jobDir shard modulos sched w).st.trace) ∧
    (Materialize (memSys jobsPath jobs inputs failing) fuel inner in_repo branch commit
      outRepo jobDir shard modulos sched w).st.world.commits = w.commits ∧
    (∀ q ∈ w.files, q ∈ (Materialize (memSys jobsPath jobs inputs failing) fuel inner in_repo
      branch commit outRepo jobDir shard modulos sched w).st.world.files) ∧
    (∀ q ∈ (Materialize (memSys jobsPath jobs inputs failing) fuel inner in_repo branch
        commit outRepo jobDir shard modulos sched w).st.world.files,
      q ∈ w.files ∨ q ∈ outputs (Materialize (memSys jobsPath jobs inputs failing) fuel inner
        in_repo branch commit outRepo jobDir shard modulos sched w).st.trace) ∧
    ((∀ q ∈ outputs (Materialize (memSys jobsPath jobs inputs failing) fuel inner in_repo
          branch commit outRepo jobDir shard modulos sched w).st.trace,
        inDir (pathJoin [outRepo, branch, ".progress", commit]) q = true →
          q = pathJoin [outRepo, branch, ".progress", commit]) →
      ∀ q, inDir (pathJoin [outRepo, branch, ".progress", commit]) q = true →
        (q ∈ (Materialize (memSys jobsPath jobs inputs failing) fuel inner in_repo branch
            commit outRepo jobDir shard modulos sched w).st.world.files ↔ q ∈ w.files)) := by
  have rec := Materialize_recorded (memSys jobsPath jobs inputs failing) fuel inner in_repo
    branch commit outRepo jobDir shard modulos (jobs.map Prod.fst)
    (memSys_listing jobsPath jobs inputs failing) sched w
  obtain ⟨l, hl, hall, hw⟩ := rec.run
  simp only [List.nil_append] at hl
  simp only [] at hw
  obtain ⟨r1, r2, r3⟩ := memSys_replay jobsPath jobs inputs failing l w
  rw [← hw] at r1 r2 r3
  rw [← hl] at r2 r3 hall
  have hout : ∀ q, (.MkdirAll q ∈ (Materialize (memSys jobsPath jobs inputs failing) fuel
        inner in_repo branch commit outRepo jobDir shard modulos sched w).st.trace ∨
      .CreateAll q ∈ (Materialize (memSys jobsPath jobs inputs failing) fuel inner in_repo
        branch commit outRepo jobDir shard modulos sched w).st.trace) →
      q ∈ outputs (Materialize (memSys jobsPath jobs inputs failing) fuel inner in_repo
        branch commit outRepo jobDir shard modulos sched w).st.trace := by
    intro q h
    unfold outputs
    rw [List.mem_filterMap]
    rcases h with h | h
    · exact ⟨_, h, rfl⟩
    · exact ⟨_, h, rfl⟩
  have added : ∀ q ∈ (Materialize (memSys jobsPath jobs inputs failing) fuel inner in_repo
        branch commit outRepo jobDir shard modulos sched w).st.world.files,
      q ∈ w.files ∨ q ∈ outputs (Materialize (memSys jobsPath jobs inputs failing) fuel inner
        in_repo branch commit outRepo jobDir shard modulos sched w).st.trace := by
    intro q hq
    rcases r2 q hq with e | ⟨r, f, n, e, eq⟩ | e | e | e
    · exact Or.inl e
    · have ha := hall _ e
      simp only [allowed] at ha
      rw [eq, ha.1, ha.2]
      exact Or.inl hbranch
    · exact Or.inr (hout q (Or.inl e))
    · have ha := hall _ e
      simp only [allowed] at ha
      obtain ⟨name, hn, e2⟩ := ha
      rw [e2]
      exact Or.inl (hmarkers name hn)
    · exact Or.inr (hout q (Or.inr e))
  refine ⟨?_, ?_, r1, added, ?_⟩
  · intro ret hret name hname
    have inv := Materialize_inv (memSys jobsPath jobs inputs failing) fuel inner in_repo
      branch commit outRepo jobDir shard modulos sched w
    have hp := inv.phase
    unfold phaseOk at hp
    rw [hret] at hp
    simp only at hp
    obtain ⟨hj, hpend⟩ := hp
    rw [hj] at hname
    obtain ⟨t, htm, hte⟩ := List.mem_map.mp hname
    have := inv.started t htm (pending_zero _ hpend t htm).1
    rw [hte] at this
    exact this
  · rcases r3 with e | ⟨r, i, b, e, hni⟩
    · exact e
    · have ha := hall _ e
      simp only [allowed] at ha
      rw [ha.1, ha.2] at hni
      exact absurd hcommit hni
  · intro hno q hq
    constructor
    · intro h
      rcases added q h with e | e
      · exact e
      · rw [hno q e hq]
        exact hdir
    · exact r1 q

/-- C7 as amended, on the store the first run of the demonstration leaves behind: the
second run opens the job file of `wc` and runs its body again, and leaves the store as it
was. -/
theorem rematerialize_reruns_and_keeps_witness :
    (Materialize demoSys 5 (fun _ => []) "data" "master" "c1" "comp" "jobs" 0 1 demoSched
      demoStore).st.world = demoMaterialised ∧
    pathJoin ["comp", "master"] ∈ demoMaterialised.files ∧
    pathJoin ["comp", "master", ".progress", "c1"] ∈ demoMaterialised.files ∧
    (∀ name ∈ [("wc", demoReduce)].map Prod.fst,
      pathJoin ["comp", "master", ".progress", "c1", name] ∈ demoMaterialised.files) ∧
    ("comp", "c1") ∈ demoMaterialised.commits ∧
    (Materialize demoSys 5 (fun _ => []) "data" "master" "c1" "comp" "jobs" 0 1 demoSched
      demoMaterialised).pc = .returned none ∧
    (.Open (pathJoin [pathJoin ["data", "c1", "jobs"], "wc"]) ∈
        (Materialize demoSys 5 (fun _ => []) "data" "master" "c1" "comp" "jobs" 0 1 demoSched
          demoMaterialised).st.trace ∧
      .BodyReturned "wc" ∈
        (Materialize demoSys 5 (fun _ => []) "data" "master" "c1" "comp" "jobs" 0 1 demoSched
          demoMaterialised).st.trace) ∧
    (Materialize demoSys 5 (fun _ => []) "data" "master" "c1" "comp" "jobs" 0 1 demoSched
      demoMaterialised).st.world.commits = demoMaterialised.commits ∧
    (∀ q, inDir (pathJoin ["comp", "master", ".progress", "c1"]) q = true →
      (q ∈ (Materialize demoSys 5 (fun _ => []) "data" "master" "c1" "comp" "jobs" 0 1
          demoSched demoMaterialised).st.world.files ↔ q ∈ demoMaterialised.files)) ∧
    (Materialize demoSys 5 (fun _ => []) "data" "master" "c1" "comp" "jobs" 0 1 demoSched
      demoMaterialised).st.world = demoMaterialised :=
  ⟨by decide, by decide, by decide, by decide, by decide, by decide,
    (rematerialize_reruns_and_keeps "data/c1/jobs" [("wc", demoReduce)] ["a", "b"]
      (fun _ => false) 5 (fun _ => []) "data" "master" "c1" "comp" "jobs" 0 1 demoSched
      demoMaterialised (by decide) (by decide) (by decide) (by decide)).1 none (by decide)
      "wc" (by decide),
    (rematerialize_reruns_and_keeps "data/c1/jobs" [("wc", demoReduce)] ["a", "b"]
      (fun _ => false) 5 (fun _ => []) "data" "master" "c1" "comp" "jobs" 0 1 demoSched
      demoMaterialised (by decide) (by decide) (by decide) (by decide)).2.1,
    (rematerialize_reruns_and_keeps "data/c1/jobs" [("wc", demoReduce)] ["a", "b"]
      (fun _ => false) 5 (fun _ => []) "data" "master" "c1" "comp" "jobs" 0 1 demoSched
      demoMaterialised (by decide) (by decide) (by decide) (by decide)).2.2.2.2 (by decide),
    by decide⟩

/-- Why the progress directory is left alone only as long as no job writes below it: for
a map job whose file is named `.progress`, the output of the input file `c1/x` is the
path `comp/master/.progress/c1/x`, and a run of `Materialize` on a store in which the
commit is materialised adds it to the progress directory. -/
theorem rematerialize_adds_below_progress :
    pathJoin ["comp", "master"] ∈ progressJobStore.files ∧
    pathJoin ["comp", "master", ".progress", "c1"] ∈ progressJobStore.files ∧
    pathJoin ["comp", "master", ".progress", "c1", ".progress"] ∈ progressJobStore.files ∧
    ("comp", "c1") ∈ progressJobStore.commits ∧
    (Materialize progressJobSys 5 (fun _ => oneFileSched) "data" "master" "c1" "comp" "jobs"
      0 1 demoSched progressJobStore).pc = .returned none ∧
    inDir (pathJoin ["comp", "master", ".progress", "c1"]) "comp/master/.progress/c1/x" =
      true ∧
    "comp/master/.progress/c1/x" ∉ progressJobStore.files ∧
    "comp/master/.progress/c1/x" ∈
      (Materialize progressJobSys 5 (fun _ => oneFileSched) "data" "master" "c1" "comp"
        "jobs" 0 1 demoSched progressJobStore).st.world.files := by
  refine ⟨by decide, by decide, by decide, by decide, by decide, by decide, by decide,
    by decide⟩

end MapReduce
